import Mathlib

/-!
# expression-assembler: a verification development

A shallow embedding of the pipeline of the repository
(tokenizer, precedence-climbing parser, lowering pass, program assembler and
register interpreter) together with theorems about it.

Conventions of the embedding.

* A C string is the list of its characters before the terminating NUL; a
  `char*` cursor into the source is the suffix of the source that starts at
  the cursor, so reading `*p` is `peek p` (NUL at the end of the list) and
  `p++` is `List.tail`.
* `double` is the field of rationals: arithmetic is exact.
* An `ExprNode*` is a value of `ExprNode`; the constructor `ExprNode.null`
  is the NULL pointer. Dereferencing NULL is the fault `Fault.null_deref`.
* The recursive descent of the parser is bounded by a recursion budget
  (`fuel`), one unit per call and per loop iteration; the theorems give a
  budget that suffices.
* An `int` is an integer and a `uint32_t` counter a natural number. The
  model agrees with the C program while the register counter stays within
  the values of `int` that are not negative; `int_range` names that bound
  for the statements that need it.
* The register file `vars`/`var_names` is indexed by natural numbers and is
  not bounded above (the C arrays hold 127 slots, `register_file_size`); an
  access at a negative index is outside the array and is undefined behaviour
  (`Exec.ub`). The model agrees with the C program while every index that is
  read or written and the live count stay within the slots;
  `register_file_size` names that bound for the statements that need it.
* Diagnostics (`printf("ERROR ...")`) are not part of the modelled program
  output; only what the built-in `print` writes is.
-/

namespace ExprAsm

/-! ## lexer.h -/

inductive TokenType
  | TT_EOF | TT_ERROR | TT_IDENT | TT_NUM | TT_PLUS | TT_MINUS | TT_STAR | TT_SLASH
  | TT_LPAREN | TT_RPAREN | TT_COMMA | TT_ASSIGN
  deriving DecidableEq, Repr

/-- A token: `start` is the source suffix beginning at the token, `length`
the number of characters it spans. -/
structure Token where
  type : TokenType
  start : List Char
  length : Nat
  line : Nat
  deriving DecidableEq, Repr

def is_whitespace (c : Char) : Bool :=
  c == ' ' || c == '\t' || c == '\r' || c == '\n'

def is_digit (c : Char) : Bool :=
  decide ('0' ≤ c) && decide (c ≤ '9')

/-- The C library predicate `isalpha` in the C locale. -/
def isalpha (c : Char) : Bool :=
  (decide ('a' ≤ c) && decide (c ≤ 'z')) || (decide ('A' ≤ c) && decide (c ≤ 'Z'))

/-- Reading `*p`: the first character, or NUL at the end of the string. -/
def peek (p : List Char) : Char := p.headD '\x00'

structure Lexer where
  start : List Char
  current : List Char
  line : Nat
  length : Nat
  deriving DecidableEq, Repr

def lexer_create (expr : List Char) : Lexer :=
  { start := expr, current := expr, line := 1, length := expr.length }

def lexer_make_token (lexer : Lexer) (type : TokenType) : Token :=
  { type := type
    start := lexer.start
    length := lexer.start.length - lexer.current.length
    line := lexer.line }

/-- The loop `while (is_digit(*p)) p++`. -/
def skip_digits (p : List Char) : List Char := p.dropWhile is_digit

/-- The loop `while (isalpha(*p)) p++`. -/
def skip_alpha (p : List Char) : List Char := p.dropWhile isalpha

def lexer_number (lexer : Lexer) : Token × Lexer :=
  let cur1 := skip_digits lexer.current
  let cur2 :=
    if peek cur1 = '.' ∧ is_digit (peek cur1.tail) = true then
      skip_digits cur1.tail
    else cur1
  let lexer2 := { lexer with current := cur2 }
  (lexer_make_token lexer2 .TT_NUM, lexer2)

def lexer_identifier (lexer : Lexer) : Token × Lexer :=
  let lexer2 := { lexer with current := skip_alpha lexer.current }
  (lexer_make_token lexer2 .TT_IDENT, lexer2)

/-- The whitespace loop at the head of `lexer_next_token`: returns the
cursor after the whitespace and the updated line counter. -/
def skip_whitespace : List Char → Nat → List Char × Nat
  | [], line => ([], line)
  | c :: cs, line =>
    if is_whitespace c then
      skip_whitespace cs (if c = '\n' then line + 1 else line)
    else (c :: cs, line)

def lexer_next_token (lexer : Lexer) : Token × Lexer :=
  let ws := skip_whitespace lexer.current lexer.line
  let lexer1 : Lexer := { lexer with start := ws.1, current := ws.1, line := ws.2 }
  if peek lexer1.current = '\x00' then (lexer_make_token lexer1 .TT_EOF, lexer1)
  else
    let c := peek lexer1.current
    let lexer2 : Lexer := { lexer1 with current := lexer1.current.tail }
    if c = '+' then (lexer_make_token lexer2 .TT_PLUS, lexer2)
    else if c = '-' then (lexer_make_token lexer2 .TT_MINUS, lexer2)
    else if c = '*' then (lexer_make_token lexer2 .TT_STAR, lexer2)
    else if c = '/' then (lexer_make_token lexer2 .TT_SLASH, lexer2)
    else if c = '(' then (lexer_make_token lexer2 .TT_LPAREN, lexer2)
    else if c = ')' then (lexer_make_token lexer2 .TT_RPAREN, lexer2)
    else if c = ',' then (lexer_make_token lexer2 .TT_COMMA, lexer2)
    else if c = '=' then (lexer_make_token lexer2 .TT_ASSIGN, lexer2)
    else if is_digit c then lexer_number lexer2
    else if isalpha c then lexer_identifier lexer2
    else (lexer_make_token lexer2 .TT_ERROR, lexer2)

/-! ## parser.h -/

inductive ExprNodeType
  | NT_ERROR | NT_NUMBER | NT_POSITIVE | NT_NEGATIVE | NT_ADD | NT_SUB | NT_MUL | NT_DIV
  | NT_IDENT | NT_CALL | NT_ARGS | NT_ASSIGN
  deriving DecidableEq, Repr

/-- An `ExprNode*`. `null` is the NULL pointer; `number` is a node of type
`NT_NUMBER`, `ident` a node of type `NT_IDENT`; `unary` and `binary` carry
their node type and the `unary`/`binary` member of the union. -/
inductive ExprNode
  | null
  | number (number : ℚ) (top_level : Bool)
  | ident (identifier : List Char) (top_level : Bool)
  | unary (type : ExprNodeType) (operand : ExprNode) (top_level : Bool)
  | binary (type : ExprNodeType) (left right : ExprNode) (top_level : Bool)
  deriving DecidableEq, Repr

inductive NodeClass
  | NC_UNARY | NC_BINARY | NC_VALUE | NC_CALL | NC_ARGS
  deriving DecidableEq, Repr

def get_node_class_of_type : ExprNodeType → NodeClass
  | .NT_NUMBER => .NC_VALUE
  | .NT_POSITIVE => .NC_UNARY
  | .NT_NEGATIVE => .NC_UNARY
  | .NT_ADD => .NC_BINARY
  | .NT_SUB => .NC_BINARY
  | .NT_MUL => .NC_BINARY
  | .NT_DIV => .NC_BINARY
  | .NT_IDENT => .NC_VALUE
  | .NT_CALL => .NC_CALL
  | .NT_ARGS => .NC_ARGS
  | .NT_ASSIGN => .NC_BINARY
  | .NT_ERROR => .NC_UNARY

inductive Precedence
  | PREC_MIN | PREC_ASSIGN | PREC_TERM | PREC_FACTOR | PREC_MAX
  deriving DecidableEq, Repr

/-- The numeric value of a `Precedence` enumerator. -/
def Precedence.val : Precedence → Nat
  | .PREC_MIN => 0
  | .PREC_ASSIGN => 1
  | .PREC_TERM => 2
  | .PREC_FACTOR => 3
  | .PREC_MAX => 4

/-- The table `precedence[]`: entries without an initializer are zero,
that is `PREC_MIN`. -/
def precedence : TokenType → Precedence
  | .TT_PLUS => .PREC_TERM
  | .TT_MINUS => .PREC_TERM
  | .TT_STAR => .PREC_FACTOR
  | .TT_SLASH => .PREC_FACTOR
  | .TT_ASSIGN => .PREC_ASSIGN
  | _ => .PREC_MIN

structure Parser where
  lexer : Lexer
  curr : Token
  has_first : Bool
  deriving DecidableEq, Repr

def parser_advance (parser : Parser) : Parser :=
  let r := lexer_next_token parser.lexer
  { parser with curr := r.1, lexer := r.2 }

/-- The value of a decimal digit character. -/
def digit_value (c : Char) : Nat := c.toNat - '0'.toNat

/-- The natural number written by a run of decimal digits. -/
def digits_value (ds : List Char) : Nat :=
  ds.foldl (fun acc c => 10 * acc + digit_value c) 0

/-- The C library function `strtod` on the texts the tokenizer hands to it:
the longest prefix `digits` or `digits.digits` is converted, the value being
the integer part plus the fraction digits over the matching power of ten. -/
def strtod (str : List Char) : ℚ :=
  let ip := str.takeWhile is_digit
  let rest := str.dropWhile is_digit
  if peek rest = '.' then
    let fp := rest.tail.takeWhile is_digit
    (digits_value ip : ℚ) + (digits_value fp : ℚ) / (10 : ℚ) ^ fp.length
  else (digits_value ip : ℚ)

/-- The text a token spans. -/
def Token.text (token : Token) : List Char := token.start.take token.length

def token_to_double (token : Token) : ℚ := strtod token.text

/-- What can stop the C program short of a result: the recursion budget of
the model is exhausted (never happens in C), a NULL pointer is dereferenced,
or a node is read through the union member its type tag does not select (no
node built by the parser is). -/
inductive Fault
  | out_of_fuel
  | null_deref
  | bad_union
  deriving DecidableEq, Repr

def parser_parse_number (parser : Parser) : ExprNode × Parser :=
  if parser.curr.type ≠ .TT_NUM then (.null, parser)
  else (.number (token_to_double parser.curr) false, parser_advance parser)

def parser_parse_ident (parser : Parser) : ExprNode × Parser :=
  if parser.curr.type ≠ .TT_IDENT then (.null, parser)
  else (.ident parser.curr.text false, parser_advance parser)

/-- The assignment `node->top_level = true` through a non-NULL pointer. -/
def set_top_level : ExprNode → ExprNode
  | .null => .null
  | .number v _ => .number v true
  | .ident s _ => .ident s true
  | .unary t o _ => .unary t o true
  | .binary t l r _ => .binary t l r true

mutual

def parser_parse_args : Nat → Parser → Except Fault (ExprNode × Parser)
  | 0, _ => .error .out_of_fuel
  | fuel + 1, parser =>
    match parser_parse_expr fuel parser .PREC_MIN with
    | .error e => .error e
    | .ok (left, p1) =>
      if p1.curr.type = .TT_COMMA then
        match parser_parse_args fuel (parser_advance p1) with
        | .error e => .error e
        | .ok (right, p2) => .ok (.binary .NT_ARGS left right false, p2)
      else .ok (.binary .NT_ARGS left .null false, p1)

def parser_parse_infix_expr : Nat → Parser → Token → ExprNode → Except Fault (ExprNode × Parser)
  | 0, _, _, _ => .error .out_of_fuel
  | fuel + 1, parser, op, left =>
    if op.type = .TT_RPAREN then .ok (left, parser)
    else
      let type : ExprNodeType :=
        match op.type with
        | .TT_PLUS => .NT_ADD
        | .TT_MINUS => .NT_SUB
        | .TT_STAR => .NT_MUL
        | .TT_SLASH => .NT_DIV
        | .TT_ASSIGN => .NT_ASSIGN
        | _ => .NT_ERROR
      match parser_parse_expr fuel parser (precedence op.type) with
      | .error e => .error e
      | .ok (right, p1) => .ok (.binary type left right false, p1)

def parser_parse_terminal_expr : Nat → Parser → Except Fault (ExprNode × Parser)
  | 0, _ => .error .out_of_fuel
  | fuel + 1, parser =>
    let first : Except Fault (Option ExprNode × Parser) :=
      if parser.curr.type = .TT_NUM then
        .ok (some (parser_parse_number parser).1, (parser_parse_number parser).2)
      else if parser.curr.type = .TT_IDENT then
        .ok (some (parser_parse_ident parser).1, (parser_parse_ident parser).2)
      else if parser.curr.type = .TT_LPAREN then
        match parser_parse_expr fuel (parser_advance parser) .PREC_MIN with
        | .error e => .error e
        | .ok (node, p1) =>
          if p1.curr.type = .TT_RPAREN then .ok (some node, parser_advance p1)
          else if p1.curr.type = .TT_COMMA then .ok (some node, p1)
          else .ok (none, p1)
      else if parser.curr.type = .TT_PLUS then
        match parser_parse_terminal_expr fuel (parser_advance parser) with
        | .error e => .error e
        | .ok (operand, p1) => .ok (some (.unary .NT_POSITIVE operand false), p1)
      else if parser.curr.type = .TT_MINUS then
        match parser_parse_terminal_expr fuel (parser_advance parser) with
        | .error e => .error e
        | .ok (operand, p1) => .ok (some (.unary .NT_NEGATIVE operand false), p1)
      else .ok (none, parser)
    match first with
    | .error e => .error e
    | .ok (none, p1) => .ok (.null, p1)
    | .ok (some node, p1) =>
      if p1.curr.type = .TT_NUM ∨ p1.curr.type = .TT_LPAREN ∨ p1.curr.type = .TT_IDENT then
        match parser_parse_args fuel p1 with
        | .error e => .error e
        | .ok (args, p2) => .ok (.binary .NT_CALL node args false, p2)
      else .ok (node, p1)

/-- The `while (next_prec != PREC_MIN)` loop of `parser_parse_expr`. -/
def parser_parse_expr_loop :
    Nat → Parser → Precedence → ExprNode → Token → Except Fault (ExprNode × Parser)
  | 0, _, _, _, _ => .error .out_of_fuel
  | fuel + 1, parser, prec, left, op =>
    if precedence op.type = .PREC_MIN then .ok (left, parser)
    else if (precedence op.type).val ≤ prec.val then .ok (left, parser)
    else
      match parser_parse_infix_expr fuel (parser_advance parser) op left with
      | .error e => .error e
      | .ok (left2, p1) => parser_parse_expr_loop fuel p1 prec left2 p1.curr

def parser_parse_expr : Nat → Parser → Precedence → Except Fault (ExprNode × Parser)
  | 0, _, _ => .error .out_of_fuel
  | fuel + 1, parser, prec =>
    if parser.curr.type = .TT_EOF then .ok (.null, parser)
    else if parser.curr.type = .TT_COMMA then .ok (.null, parser)
    else
      match parser_parse_terminal_expr fuel parser with
      | .error e => .error e
      | .ok (left, p1) =>
        if p1.has_first = false ∧ left = .null then .error .null_deref
        else
          let left1 := if p1.has_first = false then set_top_level left else left
          let p2 : Parser := if p1.has_first = false then { p1 with has_first := true } else p1
          if p2.curr.type = .TT_EOF then .ok (left1, p2)
          else if p2.curr.type = .TT_COMMA then .ok (left1, p2)
          else if p2.curr.type = .TT_RPAREN then .ok (left1, p2)
          else parser_parse_expr_loop fuel p2 prec left1 p2.curr

end

def parser_create (expr : List Char) : Parser :=
  parser_advance { lexer := lexer_create expr,
                   curr := { type := .TT_EOF, start := [], length := 0, line := 0 },
                   has_first := false }

/-- The test at the head of `tree_free`: `true` when the node handed to it
carries the top-level mark, `false` when `tree_free` reports that it was
handed a part of a tree. -/
def tree_free_check : ExprNode → Except Fault Bool
  | .null => .error .null_deref
  | .number _ top_level => .ok top_level
  | .ident _ top_level => .ok top_level
  | .unary _ _ top_level => .ok top_level
  | .binary _ _ _ top_level => .ok top_level

/-! ## asm.h -/

/-- An operand. `VARIABLE` is a register `%i`; the index is a C `int`. The
length `len` of an argument list is the length of `args`. -/
inductive Data
  | CONSTANT (constant : ℚ)
  | VARIABLE (index : Int)
  | IDENTIFIER (identifier : List Char)
  | ARGLIST (args : List Data)
  deriving Repr

inductive BinaryOp
  | ADD | SUB | MUL | DIV | CALL | ASSIGN
  deriving DecidableEq, Repr

inductive UnaryOp
  | NEG
  deriving DecidableEq, Repr

/-- The instruction type tag together with the member of the union it
selects. -/
inductive InstructionData
  | BINARY (left right : Data) (op : BinaryOp)
  | UNARY (operand : Data) (op : UnaryOp)
  | SET (set : Data)
  deriving Repr

/-- An instruction; `out = -1` is the sentinel for no output. -/
structure Instruction where
  out : Int
  data : InstructionData
  deriving Repr

/-- The writer state; `cur_var` is an unsigned counter, here a natural
number (no program lowers 2^32 operators). -/
structure AsmWriter where
  instructions : List Instruction
  depth : Nat
  cur_var : Nat
  deriving Repr

/-- The operator `get_expr_bin_op` picks for a node type; `none` is its
default branch, which returns the value -1. -/
def get_expr_bin_op : ExprNodeType → Option BinaryOp
  | .NT_ADD => some .ADD
  | .NT_SUB => some .SUB
  | .NT_MUL => some .MUL
  | .NT_DIV => some .DIV
  | .NT_ASSIGN => some .ASSIGN
  | _ => none

def pushInstructionArr (aw : AsmWriter) (instr : Instruction) : AsmWriter :=
  { aw with instructions := aw.instructions ++ [instr] }

/-- The statement `.out = aw->cur_var++` followed by the push of the
instruction: returns the output index and the new writer. -/
def emit_fresh (aw : AsmWriter) (data : InstructionData) : Int × AsmWriter :=
  ((aw.cur_var : Int),
   pushInstructionArr { aw with cur_var := aw.cur_var + 1 } { out := (aw.cur_var : Int), data := data })

/-- The size of a tree, the measure of the mutual recursion of the
lowering pass. -/
def ExprNode.size : ExprNode → Nat
  | .null => 0
  | .number _ _ => 1
  | .ident _ _ => 1
  | .unary _ o _ => o.size + 1
  | .binary _ l r _ => l.size + r.size + 1

mutual

/-- Lowers a node and returns the output index. A NULL node is
dereferenced by `get_node_class`. For a value node the C code returns the
`variable` member of a constant or identifier operand, an unspecified
number that no caller uses; the model returns 0 there. -/
def parse_expr_tree : ExprNode → AsmWriter → Except Fault (Int × AsmWriter)
  | .null, _ => .error .null_deref
  | .number _ _, aw => .ok (0, aw)
  | .ident _ _, aw => .ok (0, aw)
  | .unary type operand _, aw =>
    match get_node_class_of_type type with
    | .NC_UNARY =>
      match get_data operand aw with
      | .error e => .error e
      | .ok (d, aw1) => .ok (emit_fresh aw1 (.UNARY d .NEG))
    | _ => .error .bad_union
  | .binary type left right _, aw =>
    match get_node_class_of_type type with
    | .NC_BINARY =>
      match get_data left aw with
      | .error e => .error e
      | .ok (l, aw1) =>
        match get_data right aw1 with
        | .error e => .error e
        | .ok (r, aw2) =>
          match get_expr_bin_op type with
          | none => .error .bad_union
          | some op =>
            match type, r with
            | .NT_ASSIGN, .VARIABLE _ =>
              .ok (-1, pushInstructionArr aw2 { out := -1, data := .BINARY l r op })
            | _, _ => .ok (emit_fresh aw2 (.BINARY l r op))
    | .NC_UNARY =>
      match get_data left aw with
      | .error e => .error e
      | .ok (d, aw1) => .ok (emit_fresh aw1 (.UNARY d .NEG))
    | .NC_CALL =>
      match get_data left aw with
      | .error e => .error e
      | .ok (l, aw1) =>
        match get_data right aw1 with
        | .error e => .error e
        | .ok (r, aw2) => .ok (emit_fresh aw2 (.BINARY l r .CALL))
    | .NC_ARGS => .ok (-1, aw)
    | .NC_VALUE => .error .bad_union
termination_by e => 2 * e.size
decreasing_by all_goals (simp only [ExprNode.size]; omega)

def get_data : ExprNode → AsmWriter → Except Fault (Data × AsmWriter)
  | .null, _ => .error .null_deref
  | .number v _, aw => .ok (.CONSTANT v, aw)
  | .ident s _, aw => .ok (.IDENTIFIER s, aw)
  | .binary .NT_ARGS left right t, aw =>
    match get_args (.binary .NT_ARGS left right t) aw with
    | .error e => .error e
    | .ok (args, aw1) => .ok (.ARGLIST args, aw1)
  | .unary type operand t, aw =>
    match parse_expr_tree (.unary type operand t) aw with
    | .error e => .error e
    | .ok (v, aw1) => .ok (.VARIABLE v, aw1)
  | .binary type left right t, aw =>
    match parse_expr_tree (.binary type left right t) aw with
    | .error e => .error e
    | .ok (v, aw1) => .ok (.VARIABLE v, aw1)
termination_by e => 2 * e.size + 1
decreasing_by all_goals (simp only [ExprNode.size]; omega)

/-- The two loops of the `NT_ARGS` branch of `get_data`: the chain of
`NT_ARGS` nodes is walked along `binary.right` and the `binary.left` of each
link is lowered, in order. -/
def get_args : ExprNode → AsmWriter → Except Fault (List Data × AsmWriter)
  | .binary .NT_ARGS left right _, aw =>
    match get_data left aw with
    | .error e => .error e
    | .ok (d, aw1) =>
      match get_args right aw1 with
      | .error e => .error e
      | .ok (ds, aw2) => .ok (d :: ds, aw2)
  | _, aw => .ok ([], aw)
termination_by e => 2 * e.size
decreasing_by all_goals (simp only [ExprNode.size]; omega)

end

/-- The function `asm_writer_create`: parse one statement and lower its tree
with the register counter starting at `var_offset`. -/
def asm_writer_create (fuel : Nat) (expr : List Char) (var_offset : Nat) :
    Except Fault AsmWriter :=
  match parser_parse_expr fuel (parser_create expr) .PREC_MIN with
  | .error e => .error e
  | .ok (expr_tree, _) =>
    match parse_expr_tree expr_tree { instructions := [], depth := 0, cur_var := var_offset } with
    | .error e => .error e
    | .ok (_, aw) => .ok aw

/-- One pass over the text for `strtok(str, ";")`: the characters of the
token being read at the head of the text, and the tokens after it. -/
def strtok_scan : List Char → List Char × List (List Char)
  | [] => ([], [])
  | c :: cs =>
    let r := strtok_scan cs
    if c = ';' then ([], if r.1 = [] then r.2 else r.1 :: r.2)
    else (c :: r.1, r.2)

/-- The successive results of `strtok(str, ";")`: the maximal non-empty
runs of characters other than the separator. -/
def strtok_all (str : List Char) : List (List Char) :=
  let r := strtok_scan str
  if r.1 = [] then r.2 else r.1 :: r.2

/-- The `while (token)` loop of `gen_code`. -/
def gen_code_loop (fuel : Nat) :
    List (List Char) → List Instruction → Nat → Except Fault (List Instruction)
  | [], instructions, _ => .ok instructions
  | token :: rest, instructions, offset =>
    match asm_writer_create fuel token offset with
    | .error e => .error e
    | .ok aw => gen_code_loop fuel rest (instructions ++ aw.instructions) aw.cur_var

def gen_code (fuel : Nat) (expr : List Char) : Except Fault (List Instruction) :=
  gen_code_loop fuel (strtok_all expr) [] 0

/-! ## main.c -/

/-- The interpreter state. The C arrays hold 127 slots; the model does not
bound them above. An anonymous register has the empty name. -/
structure InstrVM where
  vars : Nat → ℚ
  var_names : Nat → List Char
  var_count : Nat

/-- What the program writes to its output: `value v` is
`printf("%f ", v)` and `newline` is `printf("\n")`. -/
inductive OutItem
  | value (v : ℚ)
  | newline
  deriving DecidableEq, Repr

/-- The scan `for (i = 0; i < vm->var_count; i++) if (strcmp(...) == 0)`:
the first live register that carries the name. -/
def find_var (vm : InstrVM) (name : List Char) : Option Nat :=
  (List.range vm.var_count).find? (fun i => decide (vm.var_names i = name))

/-- Operand resolution; `none` is a read outside the array (negative
index). An unknown identifier and an argument list yield 0 after a
diagnostic. -/
def vm_get_var (vm : InstrVM) (var : Data) : Option ℚ :=
  match var with
  | .CONSTANT c => some c
  | .VARIABLE v => if v < 0 then none else some (vm.vars v.toNat)
  | .IDENTIFIER s =>
    match find_var vm s with
    | some i => some (vm.vars i)
    | none => some 0
  | .ARGLIST _ => some 0

/-- The function `update_vars` at a non-negative output index. -/
def update_vars (vm : InstrVM) (out : Nat) : InstrVM :=
  { vm with
    var_count := max vm.var_count (out + 1)
    var_names := fun i =>
      if vm.var_count ≤ i ∧ i < max vm.var_count (out + 1) then [] else vm.var_names i }

/-- The result of executing one instruction: go on with the next one
(with what was written to the output), `return` from `run_instructions`, or
undefined behaviour (an array access at a negative index). -/
inductive Exec
  | next (vm : InstrVM) (output : List OutItem)
  | halt (vm : InstrVM)
  | ub

/-- The statements `vm->vars[out] = v; update_vars(vm, out);`. -/
def store_result (vm : InstrVM) (out : Int) (v : ℚ) : Exec :=
  if out < 0 then .ub
  else .next (update_vars { vm with vars := Function.update vm.vars out.toNat v } out.toNat) []

/-- The cases `ADD`, `SUB`, `MUL`, `DIV`, which differ in the operator only. -/
def exec_arith (vm : InstrVM) (f : ℚ → ℚ → ℚ) (left right : Data) (out : Int) : Exec :=
  match vm_get_var vm left, vm_get_var vm right with
  | some a, some b => store_result vm out (f a b)
  | _, _ => .ub

/-- The step "delete old if exists" of the `ASSIGN` case. -/
def delete_old (vm : InstrVM) (foundold : Bool) (name : List Char) : InstrVM :=
  if foundold then
    match find_var vm name with
    | some i2 => { vm with var_names := Function.update vm.var_names i2 [] }
    | none => vm
  else vm

/-- The case `ASSIGN`. The freshness test `instr.out != vm->var_count`
compares the output index with the live-register count. -/
def exec_assign (vm : InstrVM) (left right : Data) (out : Int) : Exec :=
  match left with
  | .IDENTIFIER name =>
    let foundold := (find_var vm name).isSome
    match right with
    | .CONSTANT c =>
      if out ≠ (vm.var_count : Int) then .halt vm
      else
        .next (delete_old
          { vars := Function.update vm.vars vm.var_count c
            var_names := Function.update vm.var_names vm.var_count name
            var_count := vm.var_count + 1 } foundold name) []
    | .VARIABLE v =>
      if v < 0 then .ub
      else
        .next (delete_old
          { vm with var_names := Function.update vm.var_names v.toNat name } foundold name) []
    | .IDENTIFIER src =>
      match find_var vm src with
      | none => .halt vm
      | some i2 =>
        if out ≠ (vm.var_count : Int) then .halt vm
        else
          .next (delete_old
            { vars := Function.update vm.vars vm.var_count (vm.vars i2)
              var_names := Function.update vm.var_names vm.var_count name
              var_count := vm.var_count + 1 } foundold name) []
    | .ARGLIST _ => .halt vm
  | _ => .halt vm

/-- The print loop: the resolved value of each argument, in order; `none`
when an argument is read outside the array. -/
def print_args (vm : InstrVM) : List Data → Option (List OutItem)
  | [] => some []
  | a :: as =>
    match vm_get_var vm a, print_args vm as with
    | some v, some rest => some (.value v :: rest)
    | _, _ => none

/-- The name of the only built-in. -/
def print_name : List Char := ['p', 'r', 'i', 'n', 't']

/-- The case `CALL`. A callee other than `print` is reported and the loop
goes on with the next instruction. -/
def exec_call (vm : InstrVM) (left right : Data) (out : Int) : Exec :=
  match left with
  | .IDENTIFIER name =>
    if name = print_name then
      match right with
      | .ARGLIST args =>
        match print_args vm args with
        | none => .ub
        | some items =>
          match store_result vm out 0 with
          | .next vm1 _ => .next vm1 (items ++ [.newline])
          | r => r
      | _ => .halt vm
    else .next vm []
  | _ => .halt vm

/-- The body of the loop of `run_instructions`: one instruction. -/
def exec_instruction (vm : InstrVM) (instr : Instruction) : Exec :=
  match instr.data with
  | .BINARY left right .ADD => exec_arith vm (fun a b => a + b) left right instr.out
  | .BINARY left right .SUB => exec_arith vm (fun a b => a - b) left right instr.out
  | .BINARY left right .MUL => exec_arith vm (fun a b => a * b) left right instr.out
  | .BINARY left right .DIV => exec_arith vm (fun a b => a / b) left right instr.out
  | .BINARY left right .ASSIGN => exec_assign vm left right instr.out
  | .BINARY left right .CALL => exec_call vm left right instr.out
  | .UNARY operand .NEG =>
    match vm_get_var vm operand with
    | some a =>
      if instr.out < 0 then .ub
      else .next { vm with vars := Function.update vm.vars instr.out.toNat (-a) } []
    | none => .ub
  | .SET _ => .next vm []

/-- How a run ends: the loop ran to its end, an instruction returned from
`run_instructions`, or behaviour became undefined. -/
inductive Outcome
  | finished (vm : InstrVM) (output : List OutItem)
  | halted (vm : InstrVM) (output : List OutItem)
  | ub

/-- The loop of `run_instructions` from a given state and output so far. -/
def run_loop : List Instruction → InstrVM → List OutItem → Outcome
  | [], vm, output => .finished vm output
  | instr :: rest, vm, output =>
    match exec_instruction vm instr with
    | .next vm1 o => run_loop rest vm1 (output ++ o)
    | .halt vm1 => .halted vm1 output
    | .ub => .ub

/-- The function `run_instructions`. The state is allocated with `malloc`:
`mem` is whatever the fresh memory holds, and only `var_count` is set. -/
def run_instructions (mem : InstrVM) (instructions : List Instruction) : Outcome :=
  run_loop instructions { mem with var_count := 0 } []

/-! ## Vocabulary of the statements -/

/-- A source text of the form `d+` or `d+.d+`. -/
def is_number_literal (s : List Char) : Bool :=
  let ip := s.takeWhile is_digit
  let rest := s.dropWhile is_digit
  !ip.isEmpty &&
    (rest.isEmpty || (peek rest == '.' && !rest.tail.isEmpty && rest.tail.all is_digit))

/-- A source text that is a non-empty run of letters. -/
def is_identifier (s : List Char) : Bool := !s.isEmpty && s.all isalpha

/-- A text at which a number token ends: it starts with neither a digit
nor a dot. -/
def num_end (rest : List Char) : Bool := !is_digit (peek rest) && peek rest != '.'

/-- A text at which an identifier token ends: it does not start with a
letter. -/
def ident_end (rest : List Char) : Bool := !isalpha (peek rest)

/-- A character that is a token on its own. -/
def punct_type (c : Char) : Option TokenType :=
  if c = '+' then some .TT_PLUS
  else if c = '-' then some .TT_MINUS
  else if c = '*' then some .TT_STAR
  else if c = '/' then some .TT_SLASH
  else if c = '(' then some .TT_LPAREN
  else if c = ')' then some .TT_RPAREN
  else if c = ',' then some .TT_COMMA
  else if c = '=' then some .TT_ASSIGN
  else none

/-- The tree of one statement, as `asm_writer_create` obtains it. -/
def parse_source (fuel : Nat) (expr : List Char) : Except Fault ExprNode :=
  match parser_parse_expr fuel (parser_create expr) .PREC_MIN with
  | .error e => .error e
  | .ok (expr_tree, _) => .ok expr_tree

/-- The binary arithmetic operators of the additive level. -/
def additive_ops : List Char := ['+', '-']

/-- The binary arithmetic operators of the multiplicative level. -/
def multiplicative_ops : List Char := ['*', '/']

/-- The node type of a binary arithmetic operator character. -/
def arith_node (c : Char) : ExprNodeType :=
  if c = '+' then .NT_ADD
  else if c = '-' then .NT_SUB
  else if c = '*' then .NT_MUL
  else if c = '/' then .NT_DIV
  else .NT_ERROR

/-- The text of a call after its first argument: each further argument
preceded by a comma and a blank, then the closing parenthesis. -/
def call_args_text : List (List Char) → List Char
  | [] => [')']
  | c :: cs => ',' :: ' ' :: (c ++ call_args_text cs)

/-- The source `f(c, c1, ..., cn)`. -/
def call_source (f c : List Char) (cs : List (List Char)) : List Char :=
  f ++ '(' :: (c ++ call_args_text cs)

/-- The argument chain of number nodes, none of them marked top-level. -/
def args_chain : List ℚ → ExprNode
  | [] => .null
  | v :: vs => .binary .NT_ARGS (.number v false) (args_chain vs) false

/-- A tree with an operator at its root (not a bare value). -/
def has_operator : ExprNode → Bool
  | .unary _ _ _ => true
  | .binary _ _ _ _ => true
  | _ => false

/-- A fresh block of memory that happens to hold zeros and empty names. -/
def zero_memory : InstrVM := ⟨fun _ => 0, fun _ => [], 0⟩

/-- No two distinct live registers are bound to the same name; a register
with the empty name is anonymous, bound to no name. -/
def names_unique (vm : InstrVM) : Prop :=
  ∀ i j, i < vm.var_count → j < vm.var_count → vm.var_names i ≠ [] →
    vm.var_names i = vm.var_names j → i = j

/-- The state an instruction leaves, if it leaves one, satisfies `P`. -/
def Exec.state_satisfies (P : InstrVM → Prop) : Exec → Prop
  | .next vm _ => P vm
  | .halt vm => P vm
  | .ub => True

/-- The state a run ends in, if it ends in one, satisfies `P`. -/
def Outcome.state_satisfies (P : InstrVM → Prop) : Outcome → Prop
  | .finished vm _ => P vm
  | .halted vm _ => P vm
  | .ub => True

/-- The register an operand names when it is a register operand. -/
def Data.direct_registers : Data → List Int
  | .VARIABLE i => [i]
  | _ => []

/-- The register indices an operand references, directly or as an element of
an argument list. -/
def Data.registers : Data → List Int
  | .VARIABLE i => [i]
  | .ARGLIST args => args.flatMap Data.direct_registers
  | _ => []

/-- The register indices an instruction references as operands. -/
def Instruction.registers (instr : Instruction) : List Int :=
  match instr.data with
  | .BINARY left right _ => left.registers ++ right.registers
  | .UNARY operand _ => operand.registers
  | .SET d => d.registers

/-- A state with one live register, named `x` and holding 5. -/
def vm_x_is_5 : InstrVM :=
  ⟨Function.update (fun _ => 0) 0 5, Function.update (fun _ => []) 0 ['x'], 1⟩

/-- The arithmetic a binary operator of the instruction set computes; the
call and assignment operators compute none. -/
def arith_fun : BinaryOp → Option (ℚ → ℚ → ℚ)
  | .ADD => some (fun a b => a + b)
  | .SUB => some (fun a b => a - b)
  | .MUL => some (fun a b => a * b)
  | .DIV => some (fun a b => a / b)
  | _ => none

/-- The output register indices of a program that are not the no-output
sentinel, in program order. -/
def fresh_outputs (prog : List Instruction) : List Int :=
  (prog.map (fun instr => instr.out)).filter (fun o => decide (o ≠ -1))

/-- The writer `aw1` continues the writer `aw`: it holds the instructions of
`aw` followed by new ones, and the non-sentinel outputs of the new
instructions are, in order, the register indices from the counter of `aw` up
to the counter of `aw1`. -/
def Emits (aw aw1 : AsmWriter) : Prop :=
  ∃ is, aw1.instructions = aw.instructions ++ is ∧ aw.cur_var ≤ aw1.cur_var ∧
    fresh_outputs is
      = (List.range' aw.cur_var (aw1.cur_var - aw.cur_var)).map (fun (i : Nat) => (i : Int))

/-- Whether a node is a link of an argument chain. -/
def is_args_node : ExprNode → Bool
  | .binary t _ _ _ => decide (t = .NT_ARGS)
  | _ => false

/-- No link of an argument chain in the tree has a link of an argument chain
as its left child, the argument itself. -/
def args_flat : ExprNode → Bool
  | .null => true
  | .number _ _ => true
  | .ident _ _ => true
  | .unary _ o _ => args_flat o
  | .binary t l r _ =>
    args_flat l && args_flat r && (!decide (t = .NT_ARGS) || !is_args_node l)

/-- A tree that can stand as an operand or an argument: it is not itself a
link of an argument chain and every argument within it is one. -/
def is_operand_tree (e : ExprNode) : Bool := args_flat e && !is_args_node e

def Data.is_arglist : Data → Bool
  | .ARGLIST _ => true
  | _ => false

/-- An operand that is not an argument list, or an argument list none of
whose elements is an argument list. -/
def Data.flat : Data → Bool
  | .ARGLIST args => args.all (fun d => !d.is_arglist)
  | _ => true

/-- The operands of an instruction. -/
def Instruction.operands (instr : Instruction) : List Data :=
  match instr.data with
  | .BINARY left right _ => [left, right]
  | .UNARY operand _ => [operand]
  | .SET d => [d]

/-- Every operand of every instruction is flat. -/
def flat_program (prog : List Instruction) : Prop :=
  ∀ instr ∈ prog, ∀ d ∈ instr.operands, d.flat = true

def Data.is_identifier : Data → Bool
  | .IDENTIFIER _ => true
  | _ => false

/-- The conditions of the `ASSIGN` and `CALL` cases under which the
instruction reports an error and returns: an assignment whose left side is
not an identifier, whose constant or identifier right side meets an output
index other than the live count, whose identifier right side is bound to no
live register, or whose right side is an argument list; a call whose callee
is not an identifier. -/
def rule_violation (vm : InstrVM) (instr : Instruction) : Bool :=
  match instr.data with
  | .BINARY left right .ASSIGN =>
    match left, right with
    | .IDENTIFIER _, .CONSTANT _ => decide (instr.out ≠ (vm.var_count : Int))
    | .IDENTIFIER _, .IDENTIFIER m =>
      (find_var vm m).isNone || decide (instr.out ≠ (vm.var_count : Int))
    | .IDENTIFIER _, .VARIABLE _ => false
    | .IDENTIFIER _, .ARGLIST _ => true
    | _, _ => true
  | .BINARY left _ .CALL => !left.is_identifier
  | _ => false

/-- A program of three instructions: `print(1)`, the assignment `5 = 1` and
`print(2)`. -/
def print_assign_print : List Instruction :=
  [⟨0, .BINARY (.IDENTIFIER print_name) (.ARGLIST [.CONSTANT 1]) .CALL⟩,
   ⟨1, .BINARY (.CONSTANT 5) (.CONSTANT 1) .ASSIGN⟩,
   ⟨1, .BINARY (.IDENTIFIER print_name) (.ARGLIST [.CONSTANT 2]) .CALL⟩]

/-- An argument text: a number literal or an identifier. -/
def is_simple_argument (a : List Char) : Bool := is_number_literal a || is_identifier a

/-- The node of an argument text. -/
def argument_node (a : List Char) (top_level : Bool) : ExprNode :=
  if is_identifier a then .ident a top_level else .number (strtod a) top_level

/-- The token type of an argument text. -/
def argument_token_type (a : List Char) : TokenType :=
  if is_identifier a then .TT_IDENT else .TT_NUM

/-- The argument chain of the argument texts, none of them marked
top-level, with the continuation of the last link absent. -/
def argument_chain : List (List Char) → ExprNode
  | [] => .null
  | a :: as => .binary .NT_ARGS (argument_node a false) (argument_chain as) false

/-- The chain of argument links that hold the values `vals`, in order, and
end in `tail`. -/
def arg_links : List ExprNode → ExprNode → ExprNode
  | [], tail => tail
  | v :: vs, tail => .binary .NT_ARGS v (arg_links vs tail) false

/-- Lowering the values one after the other with `get_data`, each from the
writer the one before it left. -/
def lower_each : List ExprNode → AsmWriter → Except Fault (List Data × AsmWriter)
  | [], aw => .ok ([], aw)
  | v :: vs, aw =>
    match get_data v aw with
    | .error e => .error e
    | .ok (d, aw1) =>
      match lower_each vs aw1 with
      | .error e => .error e
      | .ok (ds, aw2) => .ok (d :: ds, aw2)

/-- A register index moved by the offset `k`; the value -1, which stands for
no register, stays. -/
def shift_index (k : Nat) (i : Int) : Int := if i = -1 then -1 else i + (k : Int)

mutual

/-- An operand with the function `f` applied to its register indices, those
of the elements of an argument list included. -/
def Data.map_registers (f : Int → Int) : Data → Data
  | .CONSTANT c => .CONSTANT c
  | .VARIABLE i => .VARIABLE (f i)
  | .IDENTIFIER s => .IDENTIFIER s
  | .ARGLIST args => .ARGLIST (Data.map_registers_list f args)

def Data.map_registers_list (f : Int → Int) : List Data → List Data
  | [] => []
  | d :: ds => d.map_registers f :: Data.map_registers_list f ds

end

def InstructionData.map_registers (f : Int → Int) : InstructionData → InstructionData
  | .BINARY left right op => .BINARY (left.map_registers f) (right.map_registers f) op
  | .UNARY operand op => .UNARY (operand.map_registers f) op
  | .SET d => .SET (d.map_registers f)

/-- An instruction with its output index and its register operands moved by
the offset `k`, the value -1 staying in both places. -/
def Instruction.shift (k : Nat) (instr : Instruction) : Instruction :=
  ⟨shift_index k instr.out, instr.data.map_registers (shift_index k)⟩

/-- A writer with its instructions and its counter moved by the offset
`k`. -/
def AsmWriter.shift (k : Nat) (aw : AsmWriter) : AsmWriter :=
  ⟨aw.instructions.map (Instruction.shift k), aw.depth, aw.cur_var + k⟩

/-- An instruction with `k` added to its output index unless that is the
sentinel, and `k` added to every register operand. -/
def Instruction.add_offset (k : Nat) (instr : Instruction) : Instruction :=
  ⟨shift_index k instr.out, instr.data.map_registers (fun i => i + (k : Int))⟩

/-- The source `x = (y = 1 + 2)`. -/
def nested_assign_source : List Char :=
  ['x', ' ', '=', ' ', '(', 'y', ' ', '=', ' ', '1', ' ', '+', ' ', '2', ')']

/-- The instructions of `x = (y = 1 + 2)` lowered from offset 0. The outer
assignment takes as its right operand the value -1 that lowering the inner
assignment returns. -/
def nested_assign_at_0 : List Instruction :=
  [⟨0, .BINARY (.CONSTANT 1) (.CONSTANT 2) .ADD⟩,
   ⟨-1, .BINARY (.IDENTIFIER ['y']) (.VARIABLE 0) .ASSIGN⟩,
   ⟨-1, .BINARY (.IDENTIFIER ['x']) (.VARIABLE (-1)) .ASSIGN⟩]

/-- The instructions of `x = (y = 1 + 2)` lowered from offset 1. -/
def nested_assign_at_1 : List Instruction :=
  [⟨1, .BINARY (.CONSTANT 1) (.CONSTANT 2) .ADD⟩,
   ⟨-1, .BINARY (.IDENTIFIER ['y']) (.VARIABLE 1) .ASSIGN⟩,
   ⟨-1, .BINARY (.IDENTIFIER ['x']) (.VARIABLE (-1)) .ASSIGN⟩]

/-- The tokens of `n` successive calls of `lexer_next_token`. -/
def token_stream : Nat → Lexer → List Token
  | 0, _ => []
  | n + 1, lexer => (lexer_next_token lexer).1 :: token_stream n (lexer_next_token lexer).2

/-- A token without its line number: type, start and length. -/
def Token.span (t : Token) : TokenType × List Char × Nat := (t.type, t.start, t.length)

/-- A character of a source text for which the tokenizer has no token: not
whitespace, not a digit, not a letter, none of `+ - * / ( ) , =` (and not the
terminator NUL, which no character of a C string is). -/
def is_unrecognized (c : Char) : Bool :=
  !is_whitespace c && !is_digit c && !isalpha c && (punct_type c).isNone && c != '\x00'

/-- The number of line feeds in a text. -/
def count_newlines (ws : List Char) : Nat := ws.count '\n'

/-- Every register operand of every instruction of the list is the value -1
or the non-sentinel output of an instruction earlier in the list. -/
def operands_defined (is : List Instruction) : Prop :=
  ∀ pre instr post, is = pre ++ instr :: post →
    ∀ r ∈ instr.registers, r = -1 ∨ r ∈ fresh_outputs pre

/-- The writer `aw1` holds the instructions of `aw` followed by new ones whose
register operands are -1 or outputs of earlier new instructions, and so are
the register indices `rs`. -/
def Defines (aw aw1 : AsmWriter) (rs : List Int) : Prop :=
  ∃ is, aw1.instructions = aw.instructions ++ is ∧ operands_defined is ∧
    ∀ r ∈ rs, r = -1 ∨ r ∈ fresh_outputs is

/-- The number of slots of the register file: `double vars[127]` and
`char* var_names[127]`. -/
def register_file_size : Nat := 127

theorem char_le_iff (a b : Char) : a ≤ b ↔ a.toNat ≤ b.toNat := by
  rw [Char.le_def]; exact Iff.rfl

theorem is_digit_iff (c : Char) : is_digit c = true ↔ 48 ≤ c.toNat ∧ c.toNat ≤ 57 := by
  simp only [is_digit, Bool.and_eq_true, decide_eq_true_eq, char_le_iff]
  exact Iff.rfl

theorem isalpha_iff (c : Char) :
    isalpha c = true ↔ (97 ≤ c.toNat ∧ c.toNat ≤ 122) ∨ (65 ≤ c.toNat ∧ c.toNat ≤ 90) := by
  simp only [isalpha, Bool.or_eq_true, Bool.and_eq_true, decide_eq_true_eq, char_le_iff]
  exact Iff.rfl

theorem is_digit_not_alpha (c : Char) (h : is_digit c = true) : isalpha c = false := by
  rw [is_digit_iff] at h
  cases hc : isalpha c with
  | false => rfl
  | true => rw [isalpha_iff] at hc; omega

theorem isalpha_not_digit (c : Char) (h : isalpha c = true) : is_digit c = false := by
  cases hc : is_digit c with
  | false => rfl
  | true => rw [is_digit_not_alpha c hc] at h; exact absurd h (by decide)

theorem is_digit_ne (k : Char) (hk : is_digit k = false) (c : Char) (h : is_digit c = true) :
    c ≠ k := by
  rintro rfl; rw [h] at hk; exact absurd hk (by decide)

theorem isalpha_ne (k : Char) (hk : isalpha k = false) (c : Char) (h : isalpha c = true) :
    c ≠ k := by
  rintro rfl; rw [h] at hk; exact absurd hk (by decide)

theorem is_digit_not_whitespace (c : Char) (h : is_digit c = true) : is_whitespace c = false := by
  have h1 := is_digit_ne ' ' (by decide) c h
  have h2 := is_digit_ne '\t' (by decide) c h
  have h3 := is_digit_ne '\r' (by decide) c h
  have h4 := is_digit_ne '\n' (by decide) c h
  simp [is_whitespace, h1, h2, h3, h4]

theorem isalpha_not_whitespace (c : Char) (h : isalpha c = true) : is_whitespace c = false := by
  have h1 := isalpha_ne ' ' (by decide) c h
  have h2 := isalpha_ne '\t' (by decide) c h
  have h3 := isalpha_ne '\r' (by decide) c h
  have h4 := isalpha_ne '\n' (by decide) c h
  simp [is_whitespace, h1, h2, h3, h4]

/-! ## The scanning loops -/

theorem skip_digits_append (ds rest : List Char) (h : ∀ c ∈ ds, is_digit c = true) :
    skip_digits (ds ++ rest) = skip_digits rest := by
  induction ds with
  | nil => rfl
  | cons d ds ih =>
    have hd : is_digit d = true := h d (List.mem_cons_self _ _)
    have := ih (fun c hc => h c (List.mem_cons_of_mem _ hc))
    simpa [skip_digits, List.dropWhile, hd] using this

theorem skip_digits_stop (rest : List Char) (h : is_digit (peek rest) = false) :
    skip_digits rest = rest := by
  cases rest with
  | nil => rfl
  | cons c cs =>
    have hc : is_digit c = false := h
    simp [skip_digits, List.dropWhile, hc]

theorem skip_alpha_append (ds rest : List Char) (h : ∀ c ∈ ds, isalpha c = true) :
    skip_alpha (ds ++ rest) = skip_alpha rest := by
  induction ds with
  | nil => rfl
  | cons d ds ih =>
    have hd : isalpha d = true := h d (List.mem_cons_self _ _)
    have := ih (fun c hc => h c (List.mem_cons_of_mem _ hc))
    simpa [skip_alpha, List.dropWhile, hd] using this

theorem skip_alpha_stop (rest : List Char) (h : isalpha (peek rest) = false) :
    skip_alpha rest = rest := by
  cases rest with
  | nil => rfl
  | cons c cs =>
    have hc : isalpha c = false := h
    simp [skip_alpha, List.dropWhile, hc]

/-- A number literal splits into a leading digit, further digits, and
either nothing or a dot with a non-empty run of digits. -/
theorem is_number_literal_split (s : List Char) (hs : is_number_literal s = true) :
    ∃ d ds tl, s = d :: (ds ++ tl) ∧ is_digit d = true ∧ (∀ c ∈ ds, is_digit c = true) ∧
      (tl = [] ∨ ∃ f fp, tl = '.' :: f :: fp ∧ is_digit f = true ∧ ∀ c ∈ fp, is_digit c = true) := by
  unfold is_number_literal at hs
  simp only [Bool.and_eq_true, Bool.not_eq_true', Bool.or_eq_true, beq_iff_eq,
    List.isEmpty_eq_true, List.all_eq_true] at hs
  obtain ⟨hip, htl⟩ := hs
  have hsplit : s = s.takeWhile is_digit ++ s.dropWhile is_digit :=
    (List.takeWhile_append_dropWhile is_digit s).symm
  have hall : ∀ c ∈ s.takeWhile is_digit, is_digit c = true :=
    fun c hc => List.mem_takeWhile_imp hc
  generalize s.takeWhile is_digit = ip at hip hsplit hall
  generalize s.dropWhile is_digit = tl at htl hsplit
  cases ip with
  | nil => simp at hip
  | cons d ds =>
    refine ⟨d, ds, tl, by simpa using hsplit, hall d (List.mem_cons_self _ _),
      fun c hc => hall c (List.mem_cons_of_mem _ hc), ?_⟩
    rcases htl with htl | ⟨⟨hdot, hne⟩, hfp⟩
    · left; simpa using htl
    · right
      cases tl with
      | nil => simp [peek] at hdot
      | cons t tl2 =>
        have ht : t = '.' := hdot
        subst ht
        cases tl2 with
        | nil => simp at hne
        | cons f fp =>
          exact ⟨f, fp, rfl, hfp f (List.mem_cons_self _ _),
            fun c hc => hfp c (List.mem_cons_of_mem _ hc)⟩

/-! ## One call of the tokenizer -/

theorem lexer_next_token_space (st cs : List Char) (line len : Nat) :
    lexer_next_token ⟨st, ' ' :: cs, line, len⟩ = lexer_next_token ⟨st, cs, line, len⟩ := by
  simp [lexer_next_token, skip_whitespace, is_whitespace]

theorem lexer_next_token_nil (st : List Char) (line len : Nat) :
    lexer_next_token ⟨st, [], line, len⟩
      = (⟨.TT_EOF, [], 0, line⟩, ⟨[], [], line, len⟩) := by
  simp [lexer_next_token, skip_whitespace, peek, lexer_make_token]


theorem lexer_next_token_punct (c : Char) (t : TokenType) (h : punct_type c = some t)
    (st cs : List Char) (line len : Nat) :
    lexer_next_token ⟨st, c :: cs, line, len⟩
      = (⟨t, c :: cs, 1, line⟩, ⟨c :: cs, cs, line, len⟩) := by
  unfold punct_type at h
  split_ifs at h with h1 h2 h3 h4 h5 h6 h7 h8 <;>
    simp only [Option.some.injEq, reduceCtorEq] at h <;> subst h <;>
    first
      | subst h1 | subst h2 | subst h3 | subst h4 | subst h5 | subst h6 | subst h7 | subst h8
  all_goals
    simp [lexer_next_token, skip_whitespace, is_whitespace, peek, lexer_make_token]

theorem peek_cons (c : Char) (cs : List Char) : peek (c :: cs) = c := rfl

theorem lexer_next_token_number (s rest st : List Char) (line len : Nat)
    (hs : is_number_literal s = true) (hr : num_end rest = true) :
    lexer_next_token ⟨st, s ++ rest, line, len⟩
      = (⟨.TT_NUM, s ++ rest, s.length, line⟩, ⟨s ++ rest, rest, line, len⟩) := by
  obtain ⟨d, ds, tl, rfl, hd, hds, htl⟩ := is_number_literal_split s hs
  simp only [num_end, Bool.and_eq_true, Bool.not_eq_true', bne_iff_ne, ne_eq] at hr
  obtain ⟨hr1, hr2⟩ := hr
  have hw := is_digit_not_whitespace d hd
  have e0 := is_digit_ne '\x00' (by decide) d hd
  have e1 := is_digit_ne '+' (by decide) d hd
  have e2 := is_digit_ne '-' (by decide) d hd
  have e3 := is_digit_ne '*' (by decide) d hd
  have e4 := is_digit_ne '/' (by decide) d hd
  have e5 := is_digit_ne '(' (by decide) d hd
  have e6 := is_digit_ne ')' (by decide) d hd
  have e7 := is_digit_ne ',' (by decide) d hd
  have e8 := is_digit_ne '=' (by decide) d hd
  rcases htl with rfl | ⟨f, fp, rfl, hf, hfp⟩
  · have h1 : skip_digits (ds ++ rest) = rest := by
      rw [skip_digits_append ds rest hds, skip_digits_stop rest hr1]
    simp [lexer_next_token, skip_whitespace, hw, peek_cons, e0, e1, e2, e3, e4, e5, e6, e7, e8,
      hd, lexer_number, lexer_make_token, h1, hr2]
    omega
  · have h1 : skip_digits (ds ++ '.' :: f :: (fp ++ rest)) = '.' :: f :: (fp ++ rest) := by
      rw [skip_digits_append ds _ hds]
      exact skip_digits_stop _ (by rw [peek_cons]; decide)
    have h2 : skip_digits (f :: (fp ++ rest)) = rest := by
      have : f :: (fp ++ rest) = (f :: fp) ++ rest := rfl
      rw [this, skip_digits_append (f :: fp) rest, skip_digits_stop rest hr1]
      intro c hc
      rcases List.mem_cons.1 hc with rfl | hc
      · exact hf
      · exact hfp c hc
    simp [lexer_next_token, skip_whitespace, hw, peek_cons, e0, e1, e2, e3, e4, e5, e6, e7, e8,
      hd, lexer_number, lexer_make_token, h1, h2, hf]
    omega

theorem lexer_next_token_identifier (s rest st : List Char) (line len : Nat)
    (hs : is_identifier s = true) (hr : ident_end rest = true) :
    lexer_next_token ⟨st, s ++ rest, line, len⟩
      = (⟨.TT_IDENT, s ++ rest, s.length, line⟩, ⟨s ++ rest, rest, line, len⟩) := by
  simp only [is_identifier, Bool.and_eq_true, Bool.not_eq_true', List.isEmpty_eq_true,
    List.all_eq_true] at hs
  simp only [ident_end, Bool.not_eq_true'] at hr
  cases s with
  | nil => simp at hs
  | cons d ds =>
    have hd : isalpha d = true := hs.2 d (List.mem_cons_self _ _)
    have hds : ∀ c ∈ ds, isalpha c = true := fun c hc => hs.2 c (List.mem_cons_of_mem _ hc)
    have hw := isalpha_not_whitespace d hd
    have hg := isalpha_not_digit d hd
    have e0 := isalpha_ne '\x00' (by decide) d hd
    have e1 := isalpha_ne '+' (by decide) d hd
    have e2 := isalpha_ne '-' (by decide) d hd
    have e3 := isalpha_ne '*' (by decide) d hd
    have e4 := isalpha_ne '/' (by decide) d hd
    have e5 := isalpha_ne '(' (by decide) d hd
    have e6 := isalpha_ne ')' (by decide) d hd
    have e7 := isalpha_ne ',' (by decide) d hd
    have e8 := isalpha_ne '=' (by decide) d hd
    have h1 : skip_alpha (ds ++ rest) = rest := by
      rw [skip_alpha_append ds rest hds, skip_alpha_stop rest hr]
    simp [lexer_next_token, skip_whitespace, hw, peek_cons, e0, e1, e2, e3, e4, e5, e6, e7, e8,
      hd, hg, lexer_identifier, lexer_make_token, h1]
    omega



/-! ## One step of the parser cursor -/

theorem parser_advance_space (st cs : List Char) (line len : Nat) (curr : Token) (hf : Bool) :
    parser_advance ⟨⟨st, ' ' :: cs, line, len⟩, curr, hf⟩
      = parser_advance ⟨⟨st, cs, line, len⟩, curr, hf⟩ := by
  simp only [parser_advance, lexer_next_token_space]

theorem parser_advance_nil (st : List Char) (line len : Nat) (curr : Token) (hf : Bool) :
    parser_advance ⟨⟨st, [], line, len⟩, curr, hf⟩
      = ⟨⟨[], [], line, len⟩, ⟨.TT_EOF, [], 0, line⟩, hf⟩ := by
  simp only [parser_advance, lexer_next_token_nil]

theorem parser_advance_punct (c : Char) (t : TokenType) (h : punct_type c = some t)
    (st cs : List Char) (line len : Nat) (curr : Token) (hf : Bool) :
    parser_advance ⟨⟨st, c :: cs, line, len⟩, curr, hf⟩
      = ⟨⟨c :: cs, cs, line, len⟩, ⟨t, c :: cs, 1, line⟩, hf⟩ := by
  simp only [parser_advance, lexer_next_token_punct c t h]

theorem parser_advance_number (s rest st : List Char) (line len : Nat) (curr : Token) (hf : Bool)
    (hs : is_number_literal s = true) (hr : num_end rest = true) :
    parser_advance ⟨⟨st, s ++ rest, line, len⟩, curr, hf⟩
      = ⟨⟨s ++ rest, rest, line, len⟩, ⟨.TT_NUM, s ++ rest, s.length, line⟩, hf⟩ := by
  simp only [parser_advance, lexer_next_token_number s rest st line len hs hr]

theorem parser_advance_identifier (s rest st : List Char) (line len : Nat) (curr : Token)
    (hf : Bool) (hs : is_identifier s = true) (hr : ident_end rest = true) :
    parser_advance ⟨⟨st, s ++ rest, line, len⟩, curr, hf⟩
      = ⟨⟨s ++ rest, rest, line, len⟩, ⟨.TT_IDENT, s ++ rest, s.length, line⟩, hf⟩ := by
  simp only [parser_advance, lexer_next_token_identifier s rest st line len hs hr]

theorem text_of_span (s rest : List Char) (t : TokenType) (line : Nat) :
    Token.text ⟨t, s ++ rest, s.length, line⟩ = s := by
  simp [Token.text]

theorem parser_advance_plus (st cs : List Char) (line len : Nat) (curr : Token) (hf : Bool) :
    parser_advance ⟨⟨st, '+' :: cs, line, len⟩, curr, hf⟩
      = ⟨⟨'+' :: cs, cs, line, len⟩, ⟨.TT_PLUS, '+' :: cs, 1, line⟩, hf⟩ :=
  parser_advance_punct '+' .TT_PLUS (by decide) _ _ _ _ _ _

theorem parser_advance_minus (st cs : List Char) (line len : Nat) (curr : Token) (hf : Bool) :
    parser_advance ⟨⟨st, '-' :: cs, line, len⟩, curr, hf⟩
      = ⟨⟨'-' :: cs, cs, line, len⟩, ⟨.TT_MINUS, '-' :: cs, 1, line⟩, hf⟩ :=
  parser_advance_punct '-' .TT_MINUS (by decide) _ _ _ _ _ _

theorem parser_advance_star (st cs : List Char) (line len : Nat) (curr : Token) (hf : Bool) :
    parser_advance ⟨⟨st, '*' :: cs, line, len⟩, curr, hf⟩
      = ⟨⟨'*' :: cs, cs, line, len⟩, ⟨.TT_STAR, '*' :: cs, 1, line⟩, hf⟩ :=
  parser_advance_punct '*' .TT_STAR (by decide) _ _ _ _ _ _

theorem parser_advance_slash (st cs : List Char) (line len : Nat) (curr : Token) (hf : Bool) :
    parser_advance ⟨⟨st, '/' :: cs, line, len⟩, curr, hf⟩
      = ⟨⟨'/' :: cs, cs, line, len⟩, ⟨.TT_SLASH, '/' :: cs, 1, line⟩, hf⟩ :=
  parser_advance_punct '/' .TT_SLASH (by decide) _ _ _ _ _ _

theorem parser_advance_lparen (st cs : List Char) (line len : Nat) (curr : Token) (hf : Bool) :
    parser_advance ⟨⟨st, '(' :: cs, line, len⟩, curr, hf⟩
      = ⟨⟨'(' :: cs, cs, line, len⟩, ⟨.TT_LPAREN, '(' :: cs, 1, line⟩, hf⟩ :=
  parser_advance_punct '(' .TT_LPAREN (by decide) _ _ _ _ _ _

theorem parser_advance_rparen (st cs : List Char) (line len : Nat) (curr : Token) (hf : Bool) :
    parser_advance ⟨⟨st, ')' :: cs, line, len⟩, curr, hf⟩
      = ⟨⟨')' :: cs, cs, line, len⟩, ⟨.TT_RPAREN, ')' :: cs, 1, line⟩, hf⟩ :=
  parser_advance_punct ')' .TT_RPAREN (by decide) _ _ _ _ _ _

theorem parser_advance_comma (st cs : List Char) (line len : Nat) (curr : Token) (hf : Bool) :
    parser_advance ⟨⟨st, ',' :: cs, line, len⟩, curr, hf⟩
      = ⟨⟨',' :: cs, cs, line, len⟩, ⟨.TT_COMMA, ',' :: cs, 1, line⟩, hf⟩ :=
  parser_advance_punct ',' .TT_COMMA (by decide) _ _ _ _ _ _

theorem parser_advance_assign (st cs : List Char) (line len : Nat) (curr : Token) (hf : Bool) :
    parser_advance ⟨⟨st, '=' :: cs, line, len⟩, curr, hf⟩
      = ⟨⟨'=' :: cs, cs, line, len⟩, ⟨.TT_ASSIGN, '=' :: cs, 1, line⟩, hf⟩ :=
  parser_advance_punct '=' .TT_ASSIGN (by decide) _ _ _ _ _ _

theorem parser_advance_number_end (s st : List Char) (line len : Nat) (curr : Token) (hf : Bool)
    (hs : is_number_literal s = true) :
    parser_advance ⟨⟨st, s, line, len⟩, curr, hf⟩
      = ⟨⟨s, [], line, len⟩, ⟨.TT_NUM, s, s.length, line⟩, hf⟩ := by
  simpa using parser_advance_number s [] st line len curr hf hs rfl

theorem parser_advance_identifier_end (s st : List Char) (line len : Nat) (curr : Token)
    (hf : Bool) (hs : is_identifier s = true) :
    parser_advance ⟨⟨st, s, line, len⟩, curr, hf⟩
      = ⟨⟨s, [], line, len⟩, ⟨.TT_IDENT, s, s.length, line⟩, hf⟩ := by
  simpa using parser_advance_identifier s [] st line len curr hf hs rfl

theorem text_of_span_end (s : List Char) (t : TokenType) (line : Nat) :
    Token.text ⟨t, s, s.length, line⟩ = s := by
  simp [Token.text]


theorem parser_parse_expr_succ (fuel : Nat) (parser : Parser) (prec : Precedence) :
    parser_parse_expr (fuel + 1) parser prec =
    if parser.curr.type = .TT_EOF then .ok (.null, parser)
    else if parser.curr.type = .TT_COMMA then .ok (.null, parser)
    else
      match parser_parse_terminal_expr fuel parser with
      | .error e => .error e
      | .ok (left, p1) =>
        if p1.has_first = false ∧ left = .null then .error .null_deref
        else
          let left1 := if p1.has_first = false then set_top_level left else left
          let p2 : Parser := if p1.has_first = false then { p1 with has_first := true } else p1
          if p2.curr.type = .TT_EOF then .ok (left1, p2)
          else if p2.curr.type = .TT_COMMA then .ok (left1, p2)
          else if p2.curr.type = .TT_RPAREN then .ok (left1, p2)
          else parser_parse_expr_loop fuel p2 prec left1 p2.curr := by
  rw [parser_parse_expr]

theorem parser_parse_expr_loop_succ (fuel : Nat) (parser : Parser) (prec : Precedence)
    (left : ExprNode) (op : Token) :
    parser_parse_expr_loop (fuel + 1) parser prec left op =
    if precedence op.type = .PREC_MIN then .ok (left, parser)
    else if (precedence op.type).val ≤ prec.val then .ok (left, parser)
    else
      match parser_parse_infix_expr fuel (parser_advance parser) op left with
      | .error e => .error e
      | .ok (left2, p1) => parser_parse_expr_loop fuel p1 prec left2 p1.curr := by
  rw [parser_parse_expr_loop]

theorem parser_parse_infix_expr_succ (fuel : Nat) (parser : Parser) (op : Token)
    (left : ExprNode) :
    parser_parse_infix_expr (fuel + 1) parser op left =
    if op.type = .TT_RPAREN then .ok (left, parser)
    else
      let type : ExprNodeType :=
        match op.type with
        | .TT_PLUS => .NT_ADD
        | .TT_MINUS => .NT_SUB
        | .TT_STAR => .NT_MUL
        | .TT_SLASH => .NT_DIV
        | .TT_ASSIGN => .NT_ASSIGN
        | _ => .NT_ERROR
      match parser_parse_expr fuel parser (precedence op.type) with
      | .error e => .error e
      | .ok (right, p1) => .ok (.binary type left right false, p1) := by
  rw [parser_parse_infix_expr]

theorem parser_parse_args_succ (fuel : Nat) (parser : Parser) :
    parser_parse_args (fuel + 1) parser =
    match parser_parse_expr fuel parser .PREC_MIN with
    | .error e => .error e
    | .ok (left, p1) =>
      if p1.curr.type = .TT_COMMA then
        match parser_parse_args fuel (parser_advance p1) with
        | .error e => .error e
        | .ok (right, p2) => .ok (.binary .NT_ARGS left right false, p2)
      else .ok (.binary .NT_ARGS left .null false, p1) := by
  rw [parser_parse_args]

theorem parser_parse_terminal_expr_succ (fuel : Nat) (parser : Parser) :
    parser_parse_terminal_expr (fuel + 1) parser =
    let first : Except Fault (Option ExprNode × Parser) :=
      if parser.curr.type = .TT_NUM then
        .ok (some (parser_parse_number parser).1, (parser_parse_number parser).2)
      else if parser.curr.type = .TT_IDENT then
        .ok (some (parser_parse_ident parser).1, (parser_parse_ident parser).2)
      else if parser.curr.type = .TT_LPAREN then
        match parser_parse_expr fuel (parser_advance parser) .PREC_MIN with
        | .error e => .error e
        | .ok (node, p1) =>
          if p1.curr.type = .TT_RPAREN then .ok (some node, parser_advance p1)
          else if p1.curr.type = .TT_COMMA then .ok (some node, p1)
          else .ok (none, p1)
      else if parser.curr.type = .TT_PLUS then
        match parser_parse_terminal_expr fuel (parser_advance parser) with
        | .error e => .error e
        | .ok (operand, p1) => .ok (some (.unary .NT_POSITIVE operand false), p1)
      else if parser.curr.type = .TT_MINUS then
        match parser_parse_terminal_expr fuel (parser_advance parser) with
        | .error e => .error e
        | .ok (operand, p1) => .ok (some (.unary .NT_NEGATIVE operand false), p1)
      else .ok (none, parser)
    match first with
    | .error e => .error e
    | .ok (none, p1) => .ok (.null, p1)
    | .ok (some node, p1) =>
      if p1.curr.type = .TT_NUM ∨ p1.curr.type = .TT_LPAREN ∨ p1.curr.type = .TT_IDENT then
        match parser_parse_args fuel p1 with
        | .error e => .error e
        | .ok (args, p2) => .ok (.binary .NT_CALL node args false, p2)
      else .ok (node, p1) := by
  rw [parser_parse_terminal_expr]

/-! ## Parsing: precedence and associativity -/

/-- C7. Multiplicative operators bind tighter than additive ones. For number
literals `a`, `b`, `c` the source `a + b * c` parses to the add node over `a`
and the multiply node of `b` and `c`, and `a * b + c` parses to the add node
over the multiply node of `a` and `b`, and `c`. The first number read is the
node that carries the top-level mark; any recursion budget of at least 8
gives the result. -/
theorem C7_mul_binds_tighter (a b c : List Char) (ha : is_number_literal a = true)
    (hb : is_number_literal b = true) (hc : is_number_literal c = true) (fuel : Nat) :
    parse_source (fuel + 8) (a ++ [' ', '+', ' '] ++ b ++ [' ', '*', ' '] ++ c)
        = .ok (.binary .NT_ADD (.number (strtod a) true)
            (.binary .NT_MUL (.number (strtod b) false) (.number (strtod c) false) false) false)
    ∧ parse_source (fuel + 8) (a ++ [' ', '*', ' '] ++ b ++ [' ', '+', ' '] ++ c)
        = .ok (.binary .NT_ADD
            (.binary .NT_MUL (.number (strtod a) true) (.number (strtod b) false) false)
            (.number (strtod c) false) false) := by
  have h1 := fun st line len curr hf =>
    parser_advance_number a (' ' :: '+' :: ' ' :: (b ++ ' ' :: '*' :: ' ' :: c))
      st line len curr hf ha rfl
  have h2 := fun st line len curr hf =>
    parser_advance_number b (' ' :: '*' :: ' ' :: c) st line len curr hf hb rfl
  have h3 := fun st line len curr hf => parser_advance_number_end c st line len curr hf hc
  have k1 := fun st line len curr hf =>
    parser_advance_number a (' ' :: '*' :: ' ' :: (b ++ ' ' :: '+' :: ' ' :: c))
      st line len curr hf ha rfl
  have k2 := fun st line len curr hf =>
    parser_advance_number b (' ' :: '+' :: ' ' :: c) st line len curr hf hb rfl
  constructor
  · simp only [parse_source, parser_create, lexer_create, h1, List.append_assoc,
      List.cons_append, List.nil_append]
    repeat
      (first
        | rw [parser_parse_expr_succ]
        | rw [parser_parse_terminal_expr_succ]
        | rw [parser_parse_expr_loop_succ]
        | rw [parser_parse_infix_expr_succ])
      simp [h1, h2, h3, parser_parse_number, parser_advance_space, parser_advance_nil,
        parser_advance_plus, parser_advance_star, set_top_level, precedence, Precedence.val,
        token_to_double, text_of_span, text_of_span_end]
  · simp only [parse_source, parser_create, lexer_create, k1, List.append_assoc,
      List.cons_append, List.nil_append]
    repeat
      (first
        | rw [parser_parse_expr_succ]
        | rw [parser_parse_terminal_expr_succ]
        | rw [parser_parse_expr_loop_succ]
        | rw [parser_parse_infix_expr_succ])
      simp [k1, k2, h3, parser_parse_number, parser_advance_space, parser_advance_nil,
        parser_advance_plus, parser_advance_star, set_top_level, precedence, Precedence.val,
        token_to_double, text_of_span, text_of_span_end]

/-- Witness of C7 at the literals `2`, `3`, `4`. -/
theorem C7_mul_binds_tighter_witness :
    is_number_literal ['2'] = true ∧ is_number_literal ['3'] = true ∧
    is_number_literal ['4'] = true ∧
    (parse_source (0 + 8) (['2'] ++ [' ', '+', ' '] ++ ['3'] ++ [' ', '*', ' '] ++ ['4'])
        = .ok (.binary .NT_ADD (.number (strtod ['2']) true)
            (.binary .NT_MUL (.number (strtod ['3']) false) (.number (strtod ['4']) false) false)
            false)
    ∧ parse_source (0 + 8) (['2'] ++ [' ', '*', ' '] ++ ['3'] ++ [' ', '+', ' '] ++ ['4'])
        = .ok (.binary .NT_ADD
            (.binary .NT_MUL (.number (strtod ['2']) true) (.number (strtod ['3']) false) false)
            (.number (strtod ['4']) false) false)) :=
  ⟨by decide, by decide, by decide,
    C7_mul_binds_tighter ['2'] ['3'] ['4'] (by decide) (by decide) (by decide) 0⟩

/-- C8. Binary arithmetic operators of one precedence level associate to the
left. For number literals `a`, `b`, `c` and operators `o1`, `o2` both additive
or both multiplicative, the source `a o1 b o2 c` parses to the node of `o2`
whose left child is the node of `o1` over `a` and `b` and whose right child
is `c`. -/
theorem C8_left_associative (a b c : List Char) (o1 o2 : Char)
    (ha : is_number_literal a = true) (hb : is_number_literal b = true)
    (hc : is_number_literal c = true)
    (ho : (o1 ∈ additive_ops ∧ o2 ∈ additive_ops)
      ∨ (o1 ∈ multiplicative_ops ∧ o2 ∈ multiplicative_ops)) (fuel : Nat) :
    parse_source (fuel + 8) (a ++ [' ', o1, ' '] ++ b ++ [' ', o2, ' '] ++ c)
      = .ok (.binary (arith_node o2)
          (.binary (arith_node o1) (.number (strtod a) true) (.number (strtod b) false) false)
          (.number (strtod c) false) false) := by
  have h1 := fun st line len curr hf =>
    parser_advance_number a (' ' :: o1 :: ' ' :: (b ++ ' ' :: o2 :: ' ' :: c))
      st line len curr hf ha rfl
  have h2 := fun st line len curr hf =>
    parser_advance_number b (' ' :: o2 :: ' ' :: c) st line len curr hf hb rfl
  have h3 := fun st line len curr hf => parser_advance_number_end c st line len curr hf hc
  simp only [additive_ops, multiplicative_ops, List.mem_cons, List.mem_singleton,
    List.not_mem_nil, or_false] at ho
  rcases ho with ⟨rfl | rfl, rfl | rfl⟩ | ⟨rfl | rfl, rfl | rfl⟩ <;>
  · simp only [parse_source, parser_create, lexer_create, h1, List.append_assoc,
      List.cons_append, List.nil_append]
    repeat
      (first
        | rw [parser_parse_expr_succ]
        | rw [parser_parse_terminal_expr_succ]
        | rw [parser_parse_expr_loop_succ]
        | rw [parser_parse_infix_expr_succ])
      simp [h1, h2, h3, parser_parse_number, parser_advance_space, parser_advance_nil,
        parser_advance_plus, parser_advance_minus, parser_advance_star, parser_advance_slash,
        set_top_level, precedence, Precedence.val, token_to_double, text_of_span,
        text_of_span_end, arith_node]

/-- Witness of C8: `1 - 2 - 3` parses as `(1 - 2) - 3`. -/
theorem C8_left_associative_witness :
    is_number_literal ['1'] = true ∧ is_number_literal ['2'] = true ∧
    is_number_literal ['3'] = true ∧
    (('-' ∈ additive_ops ∧ '-' ∈ additive_ops)
      ∨ ('-' ∈ multiplicative_ops ∧ '-' ∈ multiplicative_ops)) ∧
    parse_source (0 + 8) (['1'] ++ [' ', '-', ' '] ++ ['2'] ++ [' ', '-', ' '] ++ ['3'])
      = .ok (.binary (arith_node '-')
          (.binary (arith_node '-') (.number (strtod ['1']) true) (.number (strtod ['2']) false)
            false)
          (.number (strtod ['3']) false) false) :=
  ⟨by decide, by decide, by decide, by decide,
    C8_left_associative ['1'] ['2'] ['3'] '-' '-' (by decide) (by decide) (by decide)
      (by decide) 0⟩

/-- C9, as the code behaves. Assignment associates to the left like every
other binary operator: for identifiers `a`, `b` and a number literal `c` the
source `a = b = c` parses to the assign node whose left child is the assign
node of `a` and `b` and whose right child is `c`. -/
theorem C9_assignment_left_nested (a b c : List Char) (ha : is_identifier a = true)
    (hb : is_identifier b = true) (hc : is_number_literal c = true) (fuel : Nat) :
    parse_source (fuel + 8) (a ++ [' ', '=', ' '] ++ b ++ [' ', '=', ' '] ++ c)
      = .ok (.binary .NT_ASSIGN
          (.binary .NT_ASSIGN (.ident a true) (.ident b false) false)
          (.number (strtod c) false) false) := by
  have h1 := fun st line len curr hf =>
    parser_advance_identifier a (' ' :: '=' :: ' ' :: (b ++ ' ' :: '=' :: ' ' :: c))
      st line len curr hf ha rfl
  have h2 := fun st line len curr hf =>
    parser_advance_identifier b (' ' :: '=' :: ' ' :: c) st line len curr hf hb rfl
  have h3 := fun st line len curr hf => parser_advance_number_end c st line len curr hf hc
  simp only [parse_source, parser_create, lexer_create, h1, List.append_assoc,
    List.cons_append, List.nil_append]
  repeat
    (first
      | rw [parser_parse_expr_succ]
      | rw [parser_parse_terminal_expr_succ]
      | rw [parser_parse_expr_loop_succ]
      | rw [parser_parse_infix_expr_succ])
    simp [h1, h2, h3, parser_parse_number, parser_parse_ident, parser_advance_space,
      parser_advance_nil, parser_advance_assign, set_top_level, precedence, Precedence.val,
      token_to_double, text_of_span, text_of_span_end]

/-- Witness of the amended C9 at `a = b = 1`. -/
theorem C9_assignment_left_nested_witness :
    is_identifier ['a'] = true ∧ is_identifier ['b'] = true ∧
    is_number_literal ['1'] = true ∧
    parse_source (0 + 8) (['a'] ++ [' ', '=', ' '] ++ ['b'] ++ [' ', '=', ' '] ++ ['1'])
      = .ok (.binary .NT_ASSIGN
          (.binary .NT_ASSIGN (.ident ['a'] true) (.ident ['b'] false) false)
          (.number (strtod ['1']) false) false) :=
  ⟨by decide, by decide, by decide,
    C9_assignment_left_nested ['a'] ['b'] ['1'] (by decide) (by decide) (by decide) 0⟩

/-- C9 fails as stated: the tree of `a = b = 1` is an assign node whose left
child is not the identifier `a` (it is the assign node of `a` and `b`) and
whose right child is not an assign node (it is the number). -/
theorem C9_counterexample :
    ∃ l r t, parse_source 8 ['a', ' ', '=', ' ', 'b', ' ', '=', ' ', '1']
        = .ok (.binary .NT_ASSIGN l r t)
      ∧ (∀ s f, l ≠ .ident s f) ∧ (∀ x y f, r ≠ .binary .NT_ASSIGN x y f) := by
  refine ⟨.binary .NT_ASSIGN (.ident ['a'] true) (.ident ['b'] false) false,
    .number (strtod ['1']) false, false, rfl, ?_, ?_⟩
  · intro s f h; cases h
  · intro x y f h; cases h

/-! ## Calls -/

theorem num_end_call_args_text (cs : List (List Char)) : num_end (call_args_text cs) = true := by
  cases cs <;> rfl

/-- The arguments of a call after the opening parenthesis, from the state in
which the cursor token is the argument `c`. -/
theorem parser_parse_args_numbers (cs : List (List Char)) :
    ∀ (c : List Char) (fuel len : Nat), is_number_literal c = true →
      (∀ x ∈ cs, is_number_literal x = true) → cs.length ≤ fuel →
      parser_parse_args (fuel + 3)
        ⟨⟨c ++ call_args_text cs, call_args_text cs, 1, len⟩,
         ⟨.TT_NUM, c ++ call_args_text cs, c.length, 1⟩, true⟩
      = .ok (args_chain (strtod c :: cs.map strtod),
          ⟨⟨[')'], [], 1, len⟩, ⟨.TT_RPAREN, [')'], 1, 1⟩, true⟩) := by
  induction cs with
  | nil =>
    intro c fuel len hc _ _
    rw [parser_parse_args_succ, parser_parse_expr_succ, parser_parse_terminal_expr_succ]
    simp [call_args_text, parser_parse_number, parser_advance_rparen, token_to_double,
      text_of_span, args_chain]
  | cons c1 cs ih =>
    intro c fuel len hc hcs hlen
    obtain ⟨f1, rfl⟩ : ∃ f1, fuel = f1 + 1 := ⟨fuel - 1, by simp at hlen; omega⟩
    have hc1 : is_number_literal c1 = true := hcs c1 (List.mem_cons_self _ _)
    have h1 := fun st line len curr hf =>
      parser_advance_number c1 (call_args_text cs) st line len curr hf hc1
        (num_end_call_args_text cs)
    have ih1 := ih c1 f1 len hc1 (fun x hx => hcs x (List.mem_cons_of_mem _ hx))
      (by simp at hlen; omega)
    rw [parser_parse_args_succ, parser_parse_expr_succ, parser_parse_terminal_expr_succ]
    simp [call_args_text, parser_parse_number, parser_advance_comma, parser_advance_space, h1,
      token_to_double, text_of_span, args_chain]
    rw [ih1]
    simp [args_chain]

/-! ## Unfolding the lowering pass -/

theorem get_data_number (v : ℚ) (t : Bool) (aw : AsmWriter) :
    get_data (.number v t) aw = .ok (.CONSTANT v, aw) := by
  rw [get_data]

theorem get_data_ident (s : List Char) (t : Bool) (aw : AsmWriter) :
    get_data (.ident s t) aw = .ok (.IDENTIFIER s, aw) := by
  rw [get_data]

theorem get_data_args (left right : ExprNode) (t : Bool) (aw : AsmWriter) :
    get_data (.binary .NT_ARGS left right t) aw =
      match get_args (.binary .NT_ARGS left right t) aw with
      | .error e => .error e
      | .ok (args, aw1) => .ok (.ARGLIST args, aw1) := by
  rw [get_data]

theorem get_data_unary (type : ExprNodeType) (operand : ExprNode) (t : Bool) (aw : AsmWriter) :
    get_data (.unary type operand t) aw =
      match parse_expr_tree (.unary type operand t) aw with
      | .error e => .error e
      | .ok (v, aw1) => .ok (.VARIABLE v, aw1) := by
  rw [get_data]

theorem get_data_binary (type : ExprNodeType) (left right : ExprNode) (t : Bool)
    (aw : AsmWriter) (h : type ≠ .NT_ARGS) :
    get_data (.binary type left right t) aw =
      match parse_expr_tree (.binary type left right t) aw with
      | .error e => .error e
      | .ok (v, aw1) => .ok (.VARIABLE v, aw1) := by
  rw [get_data]
  intro hh; exact h hh

theorem get_args_link (left right : ExprNode) (t : Bool) (aw : AsmWriter) :
    get_args (.binary .NT_ARGS left right t) aw =
      match get_data left aw with
      | .error e => .error e
      | .ok (d, aw1) =>
        match get_args right aw1 with
        | .error e => .error e
        | .ok (ds, aw2) => .ok (d :: ds, aw2) := by
  rw [get_args]

theorem get_args_null (aw : AsmWriter) : get_args .null aw = .ok ([], aw) := by
  rw [get_args]
  intro l r t h; cases h

theorem parse_expr_tree_unary (type : ExprNodeType) (operand : ExprNode) (t : Bool)
    (aw : AsmWriter) :
    parse_expr_tree (.unary type operand t) aw =
      match get_node_class_of_type type with
      | .NC_UNARY =>
        match get_data operand aw with
        | .error e => .error e
        | .ok (d, aw1) => .ok (emit_fresh aw1 (.UNARY d .NEG))
      | _ => .error .bad_union := by
  rw [parse_expr_tree]

theorem parse_expr_tree_binary (type : ExprNodeType) (left right : ExprNode) (t : Bool)
    (aw : AsmWriter) :
    parse_expr_tree (.binary type left right t) aw =
      match get_node_class_of_type type with
      | .NC_BINARY =>
        match get_data left aw with
        | .error e => .error e
        | .ok (l, aw1) =>
          match get_data right aw1 with
          | .error e => .error e
          | .ok (r, aw2) =>
            match get_expr_bin_op type with
            | none => .error .bad_union
            | some op =>
              match type, r with
              | .NT_ASSIGN, .VARIABLE _ =>
                .ok (-1, pushInstructionArr aw2 { out := -1, data := .BINARY l r op })
              | _, _ => .ok (emit_fresh aw2 (.BINARY l r op))
      | .NC_UNARY =>
        match get_data left aw with
        | .error e => .error e
        | .ok (d, aw1) => .ok (emit_fresh aw1 (.UNARY d .NEG))
      | .NC_CALL =>
        match get_data left aw with
        | .error e => .error e
        | .ok (l, aw1) =>
          match get_data right aw1 with
          | .error e => .error e
          | .ok (r, aw2) => .ok (emit_fresh aw2 (.BINARY l r .CALL))
      | .NC_ARGS => .ok (-1, aw)
      | .NC_VALUE => .error .bad_union := by
  rw [parse_expr_tree]

theorem get_args_chain (vs : List ℚ) (aw : AsmWriter) :
    get_args (args_chain vs) aw = .ok (vs.map .CONSTANT, aw) := by
  induction vs with
  | nil => simp [args_chain, get_args_null]
  | cons v vs ih => simp [args_chain, get_args_link, get_data_number, ih]
/-! ## Splitting the program text -/

theorem strtok_scan_no_separator (s : List Char) (h : ';' ∉ s) : strtok_scan s = (s, []) := by
  induction s with
  | nil => rfl
  | cons c cs ih =>
    have hc : c ≠ ';' := fun e => h (by simp [e])
    have hcs : ';' ∉ cs := fun e => h (List.mem_cons_of_mem _ e)
    simp [strtok_scan, hc, ih hcs]

theorem strtok_all_single (s : List Char) (hne : s ≠ []) (h : ';' ∉ s) : strtok_all s = [s] := by
  simp [strtok_all, strtok_scan_no_separator s h, hne]

theorem strtok_scan_separator (s1 s2 : List Char) (h1 : ';' ∉ s1) (h2 : ';' ∉ s2)
    (hne : s2 ≠ []) : strtok_scan (s1 ++ ';' :: s2) = (s1, [s2]) := by
  induction s1 with
  | nil => simp [strtok_scan, strtok_scan_no_separator s2 h2, hne]
  | cons c cs ih =>
    have hc : c ≠ ';' := fun e => h1 (by simp [e])
    have hcs : ';' ∉ cs := fun e => h1 (List.mem_cons_of_mem _ e)
    simp [strtok_scan, hc, ih hcs]

theorem strtok_all_pair (s1 s2 : List Char) (h1 : ';' ∉ s1) (h2 : ';' ∉ s2)
    (hne1 : s1 ≠ []) (hne2 : s2 ≠ []) : strtok_all (s1 ++ ';' :: s2) = [s1, s2] := by
  simp [strtok_all, strtok_scan_separator s1 s2 h1 h2 hne2, hne1]

theorem number_literal_chars (c : List Char) (hc : is_number_literal c = true) :
    ∀ x ∈ c, is_digit x = true ∨ x = '.' := by
  obtain ⟨d, ds, tl, rfl, hd, hds, htl⟩ := is_number_literal_split c hc
  intro x hx
  simp only [List.mem_cons, List.mem_append] at hx
  rcases hx with rfl | hx | hx
  · exact Or.inl hd
  · exact Or.inl (hds x hx)
  · rcases htl with rfl | ⟨f, fp, rfl, hf, hfp⟩
    · simp at hx
    · simp only [List.mem_cons] at hx
      rcases hx with rfl | rfl | hx
      · exact Or.inr rfl
      · exact Or.inl hf
      · exact Or.inl (hfp x hx)

theorem number_literal_no_separator (c : List Char) (hc : is_number_literal c = true) :
    ';' ∉ c := by
  intro h
  rcases number_literal_chars c hc _ h with h1 | h1
  · exact absurd h1 (by decide)
  · exact absurd h1 (by decide)

theorem number_literal_ne_nil (c : List Char) (hc : is_number_literal c = true) : c ≠ [] := by
  obtain ⟨d, ds, tl, rfl, _⟩ := is_number_literal_split c hc
  simp

theorem identifier_no_separator (s : List Char) (hs : is_identifier s = true) : ';' ∉ s := by
  simp only [is_identifier, Bool.and_eq_true, Bool.not_eq_true', List.isEmpty_eq_true,
    List.all_eq_true] at hs
  intro h
  exact absurd (hs.2 _ h) (by decide)

theorem identifier_ne_nil (s : List Char) (hs : is_identifier s = true) : s ≠ [] := by
  intro h; subst h; simp [is_identifier] at hs

theorem call_args_text_no_separator (cs : List (List Char))
    (hcs : ∀ x ∈ cs, is_number_literal x = true) : ';' ∉ call_args_text cs := by
  induction cs with
  | nil => simp [call_args_text]
  | cons c cs ih =>
    have h1 := number_literal_no_separator c (hcs c (List.mem_cons_self _ _))
    have h2 := ih (fun x hx => hcs x (List.mem_cons_of_mem _ hx))
    simp [call_args_text, h1, h2]

/-- The tree of the call `f(c, c1, ..., cn)` over number literals. -/
theorem parse_source_call_numbers (f c : List Char) (cs : List (List Char))
    (hf : is_identifier f = true) (hc : is_number_literal c = true)
    (hcs : ∀ x ∈ cs, is_number_literal x = true) (fuel : Nat) :
    parse_source (fuel + cs.length + 7) (call_source f c cs)
      = .ok (.binary .NT_CALL (.ident f false)
          (.binary .NT_ARGS (.number (strtod c) true) (args_chain (cs.map strtod)) false)
          false) := by
  cases cs with
  | nil =>
    have h0 := fun st line len curr hf2 =>
      parser_advance_identifier f ('(' :: (c ++ [')'])) st line len curr hf2 hf rfl
    have h1 := fun st line len curr hf2 =>
      parser_advance_number c [')'] st line len curr hf2 hc rfl
    simp only [parse_source, parser_create, lexer_create, call_source, call_args_text, h0,
      List.length_nil, Nat.add_zero]
    repeat
      (first
        | rw [parser_parse_expr_succ]
        | rw [parser_parse_terminal_expr_succ]
        | rw [parser_parse_args_succ])
      try simp [h0, h1, parser_parse_number, parser_parse_ident,
        parser_advance_nil, parser_advance_lparen, parser_advance_rparen, set_top_level,
        token_to_double, text_of_span, args_chain]
  | cons c1 cs =>
    have hc1 : is_number_literal c1 = true := hcs c1 (List.mem_cons_self _ _)
    have h0 := fun st line len curr hf2 =>
      parser_advance_identifier f ('(' :: (c ++ ',' :: ' ' :: (c1 ++ call_args_text cs)))
        st line len curr hf2 hf rfl
    have h1 := fun st line len curr hf2 =>
      parser_advance_number c (',' :: ' ' :: (c1 ++ call_args_text cs)) st line len curr hf2 hc
        rfl
    have h2 := fun st line len curr hf2 =>
      parser_advance_number c1 (call_args_text cs) st line len curr hf2 hc1
        (num_end_call_args_text cs)
    have e : fuel + (c1 :: cs).length + 7 = (fuel + cs.length + 1) + 7 := by
      simp only [List.length_cons]; omega
    rw [e]
    generalize hG : fuel + cs.length + 1 = G
    have hlen : cs.length ≤ G + 1 := by omega
    have key := fun len => parser_parse_args_numbers cs c1 (G + 1) len hc1
      (fun x hx => hcs x (List.mem_cons_of_mem _ hx)) hlen
    simp only [parse_source, parser_create, lexer_create, call_source, call_args_text, h0]
    rw [parser_parse_expr_succ]
    simp
    rw [parser_parse_terminal_expr_succ]
    simp [h0, parser_parse_ident, parser_advance_lparen, text_of_span]
    rw [parser_parse_args_succ, parser_parse_expr_succ]
    simp
    rw [parser_parse_terminal_expr_succ]
    simp [h1, parser_advance_lparen]
    rw [parser_parse_expr_succ]
    simp
    rw [parser_parse_terminal_expr_succ]
    simp [parser_parse_number, parser_advance_comma, parser_advance_space, h2,
      set_top_level, token_to_double, text_of_span]
    rw [key]
    simp [args_chain]
/-! ## The assembler -/

theorem asm_writer_create_eq (fuel : Nat) (expr : List Char) (var_offset : Nat) :
    asm_writer_create fuel expr var_offset =
      match parse_source fuel expr with
      | .error e => .error e
      | .ok expr_tree =>
        match parse_expr_tree expr_tree
            { instructions := [], depth := 0, cur_var := var_offset } with
        | .error e => .error e
        | .ok (_, aw) => .ok aw := by
  unfold asm_writer_create parse_source
  cases parser_parse_expr fuel (parser_create expr) .PREC_MIN with
  | error e => rfl
  | ok r => rfl

theorem print_args_constants (vm : InstrVM) (vs : List ℚ) :
    print_args vm (vs.map .CONSTANT) = some (vs.map .value) := by
  induction vs with
  | nil => rfl
  | cons v vs ih => simp [print_args, vm_get_var, ih]

/-- C10. For number literals `c, c1, ..., cn` the source `print(c, c1, ..., cn)`
lowers to exactly one instruction: a call with callee identifier `print`, the
argument list of the constants in order, and output register 0. Executing it
from the empty state writes the values in order, each by `printf("%f ", v)`,
then a newline, stores 0 in register 0 and makes the live-register count 1. -/
theorem C10_print_call (c : List Char) (cs : List (List Char))
    (hc : is_number_literal c = true) (hcs : ∀ x ∈ cs, is_number_literal x = true)
    (fuel : Nat) (mem : InstrVM) :
    gen_code (fuel + cs.length + 7) (call_source print_name c cs)
        = .ok [{ out := 0, data := .BINARY (.IDENTIFIER print_name)
                  (.ARGLIST ((c :: cs).map (fun x => .CONSTANT (strtod x)))) .CALL }]
    ∧ ∃ vm, run_instructions mem
          [{ out := 0, data := .BINARY (.IDENTIFIER print_name)
              (.ARGLIST ((c :: cs).map (fun x => .CONSTANT (strtod x)))) .CALL }]
        = .finished vm ((c :: cs).map (fun x => .value (strtod x)) ++ [.newline])
      ∧ vm.vars 0 = 0 ∧ vm.var_count = 1 := by
  constructor
  · have hsep : ';' ∉ call_source print_name c cs := by
      have h1 := number_literal_no_separator c hc
      have h2 := call_args_text_no_separator cs hcs
      simp [call_source, print_name, h1, h2]
    have hne : call_source print_name c cs ≠ [] := by simp [call_source, print_name]
    have hp := parse_source_call_numbers print_name c cs (by decide) hc hcs fuel
    have hl := get_args_chain (cs.map strtod)
    rw [gen_code, strtok_all_single _ hne hsep]
    simp [gen_code_loop, asm_writer_create_eq, hp,
      parse_expr_tree_binary, get_node_class_of_type, get_data_ident, get_data_args,
      get_args_link, get_data_number, hl, emit_fresh, pushInstructionArr, Function.comp_def]
  · have hpa := print_args_constants { mem with var_count := 0 } ((c :: cs).map strtod)
    simp only [List.map_map] at hpa
    refine ⟨update_vars ⟨Function.update mem.vars 0 0, mem.var_names, 0⟩ 0, ?_, ?_, ?_⟩
    · simp only [run_instructions, run_loop, exec_instruction, exec_call, if_true]
      rw [show (List.map (fun x => Data.CONSTANT (strtod x)) (c :: cs))
          = List.map (Data.CONSTANT ∘ strtod) (c :: cs) from rfl, hpa]
      simp [store_result, Function.comp_def]
    · simp [update_vars]
    · simp [update_vars]

/-- Witness of C10: `print(1, 2, 3)`. -/
theorem C10_print_call_witness :
    is_number_literal ['1'] = true ∧ (∀ x ∈ [['2'], ['3']], is_number_literal x = true) ∧
    (gen_code (0 + [['2'], ['3']].length + 7) (call_source print_name ['1'] [['2'], ['3']])
        = .ok [{ out := 0, data := .BINARY (.IDENTIFIER print_name)
                  (.ARGLIST ((['1'] :: [['2'], ['3']]).map (fun x => .CONSTANT (strtod x))))
                  .CALL }]
    ∧ ∃ vm, run_instructions ⟨fun _ => 0, fun _ => [], 0⟩
          [{ out := 0, data := .BINARY (.IDENTIFIER print_name)
              (.ARGLIST ((['1'] :: [['2'], ['3']]).map (fun x => .CONSTANT (strtod x)))) .CALL }]
        = .finished vm
            ((['1'] :: [['2'], ['3']]).map (fun x => .value (strtod x)) ++ [.newline])
      ∧ vm.vars 0 = 0 ∧ vm.var_count = 1) :=
  ⟨by decide, by decide,
    C10_print_call ['1'] [['2'], ['3']] (by decide) (by decide) 0 ⟨fun _ => 0, fun _ => [], 0⟩⟩

/-! ## Lowering and running arithmetic -/

theorem exec_neg_nat (vm : InstrVM) (k : Nat) (d : Data) (a : ℚ)
    (h : vm_get_var vm d = some a) :
    exec_instruction vm ⟨(k : Int), .UNARY d .NEG⟩
      = .next ⟨Function.update vm.vars k (-a), vm.var_names, vm.var_count⟩ [] := by
  simp [exec_instruction, h]
theorem strtod_digit_2 : strtod ['2'] = 2 := by
  simp [strtod, is_digit, peek, digits_value, digit_value]

theorem strtod_digit_3 : strtod ['3'] = 3 := by
  simp [strtod, is_digit, peek, digits_value, digit_value]

/-- The program of `n = c; n = n + d`. -/
theorem gen_code_assign_then_update (n c d : List Char) (hn : is_identifier n = true)
    (hc : is_number_literal c = true) (hd : is_number_literal d = true) (fuel : Nat) :
    gen_code (fuel + 8)
        (n ++ [' ', '=', ' '] ++ c ++ [';', ' '] ++ n ++ [' ', '=', ' '] ++ n ++ [' ', '+', ' ']
          ++ d)
      = .ok [⟨0, .BINARY (.IDENTIFIER n) (.CONSTANT (strtod c)) .ASSIGN⟩,
             ⟨1, .BINARY (.IDENTIFIER n) (.CONSTANT (strtod d)) .ADD⟩,
             ⟨-1, .BINARY (.IDENTIFIER n) (.VARIABLE 1) .ASSIGN⟩] := by
  have hsn := identifier_no_separator n hn
  have hsc := number_literal_no_separator c hc
  have hsd := number_literal_no_separator d hd
  have hnn := identifier_ne_nil n hn
  have e : n ++ [' ', '=', ' '] ++ c ++ [';', ' '] ++ n ++ [' ', '=', ' '] ++ n
        ++ [' ', '+', ' '] ++ d
      = (n ++ ' ' :: '=' :: ' ' :: c) ++ ';' :: (' ' :: (n ++ ' ' :: '=' :: ' ' ::
          (n ++ ' ' :: '+' :: ' ' :: d))) := by simp
  rw [gen_code, e, strtok_all_pair _ _ (by simp [hsn, hsc]) (by simp [hsn, hsd]) (by simp [hnn])
    (by simp)]
  have a1 := fun st line len curr hf =>
    parser_advance_identifier n (' ' :: '=' :: ' ' :: c) st line len curr hf hn rfl
  have a2 := fun st line len curr hf => parser_advance_number_end c st line len curr hf hc
  have b1 := fun st line len curr hf =>
    parser_advance_identifier n (' ' :: '=' :: ' ' :: (n ++ ' ' :: '+' :: ' ' :: d))
      st line len curr hf hn rfl
  have b2 := fun st line len curr hf =>
    parser_advance_identifier n (' ' :: '+' :: ' ' :: d) st line len curr hf hn rfl
  have b3 := fun st line len curr hf => parser_advance_number_end d st line len curr hf hd
  have p1 : parse_source (fuel + 8) (n ++ ' ' :: '=' :: ' ' :: c)
      = .ok (.binary .NT_ASSIGN (.ident n true) (.number (strtod c) false) false) := by
    simp only [parse_source, parser_create, lexer_create, a1]
    repeat
      (first
        | rw [parser_parse_expr_succ]
        | rw [parser_parse_terminal_expr_succ]
        | rw [parser_parse_expr_loop_succ]
        | rw [parser_parse_infix_expr_succ])
      simp [a1, a2, parser_parse_number, parser_parse_ident, parser_advance_space,
        parser_advance_nil, parser_advance_assign, set_top_level, precedence, Precedence.val,
        token_to_double, text_of_span, text_of_span_end]
  have p2 : parse_source (fuel + 8)
        (' ' :: (n ++ ' ' :: '=' :: ' ' :: (n ++ ' ' :: '+' :: ' ' :: d)))
      = .ok (.binary .NT_ASSIGN (.ident n true)
          (.binary .NT_ADD (.ident n false) (.number (strtod d) false) false) false) := by
    simp only [parse_source, parser_create, lexer_create, parser_advance_space, b1]
    repeat
      (first
        | rw [parser_parse_expr_succ]
        | rw [parser_parse_terminal_expr_succ]
        | rw [parser_parse_expr_loop_succ]
        | rw [parser_parse_infix_expr_succ])
      simp [b1, b2, b3, parser_parse_number, parser_parse_ident, parser_advance_space,
        parser_advance_nil, parser_advance_assign, parser_advance_plus, set_top_level,
        precedence, Precedence.val, token_to_double, text_of_span, text_of_span_end]
  simp [gen_code_loop, asm_writer_create_eq, p1, p2, parse_expr_tree_binary,
    get_node_class_of_type, get_data_number, get_data_ident, get_data_binary, get_expr_bin_op,
    emit_fresh, pushInstructionArr]

/-- C2. For an identifier `n` and number literals `c`, `d`, the program that
`gen_code` builds from `n = c; n = n + d` has three instructions; running it
from the empty state ends with two live registers, exactly one of them named
`n`, namely register 1, which holds `c + d`, so `n` resolves to `c + d`;
register 0, which held `n` after the first statement, is anonymous and still
holds `c`. For `x = 10; x = x + 1` the value `10 + 1` of the register named `x`
is 11. -/
theorem C2_reassign_updates_binding (n c d : List Char) (hn : is_identifier n = true)
    (hc : is_number_literal c = true) (hd : is_number_literal d = true) (fuel : Nat)
    (mem : InstrVM) :
    gen_code (fuel + 8)
        (n ++ [' ', '=', ' '] ++ c ++ [';', ' '] ++ n ++ [' ', '=', ' '] ++ n ++ [' ', '+', ' ']
          ++ d)
      = .ok [⟨0, .BINARY (.IDENTIFIER n) (.CONSTANT (strtod c)) .ASSIGN⟩,
             ⟨1, .BINARY (.IDENTIFIER n) (.CONSTANT (strtod d)) .ADD⟩,
             ⟨-1, .BINARY (.IDENTIFIER n) (.VARIABLE 1) .ASSIGN⟩]
    ∧ ∃ vm, run_instructions mem
        [⟨0, .BINARY (.IDENTIFIER n) (.CONSTANT (strtod c)) .ASSIGN⟩,
         ⟨1, .BINARY (.IDENTIFIER n) (.CONSTANT (strtod d)) .ADD⟩,
         ⟨-1, .BINARY (.IDENTIFIER n) (.VARIABLE 1) .ASSIGN⟩] = .finished vm []
      ∧ vm.var_count = 2
      ∧ (∀ i, i < vm.var_count → (vm.var_names i = n ↔ i = 1))
      ∧ vm.vars 1 = strtod c + strtod d
      ∧ vm.var_names 0 = [] ∧ vm.vars 0 = strtod c
      ∧ vm_get_var vm (.IDENTIFIER n) = some (strtod c + strtod d)
      ∧ strtod ['1', '0'] + strtod ['1'] = 11 := by
  refine ⟨gen_code_assign_then_update n c d hn hc hd fuel, ?_⟩
  have h11 : strtod ['1', '0'] + strtod ['1'] = 11 := by
    simp [strtod, is_digit, peek, digits_value, digit_value]
    norm_num
  have h1 : n ≠ [] := identifier_ne_nil n hn
  have h2 : ¬ ([] = n) := fun h => h1 h.symm
  simp [run_instructions, run_loop, exec_instruction, exec_assign, exec_arith, find_var,
    vm_get_var, store_result, delete_old, update_vars, List.range_succ, List.find?, h1, h2,
    h11]
  intro i hi
  interval_cases i <;> simp [Function.update, h1, h2]

/-- Witness of C2: after `x = 10; x = x + 1` the register named `x` holds
`10 + 1`. -/
theorem C2_reassign_updates_binding_witness :
    is_identifier ['x'] = true ∧ is_number_literal ['1', '0'] = true ∧
    is_number_literal ['1'] = true ∧
    (gen_code (0 + 8)
        (['x'] ++ [' ', '=', ' '] ++ ['1', '0'] ++ [';', ' '] ++ ['x'] ++ [' ', '=', ' '] ++ ['x']
          ++ [' ', '+', ' '] ++ ['1'])
      = .ok [⟨0, .BINARY (.IDENTIFIER ['x']) (.CONSTANT (strtod ['1', '0'])) .ASSIGN⟩,
             ⟨1, .BINARY (.IDENTIFIER ['x']) (.CONSTANT (strtod ['1'])) .ADD⟩,
             ⟨-1, .BINARY (.IDENTIFIER ['x']) (.VARIABLE 1) .ASSIGN⟩]
    ∧ ∃ vm, run_instructions zero_memory
        [⟨0, .BINARY (.IDENTIFIER ['x']) (.CONSTANT (strtod ['1', '0'])) .ASSIGN⟩,
         ⟨1, .BINARY (.IDENTIFIER ['x']) (.CONSTANT (strtod ['1'])) .ADD⟩,
         ⟨-1, .BINARY (.IDENTIFIER ['x']) (.VARIABLE 1) .ASSIGN⟩] = .finished vm []
      ∧ vm.var_count = 2
      ∧ (∀ i, i < vm.var_count → (vm.var_names i = ['x'] ↔ i = 1))
      ∧ vm.vars 1 = strtod ['1', '0'] + strtod ['1']
      ∧ vm.var_names 0 = [] ∧ vm.vars 0 = strtod ['1', '0']
      ∧ vm_get_var vm (.IDENTIFIER ['x']) = some (strtod ['1', '0'] + strtod ['1'])
      ∧ strtod ['1', '0'] + strtod ['1'] = 11) :=
  ⟨by decide, by decide, by decide,
    C2_reassign_updates_binding ['x'] ['1', '0'] ['1'] (by decide) (by decide) (by decide) 0
      zero_memory⟩

/-! ## Negation does not grow the live-register count -/

theorem strtod_digit_5 : strtod ['5'] = 5 := by
  simp [strtod, is_digit, peek, digits_value, digit_value]

theorem strtod_digit_1 : strtod ['1'] = 1 := by
  simp [strtod, is_digit, peek, digits_value, digit_value]

/-- C3 at its own example. The statement `x = -5` lowers to a negate
instruction with output register 0 and an assignment that relabels register
0. After the run register 0 holds -5 and carries the name `x`, but the
live-register count is still 0 because the negate case never calls
`update_vars`: `x` is bound to no live register and resolving `x` as an
operand yields 0, not -5. -/
theorem C3_negated_value_not_live (fuel : Nat) (mem : InstrVM) :
    gen_code (fuel + 8) ['x', ' ', '=', ' ', '-', '5']
      = .ok [⟨0, .UNARY (.CONSTANT 5) .NEG⟩,
             ⟨-1, .BINARY (.IDENTIFIER ['x']) (.VARIABLE 0) .ASSIGN⟩]
    ∧ ∃ vm, run_instructions mem
        [⟨0, .UNARY (.CONSTANT 5) .NEG⟩,
         ⟨-1, .BINARY (.IDENTIFIER ['x']) (.VARIABLE 0) .ASSIGN⟩] = .finished vm []
      ∧ vm.vars 0 = -5 ∧ vm.var_names 0 = ['x']
      ∧ vm.var_count = 0
      ∧ find_var vm ['x'] = none
      ∧ vm_get_var vm (.IDENTIFIER ['x']) = some 0 := by
  constructor
  · have h1 := fun st line len curr hf =>
      parser_advance_identifier ['x'] [' ', '=', ' ', '-', '5'] st line len curr hf
        (by decide) rfl
    have h2 := fun st line len curr hf =>
      parser_advance_number_end ['5'] st line len curr hf (by decide)
    simp only [List.singleton_append] at h1
    have hp : parse_source (fuel + 8) ['x', ' ', '=', ' ', '-', '5']
        = .ok (.binary .NT_ASSIGN (.ident ['x'] true)
            (.unary .NT_NEGATIVE (.number 5 false) false) false) := by
      simp only [parse_source, parser_create, lexer_create, h1]
      repeat
        (first
          | rw [parser_parse_expr_succ]
          | rw [parser_parse_terminal_expr_succ]
          | rw [parser_parse_expr_loop_succ]
          | rw [parser_parse_infix_expr_succ])
        simp [h1, h2, parser_parse_number, parser_parse_ident, parser_advance_space,
          parser_advance_nil, parser_advance_assign, parser_advance_minus, set_top_level,
          precedence, Precedence.val, token_to_double, Token.text, strtod_digit_5]
    rw [gen_code, strtok_all_single _ (by simp) (by decide)]
    simp [gen_code_loop, asm_writer_create_eq, hp, parse_expr_tree_binary,
      parse_expr_tree_unary, get_node_class_of_type, get_data_number, get_data_ident,
      get_data_unary, get_expr_bin_op, emit_fresh, pushInstructionArr]
  · simp [run_instructions, run_loop, exec_instruction, exec_assign, find_var, vm_get_var,
      delete_old]

/-- C4 at a program of its own kind. The statement `x = (x = 1)` lowers to a
constant assignment into register 0 and an assignment that relabels register
0. The second instruction finds the old binding of `x` (register 0), installs
the new binding on the same register and then clears the first register named
`x`, which is the one just installed: after the run the right-hand register
still holds 1, but `x` is bound to no live register and resolves to 0. -/
theorem C4_self_assignment_unbinds (fuel : Nat) (mem : InstrVM) :
    gen_code (fuel + 10) ['x', ' ', '=', ' ', '(', 'x', ' ', '=', ' ', '1', ')']
      = .ok [⟨0, .BINARY (.IDENTIFIER ['x']) (.CONSTANT 1) .ASSIGN⟩,
             ⟨-1, .BINARY (.IDENTIFIER ['x']) (.VARIABLE 0) .ASSIGN⟩]
    ∧ (∃ vm, run_instructions mem [⟨0, .BINARY (.IDENTIFIER ['x']) (.CONSTANT 1) .ASSIGN⟩]
          = .finished vm []
        ∧ vm.var_count = 1 ∧ find_var vm ['x'] = some 0
        ∧ vm_get_var vm (.VARIABLE 0) = some 1)
    ∧ ∃ vm, run_instructions mem
        [⟨0, .BINARY (.IDENTIFIER ['x']) (.CONSTANT 1) .ASSIGN⟩,
         ⟨-1, .BINARY (.IDENTIFIER ['x']) (.VARIABLE 0) .ASSIGN⟩] = .finished vm []
      ∧ vm.var_count = 1 ∧ vm.vars 0 = 1 ∧ vm.var_names 0 = []
      ∧ find_var vm ['x'] = none
      ∧ vm_get_var vm (.IDENTIFIER ['x']) = some 0 := by
  refine ⟨?_, ?_, ?_⟩
  · have h1 := fun st line len curr hf =>
      parser_advance_identifier ['x'] [' ', '=', ' ', '(', 'x', ' ', '=', ' ', '1', ')']
        st line len curr hf (by decide) rfl
    have h2 := fun st line len curr hf =>
      parser_advance_identifier ['x'] [' ', '=', ' ', '1', ')'] st line len curr hf
        (by decide) rfl
    have h3 := fun st line len curr hf =>
      parser_advance_number ['1'] [')'] st line len curr hf (by decide) rfl
    simp only [List.singleton_append] at h1 h2 h3
    have hp : parse_source (fuel + 10) ['x', ' ', '=', ' ', '(', 'x', ' ', '=', ' ', '1', ')']
        = .ok (.binary .NT_ASSIGN (.ident ['x'] true)
            (.binary .NT_ASSIGN (.ident ['x'] false) (.number 1 false) false) false) := by
      simp only [parse_source, parser_create, lexer_create, h1]
      repeat
        (first
          | rw [parser_parse_expr_succ]
          | rw [parser_parse_terminal_expr_succ]
          | rw [parser_parse_expr_loop_succ]
          | rw [parser_parse_infix_expr_succ])
        simp [h1, h2, h3, parser_parse_number, parser_parse_ident, parser_advance_space,
          parser_advance_nil, parser_advance_assign, parser_advance_lparen,
          parser_advance_rparen, set_top_level, precedence, Precedence.val, token_to_double,
          Token.text, strtod_digit_1]
    rw [gen_code, strtok_all_single _ (by simp) (by decide)]
    simp [gen_code_loop, asm_writer_create_eq, hp, parse_expr_tree_binary,
      get_node_class_of_type, get_data_number, get_data_ident, get_data_binary,
      get_expr_bin_op, emit_fresh, pushInstructionArr]
  · simp [run_instructions, run_loop, exec_instruction, exec_assign, find_var, vm_get_var,
      delete_old, List.range_succ, List.find?]
  · simp [run_instructions, run_loop, exec_instruction, exec_assign, find_var, vm_get_var,
      delete_old, List.range_succ, List.find?]

/-- C6 at a failing program. The statement `-5 + 3` lowers to a negate
instruction with output register 0 and an add instruction whose left operand
is register 0. When the add instruction executes, that is after the run of the
first instruction alone, the live-register count is 0, so the register index
0 it references is not below the live-register count. -/
theorem C6_operand_register_not_live (fuel : Nat) (mem : InstrVM) :
    gen_code (fuel + 8) ['-', '5', ' ', '+', ' ', '3']
      = .ok [⟨0, .UNARY (.CONSTANT 5) .NEG⟩,
             ⟨1, .BINARY (.VARIABLE 0) (.CONSTANT 3) .ADD⟩]
    ∧ ∃ vm, run_instructions mem [⟨0, .UNARY (.CONSTANT 5) .NEG⟩] = .finished vm []
      ∧ vm.var_count = 0
      ∧ ∃ r ∈ Instruction.registers ⟨1, .BINARY (.VARIABLE 0) (.CONSTANT 3) .ADD⟩,
          ¬ (r < (vm.var_count : Int)) := by
  constructor
  · have h1 := fun st line len curr hf =>
      parser_advance_number ['5'] [' ', '+', ' ', '3'] st line len curr hf (by decide) rfl
    have h2 := fun st line len curr hf =>
      parser_advance_number_end ['3'] st line len curr hf (by decide)
    simp only [List.singleton_append] at h1
    have hp : parse_source (fuel + 8) ['-', '5', ' ', '+', ' ', '3']
        = .ok (.binary .NT_ADD (.unary .NT_NEGATIVE (.number 5 false) true)
            (.number 3 false) false) := by
      simp only [parse_source, parser_create, lexer_create, parser_advance_minus]
      repeat
        (first
          | rw [parser_parse_expr_succ]
          | rw [parser_parse_terminal_expr_succ]
          | rw [parser_parse_expr_loop_succ]
          | rw [parser_parse_infix_expr_succ])
        simp [h1, h2, parser_parse_number, parser_parse_ident, parser_advance_space,
          parser_advance_nil, parser_advance_plus, parser_advance_minus, set_top_level,
          precedence, Precedence.val, token_to_double, Token.text, strtod_digit_5,
          strtod_digit_3]
    rw [gen_code, strtok_all_single _ (by simp) (by decide)]
    simp [gen_code_loop, asm_writer_create_eq, hp, parse_expr_tree_binary,
      parse_expr_tree_unary, get_node_class_of_type, get_data_number, get_data_ident,
      get_data_unary, get_expr_bin_op, emit_fresh, pushInstructionArr]
  · simp [run_instructions, run_loop, exec_instruction, vm_get_var, Instruction.registers,
      Data.registers]

/-! ## At most one live register per name -/

theorem find_var_some (vm : InstrVM) (name : List Char) (i : Nat)
    (h : find_var vm name = some i) : i < vm.var_count ∧ vm.var_names i = name := by
  unfold find_var at h
  have h1 := List.mem_of_find?_eq_some h
  have h2 := List.find?_some h
  exact ⟨List.mem_range.1 h1, by simpa using h2⟩

theorem find_var_none (vm : InstrVM) (name : List Char) (h : find_var vm name = none) :
    ∀ k, k < vm.var_count → vm.var_names k ≠ name := by
  unfold find_var at h
  intro k hk
  have := (List.find?_eq_none.1 h) k (List.mem_range.2 hk)
  simpa using this

theorem names_unique_update_vars (vm : InstrVM) (k : Nat) (h : names_unique vm) :
    names_unique (update_vars vm k) := by
  intro i j hi hj hne heq
  simp only [update_vars] at hi hj hne heq
  by_cases ci : vm.var_count ≤ i ∧ i < max vm.var_count (k + 1)
  · simp [ci] at hne
  · by_cases cj : vm.var_count ≤ j ∧ j < max vm.var_count (k + 1)
    · simp only [ci, cj, if_true, if_false] at heq hne
      exact absurd heq hne
    · simp only [ci, cj, if_false] at heq hne
      exact h i j (by omega) (by omega) hne heq

theorem names_unique_vars (vm : InstrVM) (vars : Nat → ℚ) (h : names_unique vm) :
    names_unique ⟨vars, vm.var_names, vm.var_count⟩ := h

/-- The assignment case keeps names unique: the name is installed on
register `r`, either a live or dead register of the old state or the new
register at the old count, and then the first register that carries the name
is cleared if the name was bound before. -/
theorem names_unique_assign (vm : InstrVM) (vars1 : Nat → ℚ) (r count1 : Nat)
    (name : List Char) (h : names_unique vm)
    (hc : count1 = vm.var_count ∨ (count1 = vm.var_count + 1 ∧ r = vm.var_count)) :
    names_unique (delete_old ⟨vars1, Function.update vm.var_names r name, count1⟩
      (find_var vm name).isSome name) := by
  have hlive : ∀ x, x < count1 → x ≠ r → x < vm.var_count := by
    intro x hx hxr
    rcases hc with rfl | ⟨rfl, rfl⟩
    · exact hx
    · omega
  have base : ∀ i j, i < count1 → j < count1 → i ≠ r → j ≠ r → vm.var_names i ≠ [] →
      vm.var_names i = vm.var_names j → i = j :=
    fun i j hi hj hir hjr hne heq => h i j (hlive i hi hir) (hlive j hj hjr) hne heq
  cases hf : find_var vm name with
  | none =>
    have hno := find_var_none vm name hf
    simp only [delete_old, Option.isSome_none, Bool.false_eq_true, if_false]
    intro i j hi hj hne heq
    simp only at hi hj hne heq
    by_cases hir : i = r
    · by_cases hjr : j = r
      · rw [hir, hjr]
      · exfalso
        rw [hir, Function.update_same, Function.update_noteq hjr] at heq
        exact hno j (hlive j hj hjr) heq.symm
    · by_cases hjr : j = r
      · exfalso
        rw [hjr, Function.update_same, Function.update_noteq hir] at heq
        exact hno i (hlive i hi hir) heq
      · rw [Function.update_noteq hir] at hne heq
        rw [Function.update_noteq hjr] at heq
        exact base i j hi hj hir hjr hne heq
  | some i0 =>
    simp only [delete_old, Option.isSome_some, if_true]
    cases hf2 : find_var ⟨vars1, Function.update vm.var_names r name, count1⟩ name with
    | none =>
      have hno := find_var_none _ name hf2
      simp only at hno
      intro i j hi hj hne heq
      simp only at hi hj hne heq
      by_cases hir : i = r
      · exact absurd (by rw [hir, Function.update_same]) (hno i hi)
      · by_cases hjr : j = r
        · exact absurd (by rw [hjr, Function.update_same]) (hno j hj)
        · rw [Function.update_noteq hir] at hne heq
          rw [Function.update_noteq hjr] at heq
          exact base i j hi hj hir hjr hne heq
    | some i2 =>
      obtain ⟨hi2, hn2⟩ := find_var_some _ name i2 hf2
      simp only at hi2 hn2
      intro i j hi hj hne heq
      simp only at hi hj hne heq
      have hii : i ≠ i2 := by
        intro e; rw [e, Function.update_same] at hne; exact hne rfl
      have hji : j ≠ i2 := by
        intro e
        rw [e, Function.update_same] at heq
        exact hne heq
      rw [Function.update_noteq hii] at hne heq
      rw [Function.update_noteq hji] at heq
      by_cases hir : i = r
      · by_cases hjr : j = r
        · rw [hir, hjr]
        · exfalso
          rw [hir, Function.update_same] at hne heq
          rw [Function.update_noteq hjr] at heq
          have h2r : i2 ≠ r := fun e => hii (by rw [hir, e])
          rw [Function.update_noteq h2r] at hn2
          have := base i2 j hi2 hj h2r hjr (by rw [hn2]; exact hne) (by rw [hn2, heq])
          exact hji this.symm
      · by_cases hjr : j = r
        · exfalso
          rw [hjr, Function.update_same] at heq
          rw [Function.update_noteq hir] at hne heq
          have h2r : i2 ≠ r := fun e => hji (by rw [hjr, e])
          rw [Function.update_noteq h2r] at hn2
          have := base i2 i hi2 hi h2r hir (by rw [hn2, ← heq]; exact hne) (by rw [hn2, heq])
          exact hii this.symm
        · rw [Function.update_noteq hir] at hne heq
          rw [Function.update_noteq hjr] at heq
          exact base i j hi hj hir hjr hne heq
theorem store_result_satisfies (vm : InstrVM) (out : Int) (v : ℚ) (h : names_unique vm) :
    (store_result vm out v).state_satisfies names_unique := by
  unfold store_result
  split
  · trivial
  · exact names_unique_update_vars _ _ (names_unique_vars vm _ h)

theorem exec_arith_satisfies (vm : InstrVM) (f : ℚ → ℚ → ℚ) (left right : Data) (out : Int)
    (h : names_unique vm) : (exec_arith vm f left right out).state_satisfies names_unique := by
  unfold exec_arith
  split
  · exact store_result_satisfies vm out _ h
  · trivial

theorem exec_assign_satisfies (vm : InstrVM) (left right : Data) (out : Int)
    (h : names_unique vm) : (exec_assign vm left right out).state_satisfies names_unique := by
  unfold exec_assign
  cases left with
  | CONSTANT c => exact h
  | VARIABLE v => exact h
  | ARGLIST a => exact h
  | IDENTIFIER name =>
    cases right with
    | CONSTANT c =>
      simp only
      split
      · exact h
      · exact names_unique_assign vm _ vm.var_count (vm.var_count + 1) name h
          (Or.inr ⟨rfl, rfl⟩)
    | VARIABLE v =>
      simp only
      split
      · trivial
      · exact names_unique_assign vm vm.vars v.toNat vm.var_count name h (Or.inl rfl)
    | IDENTIFIER src =>
      simp only
      split
      · exact h
      · split
        · exact h
        · exact names_unique_assign vm _ vm.var_count (vm.var_count + 1) name h
            (Or.inr ⟨rfl, rfl⟩)
    | ARGLIST a => exact h

theorem exec_call_satisfies (vm : InstrVM) (left right : Data) (out : Int)
    (h : names_unique vm) : (exec_call vm left right out).state_satisfies names_unique := by
  unfold exec_call
  cases left with
  | CONSTANT c => exact h
  | VARIABLE v => exact h
  | ARGLIST a => exact h
  | IDENTIFIER name =>
    simp only
    split
    · cases right with
      | CONSTANT c => exact h
      | VARIABLE v => exact h
      | IDENTIFIER s => exact h
      | ARGLIST args =>
        simp only
        split
        · trivial
        · have hs := store_result_satisfies vm out 0 h
          split
          · rename_i heq
            rw [heq] at hs
            exact hs
          · exact hs
    · exact h

theorem exec_instruction_satisfies (vm : InstrVM) (instr : Instruction)
    (h : names_unique vm) : (exec_instruction vm instr).state_satisfies names_unique := by
  unfold exec_instruction
  split
  · exact exec_arith_satisfies vm _ _ _ _ h
  · exact exec_arith_satisfies vm _ _ _ _ h
  · exact exec_arith_satisfies vm _ _ _ _ h
  · exact exec_arith_satisfies vm _ _ _ _ h
  · exact exec_assign_satisfies vm _ _ _ h
  · exact exec_call_satisfies vm _ _ _ h
  · split
    · split
      · trivial
      · exact names_unique_vars vm _ h
    · trivial
  · exact h

theorem run_loop_satisfies (instructions : List Instruction) :
    ∀ (vm : InstrVM) (output : List OutItem), names_unique vm →
      (run_loop instructions vm output).state_satisfies names_unique := by
  induction instructions with
  | nil => intro vm output h; exact h
  | cons instr rest ih =>
    intro vm output h
    have hs := exec_instruction_satisfies vm instr h
    unfold run_loop
    cases hx : exec_instruction vm instr with
    | next vm1 o =>
      rw [hx] at hs
      exact ih vm1 (output ++ o) hs
    | halt vm1 =>
      rw [hx] at hs
      exact hs
    | ub => trivial

/-- C5. Starting from the empty interpreter state, after executing any prefix
of any instruction sequence, no two distinct live registers carry the same
name (the empty name marks an anonymous register). The state meant is the one
the run of the prefix ends in, whether it ran to the end of the prefix or an
instruction returned early; a run that reads or writes a register at a
negative index has no state. -/
theorem C5_names_unique (instructions : List Instruction) (mem : InstrVM) (k : Nat) :
    match run_instructions mem (instructions.take k) with
    | .finished vm _ => names_unique vm
    | .halted vm _ => names_unique vm
    | .ub => True := by
  have h0 : names_unique ⟨mem.vars, mem.var_names, 0⟩ := by
    intro i j hi
    simp at hi
  have := run_loop_satisfies (instructions.take k) ⟨mem.vars, mem.var_names, 0⟩ [] h0
  unfold run_instructions
  cases hx : run_loop (List.take k instructions) ⟨mem.vars, mem.var_names, 0⟩ [] with
  | finished vm o => rw [hx] at this; exact this
  | halted vm o => rw [hx] at this; exact this
  | ub => trivial

/-! ## The first live register with a name -/

/-- C13. In every interpreter state, an assignment instruction with an
identifier on the left and a constant on the right whose output index differs
from the live-register count returns from the run: the instruction halts with
the state it found, so the run ends halted with register values, names and
live count unchanged and the output written so far. Two raw instructions
`x = 5`, both with output index 0: the first binds `x`, the second halts in
the state the first one left. -/
theorem C13_constant_reassign_halts (vm : InstrVM) (n : List Char) (c : ℚ) (out : Int)
    (rest : List Instruction) (output : List OutItem) (mem : InstrVM)
    (h : out ≠ (vm.var_count : Int)) :
    exec_instruction vm ⟨out, .BINARY (.IDENTIFIER n) (.CONSTANT c) .ASSIGN⟩ = .halt vm
    ∧ run_loop (⟨out, .BINARY (.IDENTIFIER n) (.CONSTANT c) .ASSIGN⟩ :: rest) vm output
        = .halted vm output
    ∧ ∃ vm1, run_instructions mem [⟨0, .BINARY (.IDENTIFIER ['x']) (.CONSTANT 5) .ASSIGN⟩]
          = .finished vm1 []
        ∧ vm1.var_count = 1 ∧ vm1.vars 0 = 5 ∧ vm1.var_names 0 = ['x']
        ∧ run_instructions mem
            [⟨0, .BINARY (.IDENTIFIER ['x']) (.CONSTANT 5) .ASSIGN⟩,
             ⟨0, .BINARY (.IDENTIFIER ['x']) (.CONSTANT 5) .ASSIGN⟩] = .halted vm1 [] := by
  have hstep : exec_instruction vm ⟨out, .BINARY (.IDENTIFIER n) (.CONSTANT c) .ASSIGN⟩
      = .halt vm := by
    simp [exec_instruction, exec_assign, h]
  refine ⟨hstep, by simp [run_loop, hstep], ?_⟩
  refine ⟨⟨Function.update mem.vars 0 5, Function.update mem.var_names 0 ['x'], 1⟩, ?_, rfl,
    by simp, by simp, ?_⟩
  · simp [run_instructions, run_loop, exec_instruction, exec_assign, find_var, delete_old]
  · simp [run_instructions, run_loop, exec_instruction, exec_assign, find_var, delete_old]

/-- Witness of C13: in the state where `x` sits in register 0 and one register
is live, `x = 5` with output index 0 halts. -/
theorem C13_constant_reassign_halts_witness :
    (0 : Int) ≠ (vm_x_is_5.var_count : Int)
    ∧ exec_instruction vm_x_is_5 ⟨0, .BINARY (.IDENTIFIER ['x']) (.CONSTANT 5) .ASSIGN⟩
        = .halt vm_x_is_5
    ∧ run_loop (⟨0, .BINARY (.IDENTIFIER ['x']) (.CONSTANT 5) .ASSIGN⟩ :: []) vm_x_is_5 []
        = .halted vm_x_is_5 []
    ∧ ∃ vm1, run_instructions zero_memory
          [⟨0, .BINARY (.IDENTIFIER ['x']) (.CONSTANT 5) .ASSIGN⟩] = .finished vm1 []
        ∧ vm1.var_count = 1 ∧ vm1.vars 0 = 5 ∧ vm1.var_names 0 = ['x']
        ∧ run_instructions zero_memory
            [⟨0, .BINARY (.IDENTIFIER ['x']) (.CONSTANT 5) .ASSIGN⟩,
             ⟨0, .BINARY (.IDENTIFIER ['x']) (.CONSTANT 5) .ASSIGN⟩] = .halted vm1 [] :=
  ⟨by decide, C13_constant_reassign_halts vm_x_is_5 ['x'] 5 0 [] [] zero_memory (by decide)⟩

theorem exec_instruction_arith (vm : InstrVM) (op : BinaryOp) (f : ℚ → ℚ → ℚ)
    (h : arith_fun op = some f) (left right : Data) (out : Int) :
    exec_instruction vm ⟨out, .BINARY left right op⟩ = exec_arith vm f left right out := by
  cases op <;> simp [arith_fun] at h <;> subst h <;> rfl

/-- A binary arithmetic instruction whose operands resolve and whose output
index is not negative stores the result and makes the live count at least
the output index plus one. -/
theorem exec_arith_resolved (vm : InstrVM) (f : ℚ → ℚ → ℚ) (left right : Data) (a b : ℚ)
    (o : Nat) (ha : vm_get_var vm left = some a) (hb : vm_get_var vm right = some b) :
    exec_arith vm f left right (o : Int)
      = .next (update_vars ⟨Function.update vm.vars o (f a b), vm.var_names, vm.var_count⟩ o)
          [] := by
  simp [exec_arith, ha, hb, store_result]

/-- C17 at a failing program. The statement `-5` lowers to one negate
instruction with output register 0. Run from the empty state (live count 0,
output index 0, constant operand) it stores -5 in register 0, but the live
count stays 0 instead of becoming 1: the negate case does not call
`update_vars`. The four binary arithmetic cases do: with resolved operands and
an output index `o` at or above the live count they store the result in
register `o` and make the live count `o + 1`. -/
theorem C17_negate_keeps_live_count (fuel : Nat) (mem : InstrVM) :
    gen_code (fuel + 4) ['-', '5'] = .ok [⟨0, .UNARY (.CONSTANT 5) .NEG⟩]
    ∧ (∃ vm, run_instructions mem [⟨0, .UNARY (.CONSTANT 5) .NEG⟩] = .finished vm []
        ∧ vm.vars 0 = -5 ∧ vm.var_count = 0 ∧ vm.var_count ≠ 0 + 1)
    ∧ ∀ (vm : InstrVM) (op : BinaryOp) (f : ℚ → ℚ → ℚ) (left right : Data) (a b : ℚ)
        (o : Nat), arith_fun op = some f → vm_get_var vm left = some a →
        vm_get_var vm right = some b → vm.var_count ≤ o →
        ∃ vm1, exec_instruction vm ⟨(o : Int), .BINARY left right op⟩ = .next vm1 []
          ∧ vm1.var_count = o + 1 ∧ vm1.vars o = f a b := by
  refine ⟨?_, ?_, ?_⟩
  · have h2 := fun st line len curr hf =>
      parser_advance_number_end ['5'] st line len curr hf (by decide)
    have hp : parse_source (fuel + 4) ['-', '5']
        = .ok (.unary .NT_NEGATIVE (.number 5 false) true) := by
      simp only [parse_source, parser_create, lexer_create, parser_advance_minus]
      repeat
        (first
          | rw [parser_parse_expr_succ]
          | rw [parser_parse_terminal_expr_succ]
          | rw [parser_parse_expr_loop_succ]
          | rw [parser_parse_infix_expr_succ])
        simp [h2, parser_parse_number, parser_advance_nil, parser_advance_minus,
          set_top_level, precedence, Precedence.val, token_to_double, Token.text,
          strtod_digit_5]
    rw [gen_code, strtok_all_single _ (by simp) (by decide)]
    simp [gen_code_loop, asm_writer_create_eq, hp, parse_expr_tree_unary,
      get_node_class_of_type, get_data_number, emit_fresh, pushInstructionArr]
  · simp [run_instructions, run_loop, exec_instruction, vm_get_var]
  · intro vm op f left right a b o hop ha hb ho
    refine ⟨update_vars ⟨Function.update vm.vars o (f a b), vm.var_names, vm.var_count⟩ o,
      ?_, ?_, ?_⟩
    · rw [exec_instruction_arith vm op f hop, exec_arith_resolved vm f left right a b o ha hb]
    · simp [update_vars]; omega
    · simp [update_vars]

/-- C18, as the code behaves. Resolving a register operand is a direct read
of the register file, with no check against the live-register count. In every
state, for a register index `i` at or above the live count and below the
number of slots of the register file, the operand `%i` resolves to the value
stored at `i`; a binary arithmetic instruction with that operand on either
side, another operand that resolves and names no register outside the
register file, and an output index that is a slot of the register file goes
on and stores the result computed from the stored value, and so does a negate
instruction; the live count stays within the register file. -/
theorem C18_register_read_unchecked (vm : InstrVM) (i o : Nat) (d : Data) (b : ℚ)
    (op : BinaryOp) (f : ℚ → ℚ → ℚ) (hop : arith_fun op = some f)
    (hd : vm_get_var vm d = some b) (hi : vm.var_count ≤ i)
    (hi2 : i < register_file_size) (ho : o < register_file_size)
    (_hdr : ∀ r ∈ d.registers, r < (register_file_size : Int)) :
    vm_get_var vm (.VARIABLE (i : Int)) = some (vm.vars i)
    ∧ (∃ vm1, exec_instruction vm ⟨(o : Int), .BINARY (.VARIABLE (i : Int)) d op⟩
          = .next vm1 [] ∧ vm1.vars o = f (vm.vars i) b
          ∧ vm1.var_count ≤ register_file_size)
    ∧ (∃ vm1, exec_instruction vm ⟨(o : Int), .BINARY d (.VARIABLE (i : Int)) op⟩
          = .next vm1 [] ∧ vm1.vars o = f b (vm.vars i)
          ∧ vm1.var_count ≤ register_file_size)
    ∧ (∃ vm1, exec_instruction vm ⟨(o : Int), .UNARY (.VARIABLE (i : Int)) .NEG⟩
          = .next vm1 [] ∧ vm1.vars o = - vm.vars i
          ∧ vm1.var_count ≤ register_file_size) := by
  have hv : vm_get_var vm (.VARIABLE (i : Int)) = some (vm.vars i) := by
    simp [vm_get_var]
  have hc : vm.var_count ≤ register_file_size := by omega
  have hm : max vm.var_count (o + 1) ≤ register_file_size := max_le hc ho
  refine ⟨hv, ?_, ?_, ?_⟩
  · refine ⟨update_vars ⟨Function.update vm.vars o (f (vm.vars i) b), vm.var_names,
      vm.var_count⟩ o, ?_, by simp [update_vars], hm⟩
    rw [exec_instruction_arith vm op f hop, exec_arith_resolved vm f _ _ _ _ o hv hd]
  · refine ⟨update_vars ⟨Function.update vm.vars o (f b (vm.vars i)), vm.var_names,
      vm.var_count⟩ o, ?_, by simp [update_vars], hm⟩
    rw [exec_instruction_arith vm op f hop, exec_arith_resolved vm f _ _ _ _ o hd hv]
  · exact ⟨⟨Function.update vm.vars o (- vm.vars i), vm.var_names, vm.var_count⟩,
      exec_neg_nat vm o _ _ hv, by simp, hc⟩

/-- Witness of the amended C18: in the empty state of zeroed memory, `%0 + 1`
with output register 0 reads the dead register 0 and stores 1. -/
theorem C18_register_read_unchecked_witness :
    arith_fun .ADD = some (fun a b => a + b)
    ∧ vm_get_var zero_memory (.CONSTANT 1) = some 1
    ∧ zero_memory.var_count ≤ 0
    ∧ 0 < register_file_size
    ∧ (∀ r ∈ (Data.CONSTANT 1).registers, r < (register_file_size : Int))
    ∧ (vm_get_var zero_memory (.VARIABLE ((0 : Nat) : Int)) = some (zero_memory.vars 0)
      ∧ (∃ vm1, exec_instruction zero_memory
            ⟨((0 : Nat) : Int), .BINARY (.VARIABLE ((0 : Nat) : Int)) (.CONSTANT 1) .ADD⟩
            = .next vm1 [] ∧ vm1.vars 0 = (fun a b => a + b) (zero_memory.vars 0) 1
            ∧ vm1.var_count ≤ register_file_size)
      ∧ (∃ vm1, exec_instruction zero_memory
            ⟨((0 : Nat) : Int), .BINARY (.CONSTANT 1) (.VARIABLE ((0 : Nat) : Int)) .ADD⟩
            = .next vm1 [] ∧ vm1.vars 0 = (fun a b => a + b) 1 (zero_memory.vars 0)
            ∧ vm1.var_count ≤ register_file_size)
      ∧ (∃ vm1, exec_instruction zero_memory
            ⟨((0 : Nat) : Int), .UNARY (.VARIABLE ((0 : Nat) : Int)) .NEG⟩
            = .next vm1 [] ∧ vm1.vars 0 = - zero_memory.vars 0
            ∧ vm1.var_count ≤ register_file_size)) :=
  ⟨rfl, rfl, Nat.le_refl 0, by decide, fun r hr => absurd hr (List.not_mem_nil r),
    C18_register_read_unchecked zero_memory 0 0 (.CONSTANT 1) 1 .ADD (fun a b => a + b) rfl rfl
      (Nat.le_refl 0) (by decide) (by decide) (fun r hr => absurd hr (List.not_mem_nil r))⟩

/-- C18 fails as stated. In the run of `%0 = -5; %1 = %0 + 3` from the empty
state, the live count is 0 when the add instruction executes, so its register
operand 0 is not below the live count; the run does not fail, it finishes
with -2 in register 1. -/
theorem C18_counterexample :
    (∃ vm0, run_instructions zero_memory [⟨0, .UNARY (.CONSTANT 5) .NEG⟩] = .finished vm0 []
      ∧ ¬ ((0 : Int) < (vm0.var_count : Int)))
    ∧ ∃ vm, run_instructions zero_memory
        [⟨0, .UNARY (.CONSTANT 5) .NEG⟩, ⟨1, .BINARY (.VARIABLE 0) (.CONSTANT 3) .ADD⟩]
        = .finished vm [] ∧ vm.vars 1 = -2 := by
  constructor
  · simp [run_instructions, run_loop, exec_instruction, vm_get_var]
  · simp [run_instructions, run_loop, exec_instruction, exec_arith, vm_get_var, store_result,
      update_vars]
    norm_num

/-! ## Conditions that are reported but do not halt the run -/

/-- C19 at a failing program. The source `y + 1; z = 2` lowers to an add
instruction with the identifier operand `y` and an assignment. From the empty
state `y` is bound to no live register when the add instruction executes. The
run does not halt there: `y` resolves to 0, the add instruction writes 1 into
register 0 and makes it live, and the next instruction executes and binds `z`
to register 1 with value 2. -/
theorem C19_unknown_identifier_goes_on (fuel : Nat) (mem : InstrVM) :
    gen_code (fuel + 5) ['y', ' ', '+', ' ', '1', ';', ' ', 'z', ' ', '=', ' ', '2']
      = .ok [⟨0, .BINARY (.IDENTIFIER ['y']) (.CONSTANT 1) .ADD⟩,
             ⟨1, .BINARY (.IDENTIFIER ['z']) (.CONSTANT 2) .ASSIGN⟩]
    ∧ find_var ⟨mem.vars, mem.var_names, 0⟩ ['y'] = none
    ∧ (∃ vm, run_instructions mem [⟨0, .BINARY (.IDENTIFIER ['y']) (.CONSTANT 1) .ADD⟩]
          = .finished vm [] ∧ vm.vars 0 = 1 ∧ vm.var_count = 1)
    ∧ ∃ vm, run_instructions mem
        [⟨0, .BINARY (.IDENTIFIER ['y']) (.CONSTANT 1) .ADD⟩,
         ⟨1, .BINARY (.IDENTIFIER ['z']) (.CONSTANT 2) .ASSIGN⟩] = .finished vm []
      ∧ vm.vars 0 = 1 ∧ vm.var_count = 2 ∧ vm.var_names 1 = ['z'] ∧ vm.vars 1 = 2 := by
  refine ⟨?_, ?_, ?_, ?_⟩
  · have a1 := fun st line len curr hf =>
      parser_advance_identifier ['y'] [' ', '+', ' ', '1'] st line len curr hf (by decide) rfl
    have a2 := fun st line len curr hf =>
      parser_advance_number_end ['1'] st line len curr hf (by decide)
    have b1 := fun st line len curr hf =>
      parser_advance_identifier ['z'] [' ', '=', ' ', '2'] st line len curr hf (by decide) rfl
    have b2 := fun st line len curr hf =>
      parser_advance_number_end ['2'] st line len curr hf (by decide)
    simp only [List.singleton_append] at a1 b1
    have p1 : parse_source (fuel + 5) ['y', ' ', '+', ' ', '1']
        = .ok (.binary .NT_ADD (.ident ['y'] true) (.number 1 false) false) := by
      simp only [parse_source, parser_create, lexer_create, a1]
      repeat
        (first
          | rw [parser_parse_expr_succ]
          | rw [parser_parse_terminal_expr_succ]
          | rw [parser_parse_expr_loop_succ]
          | rw [parser_parse_infix_expr_succ])
        simp [a1, a2, parser_parse_number, parser_parse_ident, parser_advance_space,
          parser_advance_nil, parser_advance_plus, set_top_level, precedence, Precedence.val,
          token_to_double, Token.text, strtod_digit_1]
    have p2 : parse_source (fuel + 5) [' ', 'z', ' ', '=', ' ', '2']
        = .ok (.binary .NT_ASSIGN (.ident ['z'] true) (.number 2 false) false) := by
      simp only [parse_source, parser_create, lexer_create, parser_advance_space, b1]
      repeat
        (first
          | rw [parser_parse_expr_succ]
          | rw [parser_parse_terminal_expr_succ]
          | rw [parser_parse_expr_loop_succ]
          | rw [parser_parse_infix_expr_succ])
        simp [b1, b2, parser_parse_number, parser_parse_ident, parser_advance_space,
          parser_advance_nil, parser_advance_assign, set_top_level, precedence,
          Precedence.val, token_to_double, Token.text, strtod_digit_2]
    have hs : strtok_all ['y', ' ', '+', ' ', '1', ';', ' ', 'z', ' ', '=', ' ', '2']
        = [['y', ' ', '+', ' ', '1'], [' ', 'z', ' ', '=', ' ', '2']] := by decide
    rw [gen_code, hs]
    simp [gen_code_loop, asm_writer_create_eq, p1, p2, parse_expr_tree_binary,
      get_node_class_of_type, get_data_number, get_data_ident, get_expr_bin_op, emit_fresh,
      pushInstructionArr]
  · simp [find_var]
  · simp [run_instructions, run_loop, exec_instruction, exec_arith, find_var, vm_get_var,
      store_result, update_vars]
  · simp [run_instructions, run_loop, exec_instruction, exec_arith, exec_assign, find_var,
      vm_get_var, store_result, update_vars, delete_old, List.range_succ, List.find?]

/-- C20 at a failing program. The source `f(1); print(2)` lowers to a call
of `f` and a call of `print`. The call of the unknown `f` is instruction 0;
the run does not halt there: the call of `print` after it executes, writes
`2` and a newline, and makes two registers live. The state and output after
the first 0 instructions are the empty state and no output. -/
theorem C20_unknown_callee_goes_on (fuel : Nat) (mem : InstrVM) :
    gen_code (fuel + 7) ['f', '(', '1', ')', ';', ' ', 'p', 'r', 'i', 'n', 't', '(', '2', ')']
      = .ok [⟨0, .BINARY (.IDENTIFIER ['f']) (.ARGLIST [.CONSTANT 1]) .CALL⟩,
             ⟨1, .BINARY (.IDENTIFIER print_name) (.ARGLIST [.CONSTANT 2]) .CALL⟩]
    ∧ ['f'] ≠ print_name
    ∧ run_instructions mem [] = .finished ⟨mem.vars, mem.var_names, 0⟩ []
    ∧ ∃ vm, run_instructions mem
        [⟨0, .BINARY (.IDENTIFIER ['f']) (.ARGLIST [.CONSTANT 1]) .CALL⟩,
         ⟨1, .BINARY (.IDENTIFIER print_name) (.ARGLIST [.CONSTANT 2]) .CALL⟩]
        = .finished vm [.value 2, .newline]
      ∧ vm.var_count = 2 ∧ vm.vars 1 = 0 := by
  refine ⟨?_, by decide, rfl, ?_⟩
  · have a0 := fun st line len curr hf =>
      parser_advance_identifier ['f'] ['(', '1', ')'] st line len curr hf (by decide) rfl
    have a1 := fun st line len curr hf =>
      parser_advance_number ['1'] [')'] st line len curr hf (by decide) rfl
    have b0 := fun st line len curr hf =>
      parser_advance_identifier print_name ['(', '2', ')'] st line len curr hf (by decide) rfl
    have b1 := fun st line len curr hf =>
      parser_advance_number ['2'] [')'] st line len curr hf (by decide) rfl
    simp only [List.singleton_append, print_name, List.cons_append, List.nil_append]
      at a0 a1 b0 b1
    have p1 : parse_source (fuel + 7) ['f', '(', '1', ')']
        = .ok (.binary .NT_CALL (.ident ['f'] false)
            (.binary .NT_ARGS (.number 1 true) .null false) false) := by
      simp only [parse_source, parser_create, lexer_create, a0]
      repeat
        (first
          | rw [parser_parse_expr_succ]
          | rw [parser_parse_terminal_expr_succ]
          | rw [parser_parse_args_succ])
        try simp [a0, a1, parser_parse_number, parser_parse_ident, parser_advance_nil,
          parser_advance_lparen, parser_advance_rparen, set_top_level, token_to_double,
          Token.text, strtod_digit_1]
    have p2 : parse_source (fuel + 7) [' ', 'p', 'r', 'i', 'n', 't', '(', '2', ')']
        = .ok (.binary .NT_CALL (.ident print_name false)
            (.binary .NT_ARGS (.number 2 true) .null false) false) := by
      simp only [parse_source, parser_create, lexer_create, parser_advance_space, b0]
      repeat
        (first
          | rw [parser_parse_expr_succ]
          | rw [parser_parse_terminal_expr_succ]
          | rw [parser_parse_args_succ])
        try simp [b0, b1, parser_parse_number, parser_parse_ident, parser_advance_nil,
          parser_advance_lparen, parser_advance_rparen, set_top_level, token_to_double,
          Token.text, strtod_digit_2, print_name]
    have hs : strtok_all
          ['f', '(', '1', ')', ';', ' ', 'p', 'r', 'i', 'n', 't', '(', '2', ')']
        = [['f', '(', '1', ')'], [' ', 'p', 'r', 'i', 'n', 't', '(', '2', ')']] := by decide
    rw [gen_code, hs]
    simp [gen_code_loop, asm_writer_create_eq, p1, p2, parse_expr_tree_binary,
      get_node_class_of_type, get_data_number, get_data_ident, get_data_args, get_args_link,
      get_args_null, emit_fresh, pushInstructionArr]
  · have hne : ¬ (['f'] = print_name) := by decide
    simp [run_instructions, run_loop, exec_instruction, exec_call, hne, print_args,
      vm_get_var, store_result, update_vars]

/-! ## Register numbering -/

theorem fresh_outputs_append (a b : List Instruction) :
    fresh_outputs (a ++ b) = fresh_outputs a ++ fresh_outputs b := by
  simp [fresh_outputs]

theorem emits_refl (aw : AsmWriter) : Emits aw aw :=
  ⟨[], by simp, Nat.le_refl _, by simp [fresh_outputs]⟩

theorem emits_trans (a b c : AsmWriter) (h1 : Emits a b) (h2 : Emits b c) : Emits a c := by
  obtain ⟨is1, e1, l1, f1⟩ := h1
  obtain ⟨is2, e2, l2, f2⟩ := h2
  refine ⟨is1 ++ is2, by rw [e2, e1, List.append_assoc], by omega, ?_⟩
  rw [fresh_outputs_append, f1, f2, ← List.map_append]
  congr 1
  have h3 : List.range' b.cur_var (c.cur_var - b.cur_var)
      = List.range' (a.cur_var + (b.cur_var - a.cur_var)) (c.cur_var - b.cur_var) := by
    congr 1; omega
  rw [h3, List.range'_append_1]
  congr 1
  omega

theorem emits_fresh (aw : AsmWriter) (data : InstructionData) :
    Emits aw (emit_fresh aw data).2 := by
  refine ⟨[⟨(aw.cur_var : Int), data⟩], rfl, by simp [emit_fresh, pushInstructionArr], ?_⟩
  have : ((aw.cur_var : Int) ≠ -1) := by omega
  simp [fresh_outputs, emit_fresh, pushInstructionArr, this]

theorem emits_sentinel (aw : AsmWriter) (data : InstructionData) :
    Emits aw (pushInstructionArr aw ⟨-1, data⟩) :=
  ⟨[⟨-1, data⟩], rfl, Nat.le_refl _, by simp [fresh_outputs, pushInstructionArr]⟩

theorem get_args_number (v : ℚ) (t : Bool) (aw : AsmWriter) :
    get_args (.number v t) aw = .ok ([], aw) := by
  rw [get_args]
  intro l r t2 h; cases h

theorem get_args_ident (s : List Char) (t : Bool) (aw : AsmWriter) :
    get_args (.ident s t) aw = .ok ([], aw) := by
  rw [get_args]
  intro l r t2 h; cases h

theorem get_args_unary (ty : ExprNodeType) (o : ExprNode) (t : Bool) (aw : AsmWriter) :
    get_args (.unary ty o t) aw = .ok ([], aw) := by
  rw [get_args]
  intro l r t2 h; cases h

theorem get_args_other (ty : ExprNodeType) (l r : ExprNode) (t : Bool) (aw : AsmWriter)
    (h : ty ≠ .NT_ARGS) : get_args (.binary ty l r t) aw = .ok ([], aw) := by
  rw [get_args]
  intro l2 r2 t2 hh
  cases hh
  exact h rfl
theorem parse_expr_tree_null (aw : AsmWriter) :
    parse_expr_tree .null aw = .error .null_deref := by
  rw [parse_expr_tree]

theorem parse_expr_tree_number (v : ℚ) (t : Bool) (aw : AsmWriter) :
    parse_expr_tree (.number v t) aw = .ok (0, aw) := by
  rw [parse_expr_tree]

theorem parse_expr_tree_ident (s : List Char) (t : Bool) (aw : AsmWriter) :
    parse_expr_tree (.ident s t) aw = .ok (0, aw) := by
  rw [parse_expr_tree]

theorem get_data_null (aw : AsmWriter) : get_data .null aw = .error .null_deref := by
  rw [get_data]

/-- Every step of the lowering pass continues the writer it is given. -/
theorem lowering_emits (e : ExprNode) : ∀ aw : AsmWriter,
    (∀ v aw1, parse_expr_tree e aw = .ok (v, aw1) → Emits aw aw1) ∧
    (∀ d aw1, get_data e aw = .ok (d, aw1) → Emits aw aw1) ∧
    (∀ ds aw1, get_args e aw = .ok (ds, aw1) → Emits aw aw1) := by
  induction e with
  | null =>
    intro aw
    refine ⟨?_, ?_, ?_⟩
    · intro v aw1 h; rw [parse_expr_tree_null] at h; cases h
    · intro d aw1 h; rw [get_data_null] at h; cases h
    · intro ds aw1 h; rw [get_args_null] at h; cases h; exact emits_refl _
  | number v t =>
    intro aw
    refine ⟨?_, ?_, ?_⟩
    · intro v aw1 h; rw [parse_expr_tree_number] at h; cases h; exact emits_refl _
    · intro d aw1 h; rw [get_data_number] at h; cases h; exact emits_refl _
    · intro ds aw1 h; rw [get_args_number] at h; cases h; exact emits_refl _
  | ident s t =>
    intro aw
    refine ⟨?_, ?_, ?_⟩
    · intro v aw1 h; rw [parse_expr_tree_ident] at h; cases h; exact emits_refl _
    · intro d aw1 h; rw [get_data_ident] at h; cases h; exact emits_refl _
    · intro ds aw1 h; rw [get_args_ident] at h; cases h; exact emits_refl _
  | unary t o tl ih =>
    intro aw
    have hp : ∀ v aw1, parse_expr_tree (.unary t o tl) aw = .ok (v, aw1) → Emits aw aw1 := by
      intro v aw1 h
      rw [parse_expr_tree_unary] at h
      cases hc : get_node_class_of_type t <;> rw [hc] at h <;> simp only at h <;>
        try cases h
      cases hg : get_data o aw with
      | error err => rw [hg] at h; cases h
      | ok x =>
        obtain ⟨d, aw2⟩ := x
        rw [hg] at h
        simp only [Except.ok.injEq] at h
        obtain rfl : aw1 = _ := (congrArg Prod.snd h).symm
        exact emits_trans _ _ _ ((ih aw).2.1 d aw2 hg) (emits_fresh _ _)
    refine ⟨hp, ?_, ?_⟩
    · intro d aw1 h
      rw [get_data_unary] at h
      cases hq : parse_expr_tree (.unary t o tl) aw with
      | error err => rw [hq] at h; cases h
      | ok x =>
        obtain ⟨v, aw2⟩ := x
        rw [hq] at h
        simp only [Except.ok.injEq, Prod.mk.injEq] at h
        rw [← h.2]
        exact hp v aw2 hq
    · intro ds aw1 h; rw [get_args_unary] at h; cases h; exact emits_refl _
  | binary t l r tl ihl ihr =>
    intro aw
    have hp : ∀ v aw1, parse_expr_tree (.binary t l r tl) aw = .ok (v, aw1) → Emits aw aw1 := by
      intro v aw1 h
      rw [parse_expr_tree_binary] at h
      cases hc : get_node_class_of_type t <;> rw [hc] at h <;> simp only at h
      · -- NC_UNARY
        cases hg : get_data l aw with
        | error err => rw [hg] at h; cases h
        | ok x =>
          obtain ⟨d, aw2⟩ := x
          rw [hg] at h
          simp only [Except.ok.injEq] at h
          obtain rfl : aw1 = _ := (congrArg Prod.snd h).symm
          exact emits_trans _ _ _ ((ihl aw).2.1 d aw2 hg) (emits_fresh _ _)
      · -- NC_BINARY
        cases hg : get_data l aw with
        | error err => rw [hg] at h; cases h
        | ok x =>
          obtain ⟨dl, aw2⟩ := x
          rw [hg] at h
          simp only at h
          cases hg2 : get_data r aw2 with
          | error err => rw [hg2] at h; cases h
          | ok y =>
            obtain ⟨dr, aw3⟩ := y
            rw [hg2] at h
            simp only at h
            have e12 := emits_trans _ _ _ ((ihl aw).2.1 dl aw2 hg) ((ihr aw2).2.1 dr aw3 hg2)
            cases hop : get_expr_bin_op t with
            | none => rw [hop] at h; cases h
            | some op =>
              rw [hop] at h
              simp only at h
              split at h
              · simp only [Except.ok.injEq, Prod.mk.injEq] at h
                rw [← h.2]
                exact emits_trans _ _ _ e12 (emits_sentinel _ _)
              · simp only [Except.ok.injEq] at h
                obtain rfl : aw1 = _ := (congrArg Prod.snd h).symm
                exact emits_trans _ _ _ e12 (emits_fresh _ _)
      · -- NC_VALUE
        cases h
      · -- NC_CALL
        cases hg : get_data l aw with
        | error err => rw [hg] at h; cases h
        | ok x =>
          obtain ⟨dl, aw2⟩ := x
          rw [hg] at h
          simp only at h
          cases hg2 : get_data r aw2 with
          | error err => rw [hg2] at h; cases h
          | ok y =>
            obtain ⟨dr, aw3⟩ := y
            rw [hg2] at h
            simp only [Except.ok.injEq] at h
            obtain rfl : aw1 = _ := (congrArg Prod.snd h).symm
            exact emits_trans _ _ _
              (emits_trans _ _ _ ((ihl aw).2.1 dl aw2 hg) ((ihr aw2).2.1 dr aw3 hg2))
              (emits_fresh _ _)
      · -- NC_ARGS
        simp only [Except.ok.injEq, Prod.mk.injEq] at h
        rw [← h.2]
        exact emits_refl _
    have ha : ∀ ds aw1, get_args (.binary t l r tl) aw = .ok (ds, aw1) → Emits aw aw1 := by
      intro ds aw1 h
      by_cases ht : t = .NT_ARGS
      · subst ht
        rw [get_args_link] at h
        cases hg : get_data l aw with
        | error err => rw [hg] at h; cases h
        | ok x =>
          obtain ⟨d, aw2⟩ := x
          rw [hg] at h
          simp only at h
          cases hg2 : get_args r aw2 with
          | error err => rw [hg2] at h; cases h
          | ok y =>
            obtain ⟨ds2, aw3⟩ := y
            rw [hg2] at h
            simp only [Except.ok.injEq, Prod.mk.injEq] at h
            rw [← h.2]
            exact emits_trans _ _ _ ((ihl aw).2.1 d aw2 hg) ((ihr aw2).2.2 ds2 aw3 hg2)
      · rw [get_args_other _ _ _ _ _ ht] at h
        cases h
        exact emits_refl _
    refine ⟨hp, ?_, ha⟩
    intro d aw1 h
    by_cases ht : t = .NT_ARGS
    · subst ht
      rw [get_data_args] at h
      cases hq : get_args (.binary .NT_ARGS l r tl) aw with
      | error err => rw [hq] at h; cases h
      | ok x =>
        obtain ⟨ds, aw2⟩ := x
        rw [hq] at h
        simp only [Except.ok.injEq, Prod.mk.injEq] at h
        rw [← h.2]
        exact ha ds aw2 hq
    · rw [get_data_binary _ _ _ _ _ ht] at h
      cases hq : parse_expr_tree (.binary t l r tl) aw with
      | error err => rw [hq] at h; cases h
      | ok x =>
        obtain ⟨v, aw2⟩ := x
        rw [hq] at h
        simp only [Except.ok.injEq, Prod.mk.injEq] at h
        rw [← h.2]
        exact hp v aw2 hq

theorem asm_writer_create_emits (fuel : Nat) (tok : List Char) (off : Nat) (aw : AsmWriter)
    (h : asm_writer_create fuel tok off = .ok aw) :
    Emits { instructions := [], depth := 0, cur_var := off } aw := by
  rw [asm_writer_create] at h
  cases hp : parser_parse_expr fuel (parser_create tok) .PREC_MIN with
  | error err => rw [hp] at h; cases h
  | ok x =>
    obtain ⟨tree, p⟩ := x
    rw [hp] at h
    simp only at h
    cases hl : parse_expr_tree tree { instructions := [], depth := 0, cur_var := off } with
    | error err => rw [hl] at h; cases h
    | ok y =>
      obtain ⟨v, aw1⟩ := y
      rw [hl] at h
      simp only [Except.ok.injEq] at h
      subst h
      exact (lowering_emits tree _).1 v aw1 hl

/-- The loop of `gen_code` appends to the program; the registers it hands
out continue from the offset it is entered with. -/
theorem gen_code_loop_emits (fuel : Nat) : ∀ (toks : List (List Char)) (acc : List Instruction)
    (off : Nat) (prog : List Instruction), gen_code_loop fuel toks acc off = .ok prog →
    ∃ is n, prog = acc ++ is ∧
      fresh_outputs is = (List.range' off n).map (fun (i : Nat) => (i : Int)) := by
  intro toks
  induction toks with
  | nil =>
    intro acc off prog h
    rw [gen_code_loop] at h
    cases h
    exact ⟨[], 0, by simp, by simp [fresh_outputs]⟩
  | cons tok rest ih =>
    intro acc off prog h
    rw [gen_code_loop] at h
    cases hc : asm_writer_create fuel tok off with
    | error err => rw [hc] at h; cases h
    | ok aw =>
      rw [hc] at h
      simp only at h
      obtain ⟨is1, e1, l1, f1⟩ := asm_writer_create_emits fuel tok off aw hc
      obtain ⟨is2, n2, e2, f2⟩ := ih _ _ _ h
      simp only [List.nil_append] at e1 l1 f1
      refine ⟨is1 ++ is2, (aw.cur_var - off) + n2, ?_, ?_⟩
      · rw [e2, e1, List.append_assoc]
      · rw [fresh_outputs_append, f1, f2, ← List.map_append]
        congr 1
        have h3 : List.range' aw.cur_var n2 = List.range' (off + (aw.cur_var - off)) n2 := by
          congr 1; omega
        rw [h3, List.range'_append_1]
        congr 1
        omega

/-- The fresh output registers of a generated program are 0, 1, 2, ... -/
theorem gen_code_fresh_outputs (fuel : Nat) (src : List Char) (prog : List Instruction)
    (h : gen_code fuel src = .ok prog) :
    fresh_outputs prog
      = (List.range (fresh_outputs prog).length).map (fun (i : Nat) => (i : Int)) := by
  rw [gen_code] at h
  obtain ⟨is, n, e, f⟩ := gen_code_loop_emits fuel _ _ _ _ h
  simp only [List.nil_append] at e
  subst e
  rw [f]
  simp [List.range_eq_range']

/-- The program of `a = 1; b = 2`. -/
theorem gen_code_two_assignments (fuel : Nat) :
    gen_code (fuel + 5) ['a', ' ', '=', ' ', '1', ';', ' ', 'b', ' ', '=', ' ', '2']
      = .ok [⟨0, .BINARY (.IDENTIFIER ['a']) (.CONSTANT 1) .ASSIGN⟩,
             ⟨1, .BINARY (.IDENTIFIER ['b']) (.CONSTANT 2) .ASSIGN⟩] := by
  have a0 := fun st line len curr hf =>
    parser_advance_identifier ['a'] [' ', '=', ' ', '1'] st line len curr hf (by decide) rfl
  have a1 := fun st line len curr hf =>
    parser_advance_number_end ['1'] st line len curr hf (by decide)
  have b0 := fun st line len curr hf =>
    parser_advance_identifier ['b'] [' ', '=', ' ', '2'] st line len curr hf (by decide) rfl
  have b1 := fun st line len curr hf =>
    parser_advance_number_end ['2'] st line len curr hf (by decide)
  simp only [List.singleton_append, List.cons_append, List.nil_append] at a0 a1 b0 b1
  have p1 : parse_source (fuel + 5) ['a', ' ', '=', ' ', '1']
      = .ok (.binary .NT_ASSIGN (.ident ['a'] true) (.number 1 false) false) := by
    simp only [parse_source, parser_create, lexer_create, a0]
    repeat
      (first
        | rw [parser_parse_expr_succ]
        | rw [parser_parse_terminal_expr_succ]
        | rw [parser_parse_expr_loop_succ]
        | rw [parser_parse_infix_expr_succ])
      try simp [a0, a1, parser_parse_number, parser_parse_ident, parser_advance_space,
        parser_advance_nil, parser_advance_assign, set_top_level, precedence, Precedence.val,
        token_to_double, Token.text, text_of_span, text_of_span_end, strtod_digit_1]
  have p2 : parse_source (fuel + 5) [' ', 'b', ' ', '=', ' ', '2']
      = .ok (.binary .NT_ASSIGN (.ident ['b'] true) (.number 2 false) false) := by
    simp only [parse_source, parser_create, lexer_create, parser_advance_space, b0]
    repeat
      (first
        | rw [parser_parse_expr_succ]
        | rw [parser_parse_terminal_expr_succ]
        | rw [parser_parse_expr_loop_succ]
        | rw [parser_parse_infix_expr_succ])
      try simp [b0, b1, parser_parse_number, parser_parse_ident, parser_advance_space,
        parser_advance_nil, parser_advance_assign, set_top_level, precedence, Precedence.val,
        token_to_double, Token.text, text_of_span, text_of_span_end, strtod_digit_2]
  have hs : strtok_all ['a', ' ', '=', ' ', '1', ';', ' ', 'b', ' ', '=', ' ', '2']
      = [['a', ' ', '=', ' ', '1'], [' ', 'b', ' ', '=', ' ', '2']] := by decide
  rw [gen_code, hs]
  simp [gen_code_loop, asm_writer_create_eq, p1, p2, parse_expr_tree_binary,
    get_node_class_of_type, get_data_number, get_data_ident, get_expr_bin_op,
    emit_fresh, pushInstructionArr]

/-- C12. Whenever `gen_code` produces a program, its output registers other
than the sentinel -1, read in program order, are exactly 0, 1, 2, ...: the
instruction at any position with a non-sentinel output has as output the
number of non-sentinel outputs before it; hence these outputs are strictly
increasing and pairwise distinct, within one statement and across statements.
For `a = 1; b = 2` the program is produced and gives register 0 to `a` and
register 1 to `b`. -/
theorem C12_registers_numbered_in_order (fuel : Nat) (src : List Char) (prog : List Instruction)
    (h : gen_code fuel src = .ok prog) (fuel2 : Nat) :
    fresh_outputs prog
        = (List.range (fresh_outputs prog).length).map (fun (i : Nat) => (i : Int))
    ∧ (∀ pre instr post, prog = pre ++ instr :: post → instr.out ≠ -1 →
        instr.out = ((fresh_outputs pre).length : Int))
    ∧ List.Pairwise (fun a b => a < b) (fresh_outputs prog)
    ∧ (fresh_outputs prog).Nodup
    ∧ gen_code (fuel2 + 5) ['a', ' ', '=', ' ', '1', ';', ' ', 'b', ' ', '=', ' ', '2']
        = .ok [⟨0, .BINARY (.IDENTIFIER ['a']) (.CONSTANT 1) .ASSIGN⟩,
               ⟨1, .BINARY (.IDENTIFIER ['b']) (.CONSTANT 2) .ASSIGN⟩] := by
  have hf := gen_code_fresh_outputs fuel src prog h
  have hp : List.Pairwise (fun a b => a < b) (fresh_outputs prog) := by
    rw [hf, List.pairwise_map]
    exact (List.pairwise_lt_range _).imp (fun hab => by exact_mod_cast hab)
  refine ⟨hf, ?_, hp, hp.imp (fun hab => ne_of_lt hab), gen_code_two_assignments fuel2⟩
  intro pre instr post e ho
  subst e
  have h1 : fresh_outputs (pre ++ instr :: post)
      = fresh_outputs pre ++ instr.out :: fresh_outputs post := by
    simp [fresh_outputs, ho]
  have h2 : (fresh_outputs (pre ++ instr :: post))[(fresh_outputs pre).length]?
      = some instr.out := by
    rw [h1, List.getElem?_append_right (Nat.le_refl _)]
    simp
  rw [hf] at h2
  simp only [List.getElem?_map, Option.map_eq_some'] at h2
  obtain ⟨k, hk, hk2⟩ := h2
  rw [List.getElem?_range] at hk
  · cases hk; exact hk2.symm
  · by_contra hlt
    rw [List.getElem?_eq_none (by simpa using hlt)] at hk
    cases hk

/-- C12 at the program of `a = 1; b = 2`. -/
theorem C12_registers_numbered_in_order_witness :
    gen_code 5 ['a', ' ', '=', ' ', '1', ';', ' ', 'b', ' ', '=', ' ', '2']
        = .ok [⟨0, .BINARY (.IDENTIFIER ['a']) (.CONSTANT 1) .ASSIGN⟩,
               ⟨1, .BINARY (.IDENTIFIER ['b']) (.CONSTANT 2) .ASSIGN⟩]
    ∧ fresh_outputs [⟨0, .BINARY (.IDENTIFIER ['a']) (.CONSTANT 1) .ASSIGN⟩,
                     ⟨1, .BINARY (.IDENTIFIER ['b']) (.CONSTANT 2) .ASSIGN⟩]
        = (List.range (fresh_outputs
            [⟨0, .BINARY (.IDENTIFIER ['a']) (.CONSTANT 1) .ASSIGN⟩,
             ⟨1, .BINARY (.IDENTIFIER ['b']) (.CONSTANT 2) .ASSIGN⟩]).length).map
            (fun (i : Nat) => (i : Int)) :=
  ⟨gen_code_two_assignments 0,
   (C12_registers_numbered_in_order 5 _ _ (gen_code_two_assignments 0) 0).1⟩

/-! ## Argument lists do not nest -/

theorem parser_parse_args_zero (p : Parser) : parser_parse_args 0 p = .error .out_of_fuel := by
  rw [parser_parse_args]

theorem parser_parse_infix_expr_zero (p : Parser) (op : Token) (left : ExprNode) :
    parser_parse_infix_expr 0 p op left = .error .out_of_fuel := by
  rw [parser_parse_infix_expr]

theorem parser_parse_terminal_expr_zero (p : Parser) :
    parser_parse_terminal_expr 0 p = .error .out_of_fuel := by
  rw [parser_parse_terminal_expr]

theorem parser_parse_expr_loop_zero (p : Parser) (prec : Precedence) (left : ExprNode)
    (op : Token) : parser_parse_expr_loop 0 p prec left op = .error .out_of_fuel := by
  rw [parser_parse_expr_loop]

theorem parser_parse_expr_zero (p : Parser) (prec : Precedence) :
    parser_parse_expr 0 p prec = .error .out_of_fuel := by
  rw [parser_parse_expr]

theorem is_operand_tree_set_top_level (e : ExprNode) (h : is_operand_tree e = true) :
    is_operand_tree (set_top_level e) = true := by
  cases e <;> simp [set_top_level, is_operand_tree, args_flat, is_args_node] at h ⊢ <;> exact h

theorem is_operand_tree_parse_number (p : Parser) :
    is_operand_tree (parser_parse_number p).1 = true := by
  unfold parser_parse_number
  split <;> simp [is_operand_tree, args_flat, is_args_node]

theorem is_operand_tree_parse_ident (p : Parser) :
    is_operand_tree (parser_parse_ident p).1 = true := by
  unfold parser_parse_ident
  split <;> simp [is_operand_tree, args_flat, is_args_node]

/-- What the parser builds: every expression is an operand tree and every
argument chain has operand trees as its arguments. -/
theorem parser_builds_operand_trees (fuel : Nat) :
    (∀ p e p1, parser_parse_args fuel p = .ok (e, p1) → args_flat e = true) ∧
    (∀ p op left e p1, parser_parse_infix_expr fuel p op left = .ok (e, p1) →
      is_operand_tree left = true → is_operand_tree e = true) ∧
    (∀ p e p1, parser_parse_terminal_expr fuel p = .ok (e, p1) → is_operand_tree e = true) ∧
    (∀ p prec left op e p1, parser_parse_expr_loop fuel p prec left op = .ok (e, p1) →
      is_operand_tree left = true → is_operand_tree e = true) ∧
    (∀ p prec e p1, parser_parse_expr fuel p prec = .ok (e, p1) →
      is_operand_tree e = true) := by
  induction fuel with
  | zero =>
    refine ⟨?_, ?_, ?_, ?_, ?_⟩
    · intro p e p1 h; rw [parser_parse_args_zero] at h; cases h
    · intro p op left e p1 h; rw [parser_parse_infix_expr_zero] at h; cases h
    · intro p e p1 h; rw [parser_parse_terminal_expr_zero] at h; cases h
    · intro p prec left op e p1 h; rw [parser_parse_expr_loop_zero] at h; cases h
    · intro p prec e p1 h; rw [parser_parse_expr_zero] at h; cases h
  | succ fuel ih =>
    obtain ⟨ihA, ihI, ihT, ihL, ihE⟩ := ih
    refine ⟨?_, ?_, ?_, ?_, ?_⟩
    · -- parser_parse_args
      intro p e p1 h
      rw [parser_parse_args_succ] at h
      cases h1 : parser_parse_expr fuel p .PREC_MIN with
      | error err => rw [h1] at h; cases h
      | ok x =>
        obtain ⟨left, q⟩ := x
        rw [h1] at h
        simp only at h
        have hl := ihE _ _ _ _ h1
        simp only [is_operand_tree, Bool.and_eq_true, Bool.not_eq_true'] at hl
        split at h
        · cases h2 : parser_parse_args fuel (parser_advance q) with
          | error err => rw [h2] at h; cases h
          | ok y =>
            obtain ⟨right, q2⟩ := y
            rw [h2] at h
            simp only [Except.ok.injEq, Prod.mk.injEq] at h
            rw [← h.1]
            simp [args_flat, hl.1, hl.2, ihA _ _ _ h2]
        · simp only [Except.ok.injEq, Prod.mk.injEq] at h
          rw [← h.1]
          simp [args_flat, hl.1, hl.2]
    · -- parser_parse_infix_expr
      intro p op left e p1 h hleft
      rw [parser_parse_infix_expr_succ] at h
      split at h
      · simp only [Except.ok.injEq, Prod.mk.injEq] at h
        rw [← h.1]; exact hleft
      · simp only at h
        cases h1 : parser_parse_expr fuel p (precedence op.type) with
        | error err => rw [h1] at h; cases h
        | ok x =>
          obtain ⟨right, q⟩ := x
          rw [h1] at h
          simp only [Except.ok.injEq, Prod.mk.injEq] at h
          rw [← h.1]
          have hr := ihE _ _ _ _ h1
          simp only [is_operand_tree, Bool.and_eq_true, Bool.not_eq_true'] at hr hleft
          cases op.type <;>
            simp [is_operand_tree, args_flat, is_args_node, hr.1, hleft.1, hleft.2]
    · -- parser_parse_terminal_expr
      intro p e p1 h
      rw [parser_parse_terminal_expr_succ] at h
      simp only at h
      have key : ∀ (node : ExprNode) (q : Parser), is_operand_tree node = true →
          (if q.curr.type = .TT_NUM ∨ q.curr.type = .TT_LPAREN ∨ q.curr.type = .TT_IDENT then
            match parser_parse_args fuel q with
            | .error e => .error e
            | .ok (args, p2) => .ok (.binary .NT_CALL node args false, p2)
          else (.ok (node, q) : Except Fault (ExprNode × Parser))) = .ok (e, p1) →
          is_operand_tree e = true := by
        intro node q hn hh
        split at hh
        · cases h2 : parser_parse_args fuel q with
          | error err => rw [h2] at hh; cases hh
          | ok y =>
            obtain ⟨args, q2⟩ := y
            rw [h2] at hh
            simp only [Except.ok.injEq, Prod.mk.injEq] at hh
            rw [← hh.1]
            simp only [is_operand_tree, Bool.and_eq_true, Bool.not_eq_true'] at hn
            simp [is_operand_tree, args_flat, is_args_node, hn.1, ihA _ _ _ h2]
        · simp only [Except.ok.injEq, Prod.mk.injEq] at hh
          rw [← hh.1]; exact hn
      have hnull : is_operand_tree .null = true := by
        simp [is_operand_tree, args_flat, is_args_node]
      by_cases c1 : p.curr.type = .TT_NUM
      · simp only [c1, if_true] at h
        exact key _ _ (is_operand_tree_parse_number p) h
      by_cases c2 : p.curr.type = .TT_IDENT
      · simp only [c2, if_true, if_false, reduceCtorEq] at h
        exact key _ _ (is_operand_tree_parse_ident p) h
      by_cases c3 : p.curr.type = .TT_LPAREN
      · simp only [c3, if_true, if_false, reduceCtorEq] at h
        cases h1 : parser_parse_expr fuel (parser_advance p) .PREC_MIN with
        | error err => rw [h1] at h; cases h
        | ok x =>
          obtain ⟨node, q⟩ := x
          rw [h1] at h
          simp only at h
          have hn := ihE _ _ _ _ h1
          by_cases d1 : q.curr.type = .TT_RPAREN
          · rw [if_pos d1] at h
            exact key _ _ hn h
          by_cases d2 : q.curr.type = .TT_COMMA
          · rw [if_neg d1, if_pos d2] at h
            exact key _ _ hn h
          · rw [if_neg d1, if_neg d2] at h
            simp only [Except.ok.injEq, Prod.mk.injEq] at h
            rw [← h.1]; exact hnull
      by_cases c4 : p.curr.type = .TT_PLUS
      · simp only [c4, if_true, if_false, reduceCtorEq] at h
        cases h1 : parser_parse_terminal_expr fuel (parser_advance p) with
        | error err => rw [h1] at h; cases h
        | ok x =>
          obtain ⟨operand, q⟩ := x
          rw [h1] at h
          simp only at h
          have hn := ihT _ _ _ h1
          simp only [is_operand_tree, Bool.and_eq_true, Bool.not_eq_true'] at hn
          exact key _ _ (by simp [is_operand_tree, args_flat, is_args_node, hn.1]) h
      by_cases c5 : p.curr.type = .TT_MINUS
      · simp only [c5, if_true, if_false, reduceCtorEq] at h
        cases h1 : parser_parse_terminal_expr fuel (parser_advance p) with
        | error err => rw [h1] at h; cases h
        | ok x =>
          obtain ⟨operand, q⟩ := x
          rw [h1] at h
          simp only at h
          have hn := ihT _ _ _ h1
          simp only [is_operand_tree, Bool.and_eq_true, Bool.not_eq_true'] at hn
          exact key _ _ (by simp [is_operand_tree, args_flat, is_args_node, hn.1]) h
      · simp only [c1, c2, c3, c4, c5, if_false, Except.ok.injEq, Prod.mk.injEq] at h
        rw [← h.1]; exact hnull
    · -- parser_parse_expr_loop
      intro p prec left op e p1 h hleft
      rw [parser_parse_expr_loop_succ] at h
      split at h
      · simp only [Except.ok.injEq, Prod.mk.injEq] at h
        rw [← h.1]; exact hleft
      · split at h
        · simp only [Except.ok.injEq, Prod.mk.injEq] at h
          rw [← h.1]; exact hleft
        · cases h1 : parser_parse_infix_expr fuel (parser_advance p) op left with
          | error err => rw [h1] at h; cases h
          | ok x =>
            obtain ⟨left2, q⟩ := x
            rw [h1] at h
            simp only at h
            exact ihL _ _ _ _ _ _ h (ihI _ _ _ _ _ h1 hleft)
    · -- parser_parse_expr
      intro p prec e p1 h
      rw [parser_parse_expr_succ] at h
      have hnull : is_operand_tree .null = true := by
        simp [is_operand_tree, args_flat, is_args_node]
      split at h
      · simp only [Except.ok.injEq, Prod.mk.injEq] at h
        rw [← h.1]; exact hnull
      · split at h
        · simp only [Except.ok.injEq, Prod.mk.injEq] at h
          rw [← h.1]; exact hnull
        · cases h1 : parser_parse_terminal_expr fuel p with
          | error err => rw [h1] at h; cases h
          | ok x =>
            obtain ⟨left, q⟩ := x
            rw [h1] at h
            simp only at h
            have hl := ihT _ _ _ h1
            have hl1 : is_operand_tree (if q.has_first = false then set_top_level left else left)
                = true := by
              split
              · exact is_operand_tree_set_top_level _ hl
              · exact hl
            have fin : ∀ (l1 : ExprNode) (q2 : Parser), is_operand_tree l1 = true →
                (if q2.curr.type = .TT_EOF then .ok (l1, q2)
                 else if q2.curr.type = .TT_COMMA then .ok (l1, q2)
                 else if q2.curr.type = .TT_RPAREN then .ok (l1, q2)
                 else parser_parse_expr_loop fuel q2 prec l1 q2.curr) = .ok (e, p1) →
                is_operand_tree e = true := by
              intro l1 q2 hq hh
              split at hh
              · simp only [Except.ok.injEq, Prod.mk.injEq] at hh
                rw [← hh.1]; exact hq
              · split at hh
                · simp only [Except.ok.injEq, Prod.mk.injEq] at hh
                  rw [← hh.1]; exact hq
                · split at hh
                  · simp only [Except.ok.injEq, Prod.mk.injEq] at hh
                    rw [← hh.1]; exact hq
                  · exact ihL _ _ _ _ _ _ hh hq
            by_cases hn : q.has_first = false ∧ left = .null
            · rw [if_pos hn] at h; cases h
            · rw [if_neg hn] at h
              exact fin _ _ hl1 h

theorem flat_program_push (aw : AsmWriter) (instr : Instruction)
    (h : flat_program aw.instructions) (hi : ∀ d ∈ instr.operands, d.flat = true) :
    flat_program (pushInstructionArr aw instr).instructions := by
  intro i hmem
  simp only [pushInstructionArr, List.mem_append, List.mem_singleton] at hmem
  rcases hmem with hmem | rfl
  · exact h i hmem
  · exact hi

theorem flat_program_emit (aw : AsmWriter) (data : InstructionData)
    (h : flat_program aw.instructions)
    (hi : ∀ d ∈ Instruction.operands ⟨(aw.cur_var : Int), data⟩, d.flat = true) :
    flat_program (emit_fresh aw data).2.instructions := by
  intro i hmem
  simp only [emit_fresh, pushInstructionArr, List.mem_append, List.mem_singleton] at hmem
  rcases hmem with hmem | rfl
  · exact h i hmem
  · exact hi

/-- Lowering a tree whose argument chains hold operand trees writes flat
instructions only, and an argument list it builds holds no argument list. -/
theorem lowering_flat (e : ExprNode) : ∀ aw : AsmWriter, args_flat e = true →
    flat_program aw.instructions →
    (∀ v aw1, parse_expr_tree e aw = .ok (v, aw1) → flat_program aw1.instructions) ∧
    (∀ d aw1, get_data e aw = .ok (d, aw1) →
      flat_program aw1.instructions ∧ d.flat = true ∧
        (is_args_node e = false → d.is_arglist = false)) ∧
    (∀ ds aw1, get_args e aw = .ok (ds, aw1) →
      flat_program aw1.instructions ∧ ∀ d ∈ ds, d.is_arglist = false) := by
  induction e with
  | null =>
    intro aw _ hfp
    refine ⟨?_, ?_, ?_⟩
    · intro v aw1 h; rw [parse_expr_tree_null] at h; cases h
    · intro d aw1 h; rw [get_data_null] at h; cases h
    · intro ds aw1 h; rw [get_args_null] at h; cases h; exact ⟨hfp, by simp⟩
  | number v t =>
    intro aw _ hfp
    refine ⟨?_, ?_, ?_⟩
    · intro v aw1 h; rw [parse_expr_tree_number] at h; cases h; exact hfp
    · intro d aw1 h; rw [get_data_number] at h; cases h
      exact ⟨hfp, rfl, fun _ => rfl⟩
    · intro ds aw1 h; rw [get_args_number] at h; cases h; exact ⟨hfp, by simp⟩
  | ident s t =>
    intro aw _ hfp
    refine ⟨?_, ?_, ?_⟩
    · intro v aw1 h; rw [parse_expr_tree_ident] at h; cases h; exact hfp
    · intro d aw1 h; rw [get_data_ident] at h; cases h
      exact ⟨hfp, rfl, fun _ => rfl⟩
    · intro ds aw1 h; rw [get_args_ident] at h; cases h; exact ⟨hfp, by simp⟩
  | unary t o tl ih =>
    intro aw hflat hfp
    have ho : args_flat o = true := by simpa [args_flat] using hflat
    have hp : ∀ v aw1, parse_expr_tree (.unary t o tl) aw = .ok (v, aw1) →
        flat_program aw1.instructions := by
      intro v aw1 h
      rw [parse_expr_tree_unary] at h
      cases hc : get_node_class_of_type t <;> rw [hc] at h <;> simp only at h <;>
        try cases h
      cases hg : get_data o aw with
      | error err => rw [hg] at h; cases h
      | ok x =>
        obtain ⟨d, aw2⟩ := x
        rw [hg] at h
        simp only [Except.ok.injEq] at h
        obtain rfl : aw1 = _ := (congrArg Prod.snd h).symm
        obtain ⟨g1, g2, _⟩ := (ih aw ho hfp).2.1 d aw2 hg
        exact flat_program_emit _ _ g1 (by simp [Instruction.operands, g2])
    refine ⟨hp, ?_, ?_⟩
    · intro d aw1 h
      rw [get_data_unary] at h
      cases hq : parse_expr_tree (.unary t o tl) aw with
      | error err => rw [hq] at h; cases h
      | ok x =>
        obtain ⟨v, aw2⟩ := x
        rw [hq] at h
        simp only [Except.ok.injEq, Prod.mk.injEq] at h
        rw [← h.2, ← h.1]
        exact ⟨hp v aw2 hq, rfl, fun _ => rfl⟩
    · intro ds aw1 h; rw [get_args_unary] at h; cases h; exact ⟨hfp, by simp⟩
  | binary t l r tl ihl ihr =>
    intro aw hflat hfp
    simp only [args_flat, Bool.and_eq_true, Bool.or_eq_true, Bool.not_eq_true',
      decide_eq_false_iff_not] at hflat
    obtain ⟨⟨hl, hr⟩, hlink⟩ := hflat
    have hp : ∀ v aw1, parse_expr_tree (.binary t l r tl) aw = .ok (v, aw1) →
        flat_program aw1.instructions := by
      intro v aw1 h
      rw [parse_expr_tree_binary] at h
      cases hc : get_node_class_of_type t <;> rw [hc] at h <;> simp only at h
      · -- NC_UNARY
        cases hg : get_data l aw with
        | error err => rw [hg] at h; cases h
        | ok x =>
          obtain ⟨d, aw2⟩ := x
          rw [hg] at h
          simp only [Except.ok.injEq] at h
          obtain rfl : aw1 = _ := (congrArg Prod.snd h).symm
          obtain ⟨g1, g2, _⟩ := (ihl aw hl hfp).2.1 d aw2 hg
          exact flat_program_emit _ _ g1 (by simp [Instruction.operands, g2])
      · -- NC_BINARY
        cases hg : get_data l aw with
        | error err => rw [hg] at h; cases h
        | ok x =>
          obtain ⟨dl, aw2⟩ := x
          rw [hg] at h
          simp only at h
          obtain ⟨g1, g2, _⟩ := (ihl aw hl hfp).2.1 dl aw2 hg
          cases hg2 : get_data r aw2 with
          | error err => rw [hg2] at h; cases h
          | ok y =>
            obtain ⟨dr, aw3⟩ := y
            rw [hg2] at h
            simp only at h
            obtain ⟨k1, k2, _⟩ := (ihr aw2 hr g1).2.1 dr aw3 hg2
            cases hop : get_expr_bin_op t with
            | none => rw [hop] at h; cases h
            | some op =>
              rw [hop] at h
              simp only at h
              split at h
              · simp only [Except.ok.injEq, Prod.mk.injEq] at h
                rw [← h.2]
                exact flat_program_push _ _ k1 (by simp [Instruction.operands, g2, k2])
              · simp only [Except.ok.injEq] at h
                obtain rfl : aw1 = _ := (congrArg Prod.snd h).symm
                exact flat_program_emit _ _ k1 (by simp [Instruction.operands, g2, k2])
      · -- NC_VALUE
        cases h
      · -- NC_CALL
        cases hg : get_data l aw with
        | error err => rw [hg] at h; cases h
        | ok x =>
          obtain ⟨dl, aw2⟩ := x
          rw [hg] at h
          simp only at h
          obtain ⟨g1, g2, _⟩ := (ihl aw hl hfp).2.1 dl aw2 hg
          cases hg2 : get_data r aw2 with
          | error err => rw [hg2] at h; cases h
          | ok y =>
            obtain ⟨dr, aw3⟩ := y
            rw [hg2] at h
            simp only [Except.ok.injEq] at h
            obtain rfl : aw1 = _ := (congrArg Prod.snd h).symm
            obtain ⟨k1, k2, _⟩ := (ihr aw2 hr g1).2.1 dr aw3 hg2
            exact flat_program_emit _ _ k1 (by simp [Instruction.operands, g2, k2])
      · -- NC_ARGS
        simp only [Except.ok.injEq, Prod.mk.injEq] at h
        rw [← h.2]
        exact hfp
    have ha : ∀ ds aw1, get_args (.binary t l r tl) aw = .ok (ds, aw1) →
        flat_program aw1.instructions ∧ ∀ d ∈ ds, d.is_arglist = false := by
      intro ds aw1 h
      by_cases ht : t = .NT_ARGS
      · subst ht
        rw [get_args_link] at h
        cases hg : get_data l aw with
        | error err => rw [hg] at h; cases h
        | ok x =>
          obtain ⟨d, aw2⟩ := x
          rw [hg] at h
          simp only at h
          obtain ⟨g1, _, g3⟩ := (ihl aw hl hfp).2.1 d aw2 hg
          cases hg2 : get_args r aw2 with
          | error err => rw [hg2] at h; cases h
          | ok y =>
            obtain ⟨ds2, aw3⟩ := y
            rw [hg2] at h
            simp only [Except.ok.injEq, Prod.mk.injEq] at h
            obtain ⟨k1, k2⟩ := (ihr aw2 hr g1).2.2 ds2 aw3 hg2
            rw [← h.2, ← h.1]
            refine ⟨k1, ?_⟩
            intro d2 hd2
            simp only [List.mem_cons] at hd2
            rcases hd2 with rfl | hd2
            · exact g3 (by simpa using hlink)
            · exact k2 d2 hd2
      · rw [get_args_other _ _ _ _ _ ht] at h
        cases h
        exact ⟨hfp, by simp⟩
    refine ⟨hp, ?_, ha⟩
    intro d aw1 h
    by_cases ht : t = .NT_ARGS
    · subst ht
      rw [get_data_args] at h
      cases hq : get_args (.binary .NT_ARGS l r tl) aw with
      | error err => rw [hq] at h; cases h
      | ok x =>
        obtain ⟨ds, aw2⟩ := x
        rw [hq] at h
        simp only [Except.ok.injEq, Prod.mk.injEq] at h
        obtain ⟨k1, k2⟩ := ha ds aw2 hq
        rw [← h.2, ← h.1]
        refine ⟨k1, ?_, ?_⟩
        · simp only [Data.flat, List.all_eq_true, Bool.not_eq_true']
          exact k2
        · intro hh; simp [is_args_node] at hh
    · rw [get_data_binary _ _ _ _ _ ht] at h
      cases hq : parse_expr_tree (.binary t l r tl) aw with
      | error err => rw [hq] at h; cases h
      | ok x =>
        obtain ⟨v, aw2⟩ := x
        rw [hq] at h
        simp only [Except.ok.injEq, Prod.mk.injEq] at h
        rw [← h.2, ← h.1]
        exact ⟨hp v aw2 hq, rfl, fun _ => rfl⟩

theorem asm_writer_create_flat (fuel : Nat) (tok : List Char) (off : Nat) (aw : AsmWriter)
    (h : asm_writer_create fuel tok off = .ok aw) : flat_program aw.instructions := by
  rw [asm_writer_create] at h
  cases hp : parser_parse_expr fuel (parser_create tok) .PREC_MIN with
  | error err => rw [hp] at h; cases h
  | ok x =>
    obtain ⟨tree, p⟩ := x
    rw [hp] at h
    simp only at h
    have ht := (parser_builds_operand_trees fuel).2.2.2.2 _ _ _ _ hp
    simp only [is_operand_tree, Bool.and_eq_true] at ht
    cases hl : parse_expr_tree tree { instructions := [], depth := 0, cur_var := off } with
    | error err => rw [hl] at h; cases h
    | ok y =>
      obtain ⟨v, aw1⟩ := y
      rw [hl] at h
      simp only [Except.ok.injEq] at h
      subst h
      exact (lowering_flat tree _ ht.1 (by intro i hi; cases hi)).1 v aw1 hl

theorem gen_code_loop_flat (fuel : Nat) : ∀ (toks : List (List Char)) (acc : List Instruction)
    (off : Nat) (prog : List Instruction), flat_program acc →
    gen_code_loop fuel toks acc off = .ok prog → flat_program prog := by
  intro toks
  induction toks with
  | nil =>
    intro acc off prog hacc h
    rw [gen_code_loop] at h
    cases h
    exact hacc
  | cons tok rest ih =>
    intro acc off prog hacc h
    rw [gen_code_loop] at h
    cases hc : asm_writer_create fuel tok off with
    | error err => rw [hc] at h; cases h
    | ok aw =>
      rw [hc] at h
      simp only at h
      refine ih _ _ _ ?_ h
      intro i hi
      rcases List.mem_append.1 hi with hi | hi
      · exact hacc i hi
      · exact asm_writer_create_flat fuel tok off aw hc i hi

/-- Every program `gen_code` produces is flat. -/
theorem gen_code_flat (fuel : Nat) (src : List Char) (prog : List Instruction)
    (h : gen_code fuel src = .ok prog) : flat_program prog := by
  rw [gen_code] at h
  exact gen_code_loop_flat fuel _ _ _ _ (by intro i hi; cases hi) h

/-- The tree of `f(g(1,2), 3)`. -/
theorem parse_source_nested_call (fuel : Nat) :
    parse_source (fuel + 12) ['f', '(', 'g', '(', '1', ',', '2', ')', ',', ' ', '3', ')']
      = .ok (.binary .NT_CALL (.ident ['f'] false)
          (.binary .NT_ARGS
            (.binary .NT_CALL (.ident ['g'] false)
              (.binary .NT_ARGS (.number 1 true)
                (.binary .NT_ARGS (.number 2 false) .null false) false) false)
            (.binary .NT_ARGS (.number 3 false) .null false) false) false) := by
  have a0 := fun st line len curr hf =>
    parser_advance_identifier ['f'] ['(', 'g', '(', '1', ',', '2', ')', ',', ' ', '3', ')']
      st line len curr hf (by decide) rfl
  have a1 := fun st line len curr hf =>
    parser_advance_identifier ['g'] ['(', '1', ',', '2', ')', ',', ' ', '3', ')']
      st line len curr hf (by decide) rfl
  have a2 := fun st line len curr hf =>
    parser_advance_number ['1'] [',', '2', ')', ',', ' ', '3', ')']
      st line len curr hf (by decide) rfl
  have a3 := fun st line len curr hf =>
    parser_advance_number ['2'] [')', ',', ' ', '3', ')'] st line len curr hf (by decide) rfl
  have a4 := fun st line len curr hf =>
    parser_advance_number ['3'] [')'] st line len curr hf (by decide) rfl
  simp only [List.singleton_append, List.cons_append, List.nil_append] at a0 a1 a2 a3 a4
  simp only [parse_source, parser_create, lexer_create, a0]
  repeat
    (first
      | rw [parser_parse_expr_succ]
      | rw [parser_parse_terminal_expr_succ]
      | rw [parser_parse_args_succ])
    try simp [a0, a1, a2, a3, a4, parser_parse_number, parser_parse_ident, parser_advance_nil,
      parser_advance_space, parser_advance_lparen, parser_advance_rparen, parser_advance_comma,
      set_top_level, token_to_double, Token.text, strtod_digit_1, strtod_digit_2,
      strtod_digit_3]

/-- The program of `f(g(1,2), 3)`. -/
theorem gen_code_nested_call (fuel : Nat) :
    gen_code (fuel + 12) ['f', '(', 'g', '(', '1', ',', '2', ')', ',', ' ', '3', ')']
      = .ok [⟨0, .BINARY (.IDENTIFIER ['g']) (.ARGLIST [.CONSTANT 1, .CONSTANT 2]) .CALL⟩,
             ⟨1, .BINARY (.IDENTIFIER ['f']) (.ARGLIST [.VARIABLE 0, .CONSTANT 3]) .CALL⟩] := by
  have hs : strtok_all ['f', '(', 'g', '(', '1', ',', '2', ')', ',', ' ', '3', ')']
      = [['f', '(', 'g', '(', '1', ',', '2', ')', ',', ' ', '3', ')']] := by decide
  rw [gen_code, hs]
  simp [gen_code_loop, asm_writer_create_eq, parse_source_nested_call, parse_expr_tree_binary,
    get_node_class_of_type, get_data_number, get_data_ident, get_data_args, get_args_link,
    get_args_null, get_data_binary, emit_fresh, pushInstructionArr]

/-- C11. Whenever `gen_code` produces a program from a source, every
argument-list operand of every instruction of the program holds only
constants, registers and identifiers, never an argument list. For
`f(g(1,2), 3)` the program is produced: the call of `g` writes register 0, and
the argument list of the call of `f` has exactly two elements, register 0 and
the constant 3. -/
theorem C11_argument_lists_flat (fuel : Nat) (src : List Char) (prog : List Instruction)
    (h : gen_code fuel src = .ok prog) (fuel2 : Nat) :
    (∀ instr ∈ prog, ∀ args, Data.ARGLIST args ∈ instr.operands → ∀ d ∈ args,
      (∃ c, d = .CONSTANT c) ∨ (∃ i, d = .VARIABLE i) ∨ (∃ s, d = .IDENTIFIER s))
    ∧ gen_code (fuel2 + 12) ['f', '(', 'g', '(', '1', ',', '2', ')', ',', ' ', '3', ')']
      = .ok [⟨0, .BINARY (.IDENTIFIER ['g']) (.ARGLIST [.CONSTANT 1, .CONSTANT 2]) .CALL⟩,
             ⟨1, .BINARY (.IDENTIFIER ['f']) (.ARGLIST [.VARIABLE 0, .CONSTANT 3]) .CALL⟩] := by
  refine ⟨?_, gen_code_nested_call fuel2⟩
  intro instr hi args ha d hd
  have hflat := gen_code_flat fuel src prog h instr hi _ ha
  simp only [Data.flat, List.all_eq_true, Bool.not_eq_true'] at hflat
  have hd2 := hflat d hd
  cases d with
  | CONSTANT c => exact Or.inl ⟨c, rfl⟩
  | VARIABLE i => exact Or.inr (Or.inl ⟨i, rfl⟩)
  | IDENTIFIER s => exact Or.inr (Or.inr ⟨s, rfl⟩)
  | ARGLIST l => simp [Data.is_arglist] at hd2

/-- C11 at the program of `f(g(1,2), 3)`. -/
theorem C11_argument_lists_flat_witness :
    gen_code 12 ['f', '(', 'g', '(', '1', ',', '2', ')', ',', ' ', '3', ')']
      = .ok [⟨0, .BINARY (.IDENTIFIER ['g']) (.ARGLIST [.CONSTANT 1, .CONSTANT 2]) .CALL⟩,
             ⟨1, .BINARY (.IDENTIFIER ['f']) (.ARGLIST [.VARIABLE 0, .CONSTANT 3]) .CALL⟩]
    ∧ ∀ instr ∈
        [(⟨0, .BINARY (.IDENTIFIER ['g']) (.ARGLIST [.CONSTANT 1, .CONSTANT 2]) .CALL⟩
            : Instruction),
          ⟨1, .BINARY (.IDENTIFIER ['f']) (.ARGLIST [.VARIABLE 0, .CONSTANT 3]) .CALL⟩],
        ∀ args, Data.ARGLIST args ∈ instr.operands → ∀ d ∈ args,
          (∃ c, d = .CONSTANT c) ∨ (∃ i, d = .VARIABLE i) ∨ (∃ s, d = .IDENTIFIER s) :=
  ⟨gen_code_nested_call 0,
   (C11_argument_lists_flat 12 _ _ (gen_code_nested_call 0) 0).1⟩

/-! ## Assignments that halt -/

/-- C29. In every interpreter state, an assignment instruction whose left
operand is a constant, a register or an argument list returns from the run
in the state it found, whatever its right operand and output index are: the
run ends halted with register values, names and live count unchanged and
with the output written so far. -/
theorem C29_assign_to_non_identifier_halts (vm : InstrVM) (right : Data) (out : Int)
    (rest : List Instruction) (output : List OutItem) :
    (∀ c, exec_instruction vm ⟨out, .BINARY (.CONSTANT c) right .ASSIGN⟩ = .halt vm
      ∧ run_loop (⟨out, .BINARY (.CONSTANT c) right .ASSIGN⟩ :: rest) vm output
          = .halted vm output)
    ∧ (∀ i, exec_instruction vm ⟨out, .BINARY (.VARIABLE i) right .ASSIGN⟩ = .halt vm
      ∧ run_loop (⟨out, .BINARY (.VARIABLE i) right .ASSIGN⟩ :: rest) vm output
          = .halted vm output)
    ∧ (∀ args, exec_instruction vm ⟨out, .BINARY (.ARGLIST args) right .ASSIGN⟩ = .halt vm
      ∧ run_loop (⟨out, .BINARY (.ARGLIST args) right .ASSIGN⟩ :: rest) vm output
          = .halted vm output) := by
  refine ⟨fun c => ⟨rfl, ?_⟩, fun i => ⟨rfl, ?_⟩, fun args => ⟨rfl, ?_⟩⟩ <;>
    simp [run_loop, exec_instruction, exec_assign]

/-! ## A halt ends the run -/

theorem run_loop_append (pre rest : List Instruction) :
    ∀ (vm : InstrVM) (output : List OutItem) (vm1 : InstrVM) (output1 : List OutItem),
      run_loop pre vm output = .finished vm1 output1 →
      run_loop (pre ++ rest) vm output = run_loop rest vm1 output1 := by
  induction pre with
  | nil =>
    intro vm output vm1 output1 h
    simp only [run_loop, Outcome.finished.injEq] at h
    obtain ⟨rfl, rfl⟩ := h
    rfl
  | cons instr pre ih =>
    intro vm output vm1 output1 h
    simp only [List.cons_append, run_loop] at h ⊢
    cases he : exec_instruction vm instr with
    | next vm2 o => rw [he] at h; exact ih _ _ _ _ h
    | halt vm2 => rw [he] at h; cases h
    | ub => rw [he] at h; cases h

/-- An instruction that violates a rule of the `ASSIGN` or `CALL` case
returns from the run in the state it found. -/
theorem rule_violation_halts (vm : InstrVM) (instr : Instruction)
    (h : rule_violation vm instr = true) : exec_instruction vm instr = .halt vm := by
  obtain ⟨out, data⟩ := instr
  cases data with
  | UNARY d op => simp [rule_violation] at h
  | SET d => simp [rule_violation] at h
  | BINARY left right op =>
    cases op <;> try (simp [rule_violation] at h; done)
    · -- CALL
      cases left <;> simp_all [rule_violation, Data.is_identifier, exec_instruction, exec_call]
    · -- ASSIGN
      cases left <;> try rfl
      cases right with
      | CONSTANT c =>
        simp only [rule_violation, decide_eq_true_eq] at h
        simp [exec_instruction, exec_assign, h]
      | VARIABLE i => simp [rule_violation] at h
      | ARGLIST a => rfl
      | IDENTIFIER m =>
        simp only [rule_violation, Bool.or_eq_true, Option.isNone_iff_eq_none,
          decide_eq_true_eq] at h
        simp only [exec_instruction, exec_assign]
        cases hf : find_var vm m with
        | none => rfl
        | some i2 =>
          rcases h with h | h
          · rw [hf] at h; cases h
          · simp [h]

/-- C21. If running the first `k` instructions of a program `p` ends in the
state `vm` with the output `output`, and instruction `k` violates a rule of
the assignment case (left side not an identifier, constant or identifier
right side with an output index other than the live count, identifier right
side bound to no live register, argument list on the right) or is a call
whose callee is not an identifier, then the run of `p` ends halted in the
state `vm` with exactly the output `output`; and so does the run of the
first `k + 1` instructions followed by any other instructions: what follows
instruction `k` has no effect on state or output. -/
theorem C21_halt_keeps_output (mem : InstrVM) (p : List Instruction) (k : Nat)
    (hk : k < p.length) (vm : InstrVM) (output : List OutItem)
    (hpre : run_instructions mem (p.take k) = .finished vm output)
    (hrule : rule_violation vm p[k] = true) :
    run_instructions mem p = .halted vm output
    ∧ ∀ rest, run_instructions mem (p.take (k + 1) ++ rest) = .halted vm output := by
  have hstep := rule_violation_halts vm p[k] hrule
  have key : ∀ rest, run_instructions mem (p.take k ++ p[k] :: rest) = .halted vm output := by
    intro rest
    unfold run_instructions at hpre ⊢
    rw [run_loop_append _ _ _ _ _ _ hpre]
    simp [run_loop, hstep]
  constructor
  · have hp : p = p.take k ++ p[k] :: p.drop (k + 1) := by
      rw [← List.drop_eq_getElem_cons hk, List.take_append_drop]
    rw [hp]
    simpa using key (p.drop (k + 1))
  · intro rest
    have ht : p.take (k + 1) = p.take k ++ [p[k]] := by
      rw [List.take_succ, List.getElem?_eq_getElem hk]
      rfl
    rw [ht, List.append_assoc]
    exact key rest

/-- C21 at the program `print(1); 5 = 1; print(2)` run from zeroed memory:
the assignment to a constant is instruction 1; the run ends halted with the
output of `print(1)` only. -/
theorem C21_halt_keeps_output_witness :
    run_instructions zero_memory (print_assign_print.take 1)
        = .finished (update_vars ⟨Function.update zero_memory.vars 0 0,
            zero_memory.var_names, 0⟩ 0) [.value 1, .newline]
    ∧ run_instructions zero_memory print_assign_print
        = .halted (update_vars ⟨Function.update zero_memory.vars 0 0,
            zero_memory.var_names, 0⟩ 0) [.value 1, .newline] :=
  have h : run_instructions zero_memory (print_assign_print.take 1)
      = .finished (update_vars ⟨Function.update zero_memory.vars 0 0,
          zero_memory.var_names, 0⟩ 0) [.value 1, .newline] := by
    simp [run_instructions, run_loop, print_assign_print, exec_instruction, exec_call,
      print_args, vm_get_var, store_result, zero_memory]
  ⟨h, (C21_halt_keeps_output zero_memory print_assign_print 1 (by decide) _ _ h rfl).1⟩

/-! ## A missing operand -/

/-- C22 at a failing source. In `1 +` the operator is followed by the end of
the input. The parser returns the add node whose left child is the number 1
and whose right child is NULL: a partial tree, not NULL. The lowering pass
then dereferences the NULL child. A source that holds no expression at all
does give NULL. -/
theorem C22_operator_at_end_partial_tree (fuel : Nat) :
    parse_source (fuel + 4) ['1', ' ', '+']
        = .ok (.binary .NT_ADD (.number 1 true) .null false)
    ∧ parse_source (fuel + 4) ['1', ' ', '+'] ≠ .ok .null
    ∧ asm_writer_create (fuel + 4) ['1', ' ', '+'] 0 = .error .null_deref
    ∧ gen_code (fuel + 4) ['1', ' ', '+'] = .error .null_deref
    ∧ parse_source (fuel + 1) [] = .ok .null := by
  have a1 := fun st line len curr hf =>
    parser_advance_number ['1'] [' ', '+'] st line len curr hf (by decide) rfl
  simp only [List.singleton_append, List.cons_append, List.nil_append] at a1
  have hp : parse_source (fuel + 4) ['1', ' ', '+']
      = .ok (.binary .NT_ADD (.number 1 true) .null false) := by
    simp only [parse_source, parser_create, lexer_create, a1]
    repeat
      (first
        | rw [parser_parse_expr_succ]
        | rw [parser_parse_terminal_expr_succ]
        | rw [parser_parse_expr_loop_succ]
        | rw [parser_parse_infix_expr_succ])
      try simp [a1, parser_parse_number, parser_advance_space, parser_advance_nil,
        parser_advance_plus, set_top_level, precedence, Precedence.val, token_to_double,
        Token.text, strtod_digit_1]
  have hl : asm_writer_create (fuel + 4) ['1', ' ', '+'] 0 = .error .null_deref := by
    simp [asm_writer_create_eq, hp, parse_expr_tree_binary, get_node_class_of_type,
      get_data_number, get_data_null]
  refine ⟨hp, ?_, hl, ?_, ?_⟩
  · rw [hp]; intro h; cases h
  · have hs : strtok_all ['1', ' ', '+'] = [['1', ' ', '+']] := by decide
    rw [gen_code, hs]
    simp [gen_code_loop, hl]
  · simp only [parse_source, parser_create, lexer_create, parser_advance_nil]
    rw [parser_parse_expr_succ]
    simp

/-! ## The top-level mark -/

/-- C25 at a failing statement. The statement `1 + 2` parses successfully;
the root returned by `parser_parse_expr` is the add node, which does not
carry the top-level mark: the mark is on its left child, the number 1, the
first terminal read. The test of `tree_free` on the root fails. For the
statement `5`, whose root is the first terminal, the root carries the mark
and the test passes. -/
theorem C25_mark_not_on_root (fuel : Nat) :
    parse_source (fuel + 5) ['1', ' ', '+', ' ', '2']
        = .ok (.binary .NT_ADD (.number 1 true) (.number 2 false) false)
    ∧ tree_free_check (.binary .NT_ADD (.number 1 true) (.number 2 false) false) = .ok false
    ∧ parse_source (fuel + 2) ['5'] = .ok (.number 5 true)
    ∧ tree_free_check (.number 5 true) = .ok true := by
  have a1 := fun st line len curr hf =>
    parser_advance_number ['1'] [' ', '+', ' ', '2'] st line len curr hf (by decide) rfl
  have a2 := fun st line len curr hf =>
    parser_advance_number_end ['2'] st line len curr hf (by decide)
  have a5 := fun st line len curr hf =>
    parser_advance_number_end ['5'] st line len curr hf (by decide)
  simp only [List.singleton_append, List.cons_append, List.nil_append] at a1
  refine ⟨?_, rfl, ?_, rfl⟩
  · simp only [parse_source, parser_create, lexer_create, a1]
    repeat
      (first
        | rw [parser_parse_expr_succ]
        | rw [parser_parse_terminal_expr_succ]
        | rw [parser_parse_expr_loop_succ]
        | rw [parser_parse_infix_expr_succ])
      try simp [a1, a2, parser_parse_number, parser_advance_space, parser_advance_nil,
        parser_advance_plus, set_top_level, precedence, Precedence.val, token_to_double,
        Token.text, strtod_digit_1, strtod_digit_2]
  · simp only [parse_source, parser_create, lexer_create, a5]
    repeat
      (first
        | rw [parser_parse_expr_succ]
        | rw [parser_parse_terminal_expr_succ])
      try simp [a5, parser_parse_number, parser_advance_nil, set_top_level, token_to_double,
        Token.text, strtod_digit_5]

/-! ## The tokenizer: whitespace, line numbers and unrecognized characters -/

theorem skip_whitespace_append (ws : List Char) (h : ∀ x ∈ ws, is_whitespace x = true) :
    ∀ (cur : List Char) (line : Nat),
      skip_whitespace (ws ++ cur) line = skip_whitespace cur (line + count_newlines ws) := by
  induction ws with
  | nil => intro cur line; simp [count_newlines]
  | cons w ws ih =>
    intro cur line
    have hw : is_whitespace w = true := h w (List.mem_cons_self _ _)
    have ih1 := ih (fun x hx => h x (List.mem_cons_of_mem _ hx)) cur
    simp only [List.cons_append, skip_whitespace, hw, if_true, List.append_eq]
    rw [ih1]
    by_cases hn : w = '\n'
    · subst hn
      simp [count_newlines, List.count_cons]
      congr 1; omega
    · have : ('\n' == w) = false := by
        simp only [beq_eq_false_iff_ne, ne_eq]
        exact fun e => hn e.symm
      simp [count_newlines, List.count_cons, hn, this]

theorem lexer_next_token_whitespace (ws : List Char) (h : ∀ x ∈ ws, is_whitespace x = true)
    (st cur : List Char) (line len : Nat) :
    lexer_next_token ⟨st, ws ++ cur, line, len⟩
      = lexer_next_token ⟨st, cur, line + count_newlines ws, len⟩ := by
  simp only [lexer_next_token, skip_whitespace_append ws h]

theorem skip_whitespace_line (cur : List Char) :
    ∀ line : Nat, skip_whitespace cur line
      = ((skip_whitespace cur 0).1, (skip_whitespace cur 0).2 + line) := by
  induction cur with
  | nil => intro line; simp [skip_whitespace]
  | cons c cs ih =>
    intro line
    simp only [skip_whitespace]
    by_cases hw : is_whitespace c = true
    · simp only [hw, if_true]
      rw [ih (if c = '\n' then line + 1 else line), ih (if c = '\n' then 0 + 1 else 0)]
      by_cases hn : c = '\n'
      · simp [hn]; omega
      · simp [hn]
    · simp [hw]

/-- One call of the tokenizer depends on the cursor only, up to the line
number it reports. -/
theorem lexer_next_token_cursor (st st2 cur : List Char) (line line2 len len2 : Nat) :
    (lexer_next_token ⟨st, cur, line, len⟩).1.span
        = (lexer_next_token ⟨st2, cur, line2, len2⟩).1.span
    ∧ (lexer_next_token ⟨st, cur, line, len⟩).2.current
        = (lexer_next_token ⟨st2, cur, line2, len2⟩).2.current := by
  simp only [lexer_next_token, lexer_number, lexer_identifier, lexer_make_token, Token.span]
  rw [skip_whitespace_line cur line, skip_whitespace_line cur line2]
  generalize skip_whitespace cur 0 = r
  obtain ⟨x, d⟩ := r
  dsimp only
  by_cases h0 : peek x = '\x00'
  · simp only [if_pos h0]
    refine ⟨?_, ?_⟩ <;> first | rfl | trivial
  simp only [if_neg h0]
  by_cases h1 : peek x = '+'
  · simp only [if_pos h1]
    refine ⟨?_, ?_⟩ <;> first | rfl | trivial
  simp only [if_neg h1]
  by_cases h2 : peek x = '-'
  · simp only [if_pos h2]
    refine ⟨?_, ?_⟩ <;> first | rfl | trivial
  simp only [if_neg h2]
  by_cases h3 : peek x = '*'
  · simp only [if_pos h3]
    refine ⟨?_, ?_⟩ <;> first | rfl | trivial
  simp only [if_neg h3]
  by_cases h4 : peek x = '/'
  · simp only [if_pos h4]
    refine ⟨?_, ?_⟩ <;> first | rfl | trivial
  simp only [if_neg h4]
  by_cases h5 : peek x = '('
  · simp only [if_pos h5]
    refine ⟨?_, ?_⟩ <;> first | rfl | trivial
  simp only [if_neg h5]
  by_cases h6 : peek x = ')'
  · simp only [if_pos h6]
    refine ⟨?_, ?_⟩ <;> first | rfl | trivial
  simp only [if_neg h6]
  by_cases h7 : peek x = ','
  · simp only [if_pos h7]
    refine ⟨?_, ?_⟩ <;> first | rfl | trivial
  simp only [if_neg h7]
  by_cases h8 : peek x = '='
  · simp only [if_pos h8]
    refine ⟨?_, ?_⟩ <;> first | rfl | trivial
  simp only [if_neg h8]
  by_cases h9 : is_digit (peek x) = true
  · simp only [if_pos h9]
    refine ⟨?_, ?_⟩ <;> first | rfl | trivial
  simp only [if_neg h9]
  by_cases h10 : isalpha (peek x) = true
  · simp only [if_pos h10]
    refine ⟨?_, ?_⟩ <;> first | rfl | trivial
  simp only [if_neg h10]
  refine ⟨?_, ?_⟩ <;> first | rfl | trivial

theorem token_stream_cursor (n : Nat) : ∀ (st st2 cur : List Char) (line line2 len len2 : Nat),
    (token_stream n ⟨st, cur, line, len⟩).map Token.span
      = (token_stream n ⟨st2, cur, line2, len2⟩).map Token.span := by
  induction n with
  | zero => intro st st2 cur line line2 len len2; rfl
  | succ n ih =>
    intro st st2 cur line line2 len len2
    obtain ⟨h1, h2⟩ := lexer_next_token_cursor st st2 cur line line2 len len2
    simp only [token_stream, List.map_cons]
    rw [h1]
    congr 1
    generalize (lexer_next_token ⟨st, cur, line, len⟩).2 = a at h2 ⊢
    generalize (lexer_next_token ⟨st2, cur, line2, len2⟩).2 = b at h2 ⊢
    obtain ⟨as, ac, al, an⟩ := a
    obtain ⟨bs, bc, bl, bn⟩ := b
    simp only at h2
    subst h2
    exact ih _ _ _ _ _ _ _

theorem lexer_next_token_unrecognized (c : Char) (h : is_unrecognized c = true)
    (st cs : List Char) (line len : Nat) :
    lexer_next_token ⟨st, c :: cs, line, len⟩
      = (⟨.TT_ERROR, c :: cs, 1, line⟩, ⟨c :: cs, cs, line, len⟩) := by
  simp only [is_unrecognized, Bool.and_eq_true, Bool.not_eq_true', bne_iff_ne, ne_eq,
    Option.isNone_iff_eq_none] at h
  obtain ⟨⟨⟨⟨hw, hd⟩, ha⟩, hp⟩, h0⟩ := h
  unfold punct_type at hp
  split_ifs at hp with h1 h2 h3 h4 h5 h6 h7 h8
  simp [lexer_next_token, skip_whitespace, hw, peek_cons, h0, h1, h2, h3, h4, h5, h6, h7, h8,
    hd, ha, lexer_make_token]

/-- C30. When the cursor of the tokenizer, after any whitespace, stands at a
character that is not whitespace, a digit, a letter or one of
`+ - * / ( ) , =`, the call returns: its result is the error token of
length 1 that starts at that character and carries the current line number
(the line at entry plus the line feeds skipped), and the cursor moves to the
following character. From there the tokenizer goes on: the tokens of any
number of further calls are, up to line numbers, the tokens of the rest of
the source tokenized on its own. -/
theorem C30_error_token_and_go_on (ws : List Char) (c : Char) (cs st : List Char)
    (line len : Nat) (hws : ∀ x ∈ ws, is_whitespace x = true)
    (hc : is_unrecognized c = true) :
    lexer_next_token ⟨st, ws ++ c :: cs, line, len⟩
        = (⟨.TT_ERROR, c :: cs, 1, line + count_newlines ws⟩,
           ⟨c :: cs, cs, line + count_newlines ws, len⟩)
    ∧ ∀ n, (token_stream n (lexer_next_token ⟨st, ws ++ c :: cs, line, len⟩).2).map Token.span
        = (token_stream n (lexer_create cs)).map Token.span := by
  have h1 : lexer_next_token ⟨st, ws ++ c :: cs, line, len⟩
      = (⟨.TT_ERROR, c :: cs, 1, line + count_newlines ws⟩,
         ⟨c :: cs, cs, line + count_newlines ws, len⟩) := by
    rw [lexer_next_token_whitespace ws hws, lexer_next_token_unrecognized c hc]
  refine ⟨h1, ?_⟩
  intro n
  rw [h1]
  exact token_stream_cursor n _ _ _ _ _ _ _

/-- C30 at the source `1 $ 2`, entered after the number: the cursor stands at
the blank before the dollar sign. -/
theorem C30_error_token_and_go_on_witness :
    lexer_next_token ⟨['1', ' ', '$', ' ', '2'], [' '] ++ '$' :: [' ', '2'], 1, 5⟩
        = (⟨.TT_ERROR, '$' :: [' ', '2'], 1, 1 + count_newlines [' ']⟩,
           ⟨'$' :: [' ', '2'], [' ', '2'], 1 + count_newlines [' '], 5⟩)
    ∧ ∀ n, (token_stream n
          (lexer_next_token ⟨['1', ' ', '$', ' ', '2'], [' '] ++ '$' :: [' ', '2'], 1, 5⟩).2).map
            Token.span
        = (token_stream n (lexer_create [' ', '2'])).map Token.span :=
  C30_error_token_and_go_on [' '] '$' [' ', '2'] ['1', ' ', '$', ' ', '2'] 1 5 (by decide)
    (by decide)

/-! ## The tokenizer: number tokens -/

theorem takeWhile_digits_append (ds r : List Char) (hds : ∀ c ∈ ds, is_digit c = true)
    (hr : is_digit (peek r) = false) : (ds ++ r).takeWhile is_digit = ds := by
  induction ds with
  | nil =>
    cases r with
    | nil => rfl
    | cons c cs =>
      have hc : is_digit c = false := hr
      simp [List.takeWhile, hc]
  | cons d ds ih =>
    have hd : is_digit d = true := hds d (List.mem_cons_self _ _)
    simp [List.takeWhile, hd, ih (fun c hc => hds c (List.mem_cons_of_mem _ hc))]

theorem dropWhile_digits_append (ds r : List Char) (hds : ∀ c ∈ ds, is_digit c = true)
    (hr : is_digit (peek r) = false) : (ds ++ r).dropWhile is_digit = r := by
  have h := skip_digits_append ds r hds
  rw [skip_digits_stop r hr] at h
  exact h

theorem is_number_literal_digits (ds : List Char) (hds : ∀ c ∈ ds, is_digit c = true)
    (hne : ds ≠ []) : is_number_literal ds = true := by
  have h1 := takeWhile_digits_append ds [] hds rfl
  have h2 := dropWhile_digits_append ds [] hds rfl
  simp only [List.append_nil] at h1 h2
  simp [is_number_literal, h1, h2, hne]

theorem is_number_literal_fraction (ds fs : List Char) (hds : ∀ c ∈ ds, is_digit c = true)
    (hne : ds ≠ []) (hfs : ∀ c ∈ fs, is_digit c = true) (hfne : fs ≠ []) :
    is_number_literal (ds ++ '.' :: fs) = true := by
  have h1 := takeWhile_digits_append ds ('.' :: fs) hds (by rw [peek_cons]; decide)
  have h2 := dropWhile_digits_append ds ('.' :: fs) hds (by rw [peek_cons]; decide)
  simp only [is_number_literal, h1, h2, peek_cons, List.tail_cons]
  simp [hne, hfne]
  exact hfs

/-- A run of digits at the head of a text is no longer than the maximal
one. -/
theorem digit_prefix_length (a : List Char) : ∀ (r p q : List Char),
    is_digit (peek r) = false → (∀ c ∈ p, is_digit c = true) → p ++ q = a ++ r →
    p.length ≤ a.length := by
  induction a with
  | nil =>
    intro r p q hr hp h
    cases p with
    | nil => simp
    | cons x p =>
      simp only [List.nil_append, List.cons_append] at h
      rw [← h, peek_cons, hp x (List.mem_cons_self _ _)] at hr
      cases hr
  | cons y a ih =>
    intro r p q hr hp h
    cases p with
    | nil => simp
    | cons x p =>
      simp only [List.cons_append, List.cons.injEq] at h
      have := ih r p q hr (fun c hc => hp c (List.mem_cons_of_mem _ hc)) h.2
      simp only [List.length_cons]
      omega

/-- A run of digits followed by a character that is not a digit is the
maximal run of digits at the head of the text. -/
theorem digit_prefix_eq (a : List Char) : ∀ (r p : List Char) (c : Char) (q : List Char),
    (∀ x ∈ a, is_digit x = true) → is_digit (peek r) = false →
    (∀ x ∈ p, is_digit x = true) → is_digit c = false → p ++ c :: q = a ++ r →
    p = a ∧ c :: q = r := by
  induction a with
  | nil =>
    intro r p c q _ hr hp hc h
    cases p with
    | nil => exact ⟨rfl, by simpa using h⟩
    | cons x p =>
      simp only [List.nil_append, List.cons_append] at h
      rw [← h, peek_cons, hp x (List.mem_cons_self _ _)] at hr
      cases hr
  | cons y a ih =>
    intro r p c q ha hr hp hc h
    cases p with
    | nil =>
      simp only [List.nil_append, List.cons_append, List.cons.injEq] at h
      rw [h.1, ha y (List.mem_cons_self _ _)] at hc
      cases hc
    | cons x p =>
      simp only [List.cons_append, List.cons.injEq] at h
      obtain ⟨h1, h2⟩ := ih r p c q (fun x hx => ha x (List.mem_cons_of_mem _ hx)) hr
        (fun x hx => hp x (List.mem_cons_of_mem _ hx)) hc h.2
      exact ⟨by rw [h.1, h1], h2⟩

theorem digit_not_special (d : Char) (hd : is_digit d = true) :
    is_whitespace d = false ∧ d ≠ '\x00' ∧ d ≠ '+' ∧ d ≠ '-' ∧ d ≠ '*' ∧ d ≠ '/' ∧ d ≠ '(' ∧
      d ≠ ')' ∧ d ≠ ',' ∧ d ≠ '=' :=
  ⟨is_digit_not_whitespace d hd, is_digit_ne _ (by decide) d hd, is_digit_ne _ (by decide) d hd,
    is_digit_ne _ (by decide) d hd, is_digit_ne _ (by decide) d hd,
    is_digit_ne _ (by decide) d hd, is_digit_ne _ (by decide) d hd,
    is_digit_ne _ (by decide) d hd, is_digit_ne _ (by decide) d hd,
    is_digit_ne _ (by decide) d hd⟩

/-- The number token of a run of digits that no fraction follows. -/
theorem lexer_next_token_integer (ds rest st : List Char) (line len : Nat)
    (hds : ∀ c ∈ ds, is_digit c = true) (hne : ds ≠ []) (hr : is_digit (peek rest) = false)
    (hdot : ¬ (peek rest = '.' ∧ is_digit (peek rest.tail) = true)) :
    lexer_next_token ⟨st, ds ++ rest, line, len⟩
      = (⟨.TT_NUM, ds ++ rest, ds.length, line⟩, ⟨ds ++ rest, rest, line, len⟩) := by
  cases ds with
  | nil => exact absurd rfl hne
  | cons d ds =>
    have hd : is_digit d = true := hds d (List.mem_cons_self _ _)
    obtain ⟨hw, e0, e1, e2, e3, e4, e5, e6, e7, e8⟩ := digit_not_special d hd
    have h1 : skip_digits (ds ++ rest) = rest := by
      rw [skip_digits_append ds rest (fun c hc => hds c (List.mem_cons_of_mem _ hc)),
        skip_digits_stop rest hr]
    simp only [not_and, Bool.not_eq_true] at hdot
    by_cases hp : peek rest = '.'
    · simp [lexer_next_token, skip_whitespace, hw, peek_cons, e0, e1, e2, e3, e4, e5, e6, e7,
        e8, hd, lexer_number, lexer_make_token, h1, hp, hdot hp]
      omega
    · simp [lexer_next_token, skip_whitespace, hw, peek_cons, e0, e1, e2, e3, e4, e5, e6, e7,
        e8, hd, lexer_number, lexer_make_token, h1, hp]
      omega

/-- The number token of a run of digits, a dot and a further run of
digits. -/
theorem lexer_next_token_fraction (ds fs rest st : List Char) (line len : Nat)
    (hds : ∀ c ∈ ds, is_digit c = true) (hne : ds ≠ []) (hfs : ∀ c ∈ fs, is_digit c = true)
    (hfne : fs ≠ []) (hr : is_digit (peek rest) = false) :
    lexer_next_token ⟨st, ds ++ '.' :: (fs ++ rest), line, len⟩
      = (⟨.TT_NUM, ds ++ '.' :: (fs ++ rest), ds.length + 1 + fs.length, line⟩,
         ⟨ds ++ '.' :: (fs ++ rest), rest, line, len⟩) := by
  cases ds with
  | nil => exact absurd rfl hne
  | cons d ds =>
    cases fs with
    | nil => exact absurd rfl hfne
    | cons f fs =>
      have hd : is_digit d = true := hds d (List.mem_cons_self _ _)
      have hf : is_digit f = true := hfs f (List.mem_cons_self _ _)
      obtain ⟨hw, e0, e1, e2, e3, e4, e5, e6, e7, e8⟩ := digit_not_special d hd
      have h1 : skip_digits (ds ++ '.' :: f :: (fs ++ rest)) = '.' :: f :: (fs ++ rest) := by
        rw [skip_digits_append ds _ (fun c hc => hds c (List.mem_cons_of_mem _ hc))]
        exact skip_digits_stop _ (by rw [peek_cons]; decide)
      have h2 : skip_digits (f :: (fs ++ rest)) = rest := by
        have : f :: (fs ++ rest) = (f :: fs) ++ rest := rfl
        rw [this, skip_digits_append (f :: fs) rest hfs, skip_digits_stop rest hr]
      simp [lexer_next_token, skip_whitespace, hw, peek_cons, e0, e1, e2, e3, e4, e5, e6, e7,
        e8, hd, lexer_number, lexer_make_token, h1, h2, hf]
      omega

theorem peek_skip_digits (l : List Char) : is_digit (peek (skip_digits l)) = false := by
  induction l with
  | nil => rfl
  | cons c cs ih =>
    by_cases hc : is_digit c = true
    · simpa [skip_digits, List.dropWhile, hc] using ih
    · simp only [Bool.not_eq_true] at hc
      simp [skip_digits, List.dropWhile, hc, peek_cons]

/-- The number token at the head of a text that starts with a maximal
non-empty run of digits `ds`: its length, the cursor after it, and the fact
that it is the longest number literal at the head of the text. -/
theorem lexer_next_token_longest (ds rest : List Char)
    (hds : ∀ c ∈ ds, is_digit c = true) (hne : ds ≠ []) (hr : is_digit (peek rest) = false) :
    ∃ n rest2, (∀ (st : List Char) (line len : Nat),
        lexer_next_token ⟨st, ds ++ rest, line, len⟩
          = (⟨.TT_NUM, ds ++ rest, n, line⟩, ⟨ds ++ rest, rest2, line, len⟩))
      ∧ is_number_literal ((ds ++ rest).take n) = true
      ∧ ∀ p, p <+: ds ++ rest → is_number_literal p = true → p.length ≤ n := by
  by_cases hfrac : peek rest = '.' ∧ is_digit (peek rest.tail) = true
  · obtain ⟨hdot, hdig⟩ := hfrac
    cases rest with
    | nil => simp [peek] at hdot
    | cons c rt =>
      have hc : c = '.' := hdot
      subst hc
      simp only [List.tail_cons] at hdig
      have hsplit : rt = rt.takeWhile is_digit ++ skip_digits rt :=
        (List.takeWhile_append_dropWhile is_digit rt).symm
      have hfs : ∀ x ∈ rt.takeWhile is_digit, is_digit x = true :=
        fun x hx => List.mem_takeWhile_imp hx
      have hfne : rt.takeWhile is_digit ≠ [] := by
        cases rt with
        | nil => simp [peek, is_digit] at hdig
        | cons f ft =>
          have hf : is_digit f = true := hdig
          simp [List.takeWhile, hf]
      have hr2 := peek_skip_digits rt
      generalize rt.takeWhile is_digit = fs at hsplit hfs hfne
      generalize skip_digits rt = rest2 at hsplit hr2
      subst hsplit
      refine ⟨ds.length + 1 + fs.length, rest2,
        fun st line len => lexer_next_token_fraction ds fs rest2 st line len hds hne hfs hfne hr2,
        ?_, ?_⟩
      · have : (ds ++ '.' :: (fs ++ rest2)).take (ds.length + 1 + fs.length)
            = ds ++ '.' :: fs := by
          have e : ds ++ '.' :: (fs ++ rest2) = (ds ++ '.' :: fs) ++ rest2 := by simp
          rw [e, List.take_left']
          simp
          omega
        rw [this]
        exact is_number_literal_fraction ds fs hds hne hfs hfne
      · intro p hp hlit
        obtain ⟨q, hq⟩ := hp
        obtain ⟨d, ds1, tl, rfl, hd, hds1, htl⟩ := is_number_literal_split p hlit
        have hdds : ∀ x ∈ d :: ds1, is_digit x = true := by
          intro x hx
          rcases List.mem_cons.1 hx with rfl | hx
          · exact hd
          · exact hds1 x hx
        rcases htl with rfl | ⟨f, fp, rfl, hf, hfp⟩
        · have := digit_prefix_length ds ('.' :: (fs ++ rest2)) (d :: ds1) q
            (by rw [peek_cons]; decide) hdds (by simpa using hq)
          simp only [List.append_nil, List.length_cons] at this ⊢
          omega
        · have e1 : (d :: ds1) ++ '.' :: (f :: fp ++ q) = ds ++ '.' :: (fs ++ rest2) := by
            simpa using hq
          obtain ⟨h1, h2⟩ := digit_prefix_eq ds ('.' :: (fs ++ rest2)) (d :: ds1) '.'
            (f :: fp ++ q) hds (by rw [peek_cons]; decide) hdds (by decide) e1
          simp only [List.cons.injEq, true_and] at h2
          have hffp : ∀ x ∈ f :: fp, is_digit x = true := by
            intro x hx
            rcases List.mem_cons.1 hx with rfl | hx
            · exact hf
            · exact hfp x hx
          have := digit_prefix_length fs rest2 (f :: fp) q hr2 hffp h2
          have hl : (d :: ds1).length = ds.length := by rw [h1]
          simp only [List.length_cons, List.length_append] at this hl ⊢
          omega
  · refine ⟨ds.length, rest,
      fun st line len => lexer_next_token_integer ds rest st line len hds hne hr hfrac, ?_, ?_⟩
    · rw [List.take_left']
      · exact is_number_literal_digits ds hds hne
      · rfl
    · intro p hp hlit
      obtain ⟨q, hq⟩ := hp
      obtain ⟨d, ds1, tl, rfl, hd, hds1, htl⟩ := is_number_literal_split p hlit
      have hdds : ∀ x ∈ d :: ds1, is_digit x = true := by
        intro x hx
        rcases List.mem_cons.1 hx with rfl | hx
        · exact hd
        · exact hds1 x hx
      rcases htl with rfl | ⟨f, fp, rfl, hf, hfp⟩
      · have := digit_prefix_length ds rest (d :: ds1) q hr hdds (by simpa using hq)
        simpa using this
      · have e1 : (d :: ds1) ++ '.' :: (f :: fp ++ q) = ds ++ rest := by
          simpa using hq
        obtain ⟨h1, h2⟩ := digit_prefix_eq ds rest (d :: ds1) '.'
          (f :: fp ++ q) hds hr hdds (by decide) e1
        exfalso
        apply hfrac
        rw [← h2]
        exact ⟨rfl, hf⟩

theorem strtod_integer (ds : List Char) (hds : ∀ c ∈ ds, is_digit c = true) :
    strtod ds = (digits_value ds : ℚ) := by
  have h1 := takeWhile_digits_append ds [] hds rfl
  have h2 := dropWhile_digits_append ds [] hds rfl
  simp only [List.append_nil] at h1 h2
  simp [strtod, h1, h2, peek]

theorem strtod_fraction (ds fs : List Char) (hds : ∀ c ∈ ds, is_digit c = true)
    (hfs : ∀ c ∈ fs, is_digit c = true) :
    strtod (ds ++ '.' :: fs)
      = (digits_value ds : ℚ) + (digits_value fs : ℚ) / (10 : ℚ) ^ fs.length := by
  have h1 := takeWhile_digits_append ds ('.' :: fs) hds (by rw [peek_cons]; decide)
  have h2 := dropWhile_digits_append ds ('.' :: fs) hds (by rw [peek_cons]; decide)
  have h3 := takeWhile_digits_append fs [] hfs rfl
  simp only [List.append_nil] at h3
  simp [strtod, h1, h2, h3, peek_cons]

/-- The two tokens of a number literal tokenized on its own. -/
theorem token_stream_number_literal (s : List Char) (hs : is_number_literal s = true) :
    token_stream 2 (lexer_create s)
      = [⟨.TT_NUM, s, s.length, 1⟩, ⟨.TT_EOF, [], 0, 1⟩] := by
  have h := lexer_next_token_number s [] s 1 s.length hs rfl
  simp only [List.append_nil] at h
  simp [token_stream, lexer_create, h, lexer_next_token_nil]

/-- C24. Let the text at the cursor be whitespace `ws`, then a non-empty run
of digits `ds`, then a rest that does not start with a digit. The call
returns a number token that starts at the first digit and carries the line
reached after the whitespace; its text is a number literal and no number
literal at the head of the text is longer. When the rest does not start with
a dot followed by a digit, the token is `ds` and the cursor stops at the rest
(a dot not followed by a digit is not taken); when the rest is a dot, a
non-empty run of digits `fs` and a text that does not start with a digit, the
token is `ds.fs`. A number literal tokenized on its own gives one number token
whose text is the whole literal, then the end token; converting that token
gives the value of the literal: the integer part, plus the fraction digits
over the power of ten. -/
theorem C24_number_token (ws ds rest st : List Char) (line len : Nat)
    (hws : ∀ x ∈ ws, is_whitespace x = true) (hds : ∀ c ∈ ds, is_digit c = true)
    (hne : ds ≠ []) (hr : is_digit (peek rest) = false) :
    (lexer_next_token ⟨st, ws ++ (ds ++ rest), line, len⟩).1.type = .TT_NUM
    ∧ (lexer_next_token ⟨st, ws ++ (ds ++ rest), line, len⟩).1.start = ds ++ rest
    ∧ (lexer_next_token ⟨st, ws ++ (ds ++ rest), line, len⟩).1.line = line + count_newlines ws
    ∧ is_number_literal (lexer_next_token ⟨st, ws ++ (ds ++ rest), line, len⟩).1.text = true
    ∧ (∀ p, p <+: ds ++ rest → is_number_literal p = true →
        p.length ≤ (lexer_next_token ⟨st, ws ++ (ds ++ rest), line, len⟩).1.length)
    ∧ (¬ (peek rest = '.' ∧ is_digit (peek rest.tail) = true) →
        lexer_next_token ⟨st, ws ++ (ds ++ rest), line, len⟩
          = (⟨.TT_NUM, ds ++ rest, ds.length, line + count_newlines ws⟩,
             ⟨ds ++ rest, rest, line + count_newlines ws, len⟩))
    ∧ (∀ fs rest2, rest = '.' :: (fs ++ rest2) → (∀ c ∈ fs, is_digit c = true) → fs ≠ [] →
        is_digit (peek rest2) = false →
        lexer_next_token ⟨st, ws ++ (ds ++ rest), line, len⟩
          = (⟨.TT_NUM, ds ++ rest, ds.length + 1 + fs.length, line + count_newlines ws⟩,
             ⟨ds ++ rest, rest2, line + count_newlines ws, len⟩))
    ∧ (∀ s, is_number_literal s = true →
        token_stream 2 (lexer_create s) = [⟨.TT_NUM, s, s.length, 1⟩, ⟨.TT_EOF, [], 0, 1⟩]
        ∧ Token.text ⟨.TT_NUM, s, s.length, 1⟩ = s
        ∧ token_to_double ⟨.TT_NUM, s, s.length, 1⟩ = strtod s)
    ∧ strtod ds = (digits_value ds : ℚ)
    ∧ (∀ fs, (∀ c ∈ fs, is_digit c = true) →
        strtod (ds ++ '.' :: fs)
          = (digits_value ds : ℚ) + (digits_value fs : ℚ) / (10 : ℚ) ^ fs.length) := by
  obtain ⟨n, rest2, htok, hlit, hlong⟩ := lexer_next_token_longest ds rest hds hne hr
  have h1 : lexer_next_token ⟨st, ws ++ (ds ++ rest), line, len⟩
      = (⟨.TT_NUM, ds ++ rest, n, line + count_newlines ws⟩,
         ⟨ds ++ rest, rest2, line + count_newlines ws, len⟩) := by
    rw [lexer_next_token_whitespace ws hws, htok]
  refine ⟨by rw [h1], by rw [h1], by rw [h1], ?_, ?_, ?_, ?_, ?_, strtod_integer ds hds,
    fun fs hfs => strtod_fraction ds fs hds hfs⟩
  · rw [h1]; exact hlit
  · rw [h1]; exact hlong
  · intro hfrac
    rw [lexer_next_token_whitespace ws hws,
      lexer_next_token_integer ds rest st _ len hds hne hr hfrac]
  · intro fs r2 hrest hfs hfne hr2
    subst hrest
    rw [lexer_next_token_whitespace ws hws,
      lexer_next_token_fraction ds fs r2 st _ len hds hne hfs hfne hr2]
  · intro s hs
    have ht : Token.text ⟨.TT_NUM, s, s.length, 1⟩ = s := by simp [Token.text]
    exact ⟨token_stream_number_literal s hs, ht, by rw [token_to_double, ht]⟩

/-- C24 at the text ` 12.x` on line 1: the token is `12`, and the dot, which
no digit follows, stays in the text. -/
theorem C24_number_token_witness :
    lexer_next_token ⟨[], [' '] ++ (['1', '2'] ++ ['.', 'x']), 1, 5⟩
        = (⟨.TT_NUM, ['1', '2'] ++ ['.', 'x'], ['1', '2'].length, 1 + count_newlines [' ']⟩,
           ⟨['1', '2'] ++ ['.', 'x'], ['.', 'x'], 1 + count_newlines [' '], 5⟩)
    ∧ token_stream 2 (lexer_create ['3', '.', '2', '5'])
        = [⟨.TT_NUM, ['3', '.', '2', '5'], 4, 1⟩, ⟨.TT_EOF, [], 0, 1⟩] :=
  ⟨(C24_number_token [' '] ['1', '2'] ['.', 'x'] [] 1 5 (by decide) (by decide) (by decide)
      (by decide)).2.2.2.2.2.1 (by decide),
   ((C24_number_token [' '] ['1', '2'] ['.', 'x'] [] 1 5 (by decide) (by decide) (by decide)
      (by decide)).2.2.2.2.2.2.2.1 ['3', '.', '2', '5'] (by decide)).1⟩

/-! ## Lowering an argument chain -/

theorem get_args_non_link (tail : ExprNode) (h : is_args_node tail = false) (aw : AsmWriter) :
    get_args tail aw = .ok ([], aw) := by
  cases tail with
  | null => exact get_args_null aw
  | number v t => exact get_args_number v t aw
  | ident s t => exact get_args_ident s t aw
  | unary ty o t => exact get_args_unary ty o t aw
  | binary ty l r t =>
    simp only [is_args_node, decide_eq_false_iff_not] at h
    exact get_args_other ty l r t aw h

theorem get_args_arg_links (vals : List ExprNode) (tail : ExprNode)
    (h : is_args_node tail = false) : ∀ aw : AsmWriter,
    get_args (arg_links vals tail) aw = lower_each vals aw := by
  induction vals with
  | nil => intro aw; simp only [arg_links, lower_each]; exact get_args_non_link tail h aw
  | cons v vs ih =>
    intro aw
    simp only [arg_links, lower_each]
    rw [get_args_link]
    cases hg : get_data v aw with
    | error e => rfl
    | ok x =>
      obtain ⟨d, aw1⟩ := x
      simp only [ih aw1]

theorem lower_each_append (xs ys : List ExprNode) : ∀ (aw : AsmWriter) (ds : List Data)
    (aw1 : AsmWriter), lower_each (xs ++ ys) aw = .ok (ds, aw1) →
    ∃ ds1 awm ds2, lower_each xs aw = .ok (ds1, awm) ∧ lower_each ys awm = .ok (ds2, aw1)
      ∧ ds = ds1 ++ ds2 ∧ ds1.length = xs.length := by
  induction xs with
  | nil =>
    intro aw ds aw1 h
    exact ⟨[], aw, ds, rfl, h, rfl, rfl⟩
  | cons x xs ih =>
    intro aw ds aw1 h
    simp only [List.cons_append, lower_each, List.append_eq] at h ⊢
    cases hg : get_data x aw with
    | error e => rw [hg] at h; cases h
    | ok r =>
      obtain ⟨d, aw2⟩ := r
      rw [hg] at h
      simp only at h ⊢
      cases hl : lower_each (xs ++ ys) aw2 with
      | error e => rw [hl] at h; cases h
      | ok r2 =>
        obtain ⟨ds0, aw3⟩ := r2
        rw [hl] at h
        simp only [Except.ok.injEq, Prod.mk.injEq] at h
        obtain ⟨rfl, rfl⟩ := h
        obtain ⟨ds1, awm, ds2, h1, h2, h3, h4⟩ := ih aw2 ds0 aw3 hl
        refine ⟨d :: ds1, awm, ds2, ?_, h2, by rw [h3]; rfl, by simp [h4]⟩
        rw [h1]

theorem lower_each_emits (vals : List ExprNode) : ∀ (aw : AsmWriter) (ds : List Data)
    (aw1 : AsmWriter), lower_each vals aw = .ok (ds, aw1) → Emits aw aw1 := by
  induction vals with
  | nil =>
    intro aw ds aw1 h
    simp only [lower_each, Except.ok.injEq, Prod.mk.injEq] at h
    rw [← h.2]
    exact emits_refl aw
  | cons x xs ih =>
    intro aw ds aw1 h
    simp only [lower_each] at h
    cases hg : get_data x aw with
    | error e => rw [hg] at h; cases h
    | ok r =>
      obtain ⟨d, aw2⟩ := r
      rw [hg] at h
      simp only at h
      cases hl : lower_each xs aw2 with
      | error e => rw [hl] at h; cases h
      | ok r2 =>
        obtain ⟨ds0, aw3⟩ := r2
        rw [hl] at h
        simp only [Except.ok.injEq, Prod.mk.injEq] at h
        rw [← h.2]
        exact emits_trans _ _ _ ((lowering_emits x aw).2.1 d aw2 hg) (ih aw2 ds0 aw3 hl)

/-- C27. Lowering a chain of `n ≥ 1` argument links with `get_data` is
lowering the values of the links one after the other, each from the writer
the one before left, and collecting the operands in an argument list. When
that succeeds the list has exactly `n` elements; for every `i < n` its
element `i` is the operand obtained by lowering the value of link `i`, from
the writer reached after the values before it, and the instructions written
for value `i` follow all instructions written before and precede all
instructions written for the later values. -/
theorem C27_argument_chain_in_order (vals : List ExprNode) (tail : ExprNode) (aw : AsmWriter)
    (hn : vals ≠ []) (ht : is_args_node tail = false) :
    get_data (arg_links vals tail) aw
        = (match lower_each vals aw with
          | .error e => .error e
          | .ok (ds, aw1) => .ok (.ARGLIST ds, aw1))
    ∧ ∀ ds aw1, lower_each vals aw = .ok (ds, aw1) →
        ds.length = vals.length
        ∧ ∀ i (hi : i < vals.length), ∃ awi d awj before these after,
            lower_each (vals.take i) aw = .ok (ds.take i, awi)
            ∧ get_data vals[i] awi = .ok (d, awj)
            ∧ ds[i]? = some d
            ∧ lower_each (vals.drop (i + 1)) awj = .ok (ds.drop (i + 1), aw1)
            ∧ awi.instructions = aw.instructions ++ before
            ∧ awj.instructions = awi.instructions ++ these
            ∧ aw1.instructions = awj.instructions ++ after := by
  constructor
  · cases vals with
    | nil => exact absurd rfl hn
    | cons v vs =>
      simp only [arg_links]
      rw [get_data_args]
      have := get_args_arg_links (v :: vs) tail ht aw
      simp only [arg_links] at this
      rw [this]
  · intro ds aw1 h
    have hlen : ds.length = vals.length := by
      have h0 : lower_each (vals ++ []) aw = .ok (ds, aw1) := by simpa using h
      obtain ⟨ds1, awm, ds2, _, h2, h3, h4⟩ := lower_each_append vals [] aw ds aw1 h0
      simp only [lower_each, Except.ok.injEq, Prod.mk.injEq] at h2
      rw [h3, ← h2.1]
      simpa using h4
    refine ⟨hlen, ?_⟩
    intro i hi
    have hsplit : vals = vals.take i ++ (vals[i] :: vals.drop (i + 1)) := by
      rw [← List.drop_eq_getElem_cons hi, List.take_append_drop]
    have h0 : lower_each (vals.take i ++ (vals[i] :: vals.drop (i + 1))) aw = .ok (ds, aw1) := by
      rw [← hsplit]; exact h
    obtain ⟨ds1, awi, ds2, h1, h2, h3, h4⟩ := lower_each_append _ _ aw ds aw1 h0
    simp only [lower_each] at h2
    cases hg : get_data vals[i] awi with
    | error e => rw [hg] at h2; cases h2
    | ok r =>
      obtain ⟨d, awj⟩ := r
      rw [hg] at h2
      simp only at h2
      cases hl : lower_each (vals.drop (i + 1)) awj with
      | error e => rw [hl] at h2; cases h2
      | ok r2 =>
        obtain ⟨ds3, aw3⟩ := r2
        rw [hl] at h2
        simp only [Except.ok.injEq, Prod.mk.injEq] at h2
        obtain ⟨rfl, rfl⟩ := h2
        have hl1 : ds1.length = i := by
          rw [h4, List.length_take]; omega
        obtain ⟨before, hb, _⟩ := lower_each_emits _ _ _ _ h1
        obtain ⟨these, hth, _⟩ := (lowering_emits vals[i] awi).2.1 d awj hg
        obtain ⟨after, haf, _⟩ := lower_each_emits _ _ _ _ hl
        refine ⟨awi, d, awj, before, these, after, ?_, hg, ?_, ?_, hb, hth, haf⟩
        · rw [h1, h3, ← hl1, List.take_left']
          rfl
        · rw [h3, ← hl1, List.getElem?_append_right (Nat.le_refl _)]
          simp
        · have e : ds1 ++ d :: ds3 = (ds1 ++ [d]) ++ ds3 := by simp
          have e2 : (ds1 ++ d :: ds3).drop (i + 1) = ds3 := by
            rw [e]
            exact List.drop_left' (by simp [hl1])
          rw [h3, e2]
          exact hl

/-- C27 at the chain of the two numbers 1 and 2. -/
theorem C27_argument_chain_in_order_witness :
    get_data (arg_links [.number 1 false, .number 2 false] .null) ⟨[], 0, 0⟩
      = (match lower_each [.number 1 false, .number 2 false] ⟨[], 0, 0⟩ with
        | .error e => .error e
        | .ok (ds, aw1) => .ok (.ARGLIST ds, aw1)) :=
  (C27_argument_chain_in_order [.number 1 false, .number 2 false] .null ⟨[], 0, 0⟩
    (by simp) rfl).1

/-! ## The no-output sentinel -/

theorem ident_end_call_args_text (cs : List (List Char)) :
    ident_end (call_args_text cs) = true := by
  cases cs <;> rfl

theorem simple_argument_cases (a : List Char) (ha : is_simple_argument a = true) :
    (is_identifier a = true) ∨ (is_identifier a = false ∧ is_number_literal a = true) := by
  cases hid : is_identifier a with
  | true => exact Or.inl rfl
  | false =>
    simp only [is_simple_argument, hid, Bool.or_false] at ha
    exact Or.inr ⟨rfl, ha⟩

theorem parser_advance_argument (a rest st : List Char) (line len : Nat) (curr : Token)
    (hf : Bool) (ha : is_simple_argument a = true) (hn : num_end rest = true)
    (hi : ident_end rest = true) :
    parser_advance ⟨⟨st, a ++ rest, line, len⟩, curr, hf⟩
      = ⟨⟨a ++ rest, rest, line, len⟩, ⟨argument_token_type a, a ++ rest, a.length, line⟩,
          hf⟩ := by
  rcases simple_argument_cases a ha with hid | ⟨hid, hnum⟩
  · simp only [argument_token_type, hid, if_true]
    exact parser_advance_identifier a rest st line len curr hf hid hi
  · simp only [argument_token_type, hid]
    exact parser_advance_number a rest st line len curr hf hnum hn

/-- The terminal expression at an argument token that no call follows. -/
theorem parser_parse_terminal_argument (a rest : List Char) (fuel len : Nat) (hf : Bool)
    (p1 : Parser)
    (hadv : parser_advance ⟨⟨a ++ rest, rest, 1, len⟩,
        ⟨argument_token_type a, a ++ rest, a.length, 1⟩, hf⟩ = p1)
    (h1 : p1.curr.type ≠ .TT_NUM) (h2 : p1.curr.type ≠ .TT_LPAREN)
    (h3 : p1.curr.type ≠ .TT_IDENT) :
    parser_parse_terminal_expr (fuel + 1)
        ⟨⟨a ++ rest, rest, 1, len⟩, ⟨argument_token_type a, a ++ rest, a.length, 1⟩, hf⟩
      = .ok (argument_node a false, p1) := by
  rw [parser_parse_terminal_expr_succ]
  cases hid : is_identifier a with
  | true =>
    simp [argument_token_type, argument_node, hid, parser_parse_ident, text_of_span] at hadv ⊢
    simp [hadv, h1, h2, h3]
  | false =>
    simp [argument_token_type, argument_node, hid, parser_parse_number, token_to_double,
      text_of_span] at hadv ⊢
    simp [hadv, h1, h2, h3]

/-- The arguments of a call after the opening parenthesis, from the state in
which the cursor token is the argument `c`. -/
theorem parser_parse_args_simple (cs : List (List Char)) :
    ∀ (c : List Char) (fuel len : Nat), is_simple_argument c = true →
      (∀ x ∈ cs, is_simple_argument x = true) → cs.length ≤ fuel →
      parser_parse_args (fuel + 3)
        ⟨⟨c ++ call_args_text cs, call_args_text cs, 1, len⟩,
         ⟨argument_token_type c, c ++ call_args_text cs, c.length, 1⟩, true⟩
      = .ok (argument_chain (c :: cs),
          ⟨⟨[')'], [], 1, len⟩, ⟨.TT_RPAREN, [')'], 1, 1⟩, true⟩) := by
  induction cs with
  | nil =>
    intro c fuel len hc _ _
    have ht := parser_parse_terminal_argument c [')'] (fuel + 0) len true _
      (parser_advance_rparen _ _ _ _ _ _) (by simp) (by simp) (by simp)
    rw [parser_parse_args_succ, parser_parse_expr_succ]
    simp only [call_args_text] at ht ⊢
    have hty : argument_token_type c ≠ .TT_EOF ∧ argument_token_type c ≠ .TT_COMMA := by
      unfold argument_token_type; split <;> simp
    simp [hty.1, hty.2, ht, argument_chain]
  | cons c1 cs ih =>
    intro c fuel len hc hcs hlen
    obtain ⟨f1, rfl⟩ : ∃ f1, fuel = f1 + 1 := ⟨fuel - 1, by simp at hlen; omega⟩
    have hc1 : is_simple_argument c1 = true := hcs c1 (List.mem_cons_self _ _)
    have ih1 := ih c1 f1 len hc1 (fun x hx => hcs x (List.mem_cons_of_mem _ hx))
      (by simp at hlen; omega)
    have ht := parser_parse_terminal_argument c (',' :: ' ' :: (c1 ++ call_args_text cs))
      (f1 + 1 + 0) len true _ (parser_advance_comma _ _ _ _ _ _) (by simp) (by simp) (by simp)
    have hadv := parser_advance_argument c1 (call_args_text cs)
      (',' :: ' ' :: (c1 ++ call_args_text cs)) 1 len
      ⟨.TT_COMMA, ',' :: ' ' :: (c1 ++ call_args_text cs), 1, 1⟩ true hc1
      (num_end_call_args_text cs) (ident_end_call_args_text cs)
    have hty : argument_token_type c ≠ .TT_EOF ∧ argument_token_type c ≠ .TT_COMMA := by
      unfold argument_token_type; split <;> simp
    rw [parser_parse_args_succ, parser_parse_expr_succ]
    simp only [call_args_text] at ht ⊢
    simp [hty.1, hty.2, ht, parser_advance_comma, parser_advance_space, hadv]
    rw [ih1]
    simp [argument_chain]

theorem set_top_level_argument_node (a : List Char) (t : Bool) :
    set_top_level (argument_node a t) = argument_node a true := by
  unfold argument_node; split <;> rfl

theorem argument_node_ne_null (a : List Char) (t : Bool) : argument_node a t ≠ .null := by
  unfold argument_node; split <;> simp

theorem argument_token_type_cases (a : List Char) :
    argument_token_type a = .TT_NUM ∨ argument_token_type a = .TT_IDENT := by
  unfold argument_token_type; split <;> simp

/-- The tree of the call `f(a, a1, ..., an)` over arguments that are number
literals or identifiers. -/
theorem parse_source_call_simple (f a : List Char) (as : List (List Char))
    (hf : is_identifier f = true) (ha : is_simple_argument a = true)
    (has : ∀ x ∈ as, is_simple_argument x = true) (fuel : Nat) :
    parse_source (fuel + as.length + 7) (call_source f a as)
      = .ok (.binary .NT_CALL (.ident f false)
          (.binary .NT_ARGS (argument_node a true) (argument_chain as) false) false) := by
  have hty : argument_token_type a ≠ .TT_EOF ∧ argument_token_type a ≠ .TT_COMMA := by
    unfold argument_token_type; split <;> simp
  cases as with
  | nil =>
    have h0 := fun st line len curr hf2 =>
      parser_advance_identifier f ('(' :: (a ++ [')'])) st line len curr hf2 hf rfl
    have h1 := fun st line len curr hf2 =>
      parser_advance_argument a [')'] st line len curr hf2 ha rfl rfl
    have ht := fun len hf2 => parser_parse_terminal_argument a [')'] fuel len hf2 _
      (parser_advance_rparen _ _ _ _ _ _) (by simp) (by simp) (by simp)
    simp only [parse_source, parser_create, lexer_create, call_source, call_args_text, h0,
      List.length_nil, Nat.add_zero]
    rw [parser_parse_expr_succ]
    simp
    rw [parser_parse_terminal_expr_succ]
    simp [h0, parser_parse_ident, parser_advance_lparen, text_of_span]
    rw [parser_parse_args_succ, parser_parse_expr_succ]
    simp
    rw [parser_parse_terminal_expr_succ]
    simp [h1, parser_advance_lparen]
    rw [parser_parse_expr_succ]
    simp [hty.1, hty.2, ht, argument_node_ne_null, set_top_level_argument_node,
      parser_advance_rparen, parser_advance_nil, argument_chain]
  | cons c1 cs =>
    have hc1 : is_simple_argument c1 = true := has c1 (List.mem_cons_self _ _)
    have h0 := fun st line len curr hf2 =>
      parser_advance_identifier f ('(' :: (a ++ ',' :: ' ' :: (c1 ++ call_args_text cs)))
        st line len curr hf2 hf rfl
    have h1 := fun st line len curr hf2 =>
      parser_advance_argument a (',' :: ' ' :: (c1 ++ call_args_text cs)) st line len curr hf2
        ha rfl rfl
    have h2 := fun st line len curr hf2 =>
      parser_advance_argument c1 (call_args_text cs) st line len curr hf2 hc1
        (num_end_call_args_text cs) (ident_end_call_args_text cs)
    have e : fuel + (c1 :: cs).length + 7 = (fuel + cs.length + 1) + 7 := by
      simp only [List.length_cons]; omega
    rw [e]
    generalize hG : fuel + cs.length + 1 = G
    have hlen : cs.length ≤ G + 1 := by omega
    have key := fun len => parser_parse_args_simple cs c1 (G + 1) len hc1
      (fun x hx => has x (List.mem_cons_of_mem _ hx)) hlen
    have ht := fun len hf2 => parser_parse_terminal_argument a
      (',' :: ' ' :: (c1 ++ call_args_text cs)) G len hf2 _
      (parser_advance_comma _ _ _ _ _ _) (by simp) (by simp) (by simp)
    simp only [parse_source, parser_create, lexer_create, call_source, call_args_text, h0]
    rw [parser_parse_expr_succ]
    simp
    rw [parser_parse_terminal_expr_succ]
    simp [h0, parser_parse_ident, parser_advance_lparen, text_of_span]
    rw [parser_parse_args_succ, parser_parse_expr_succ]
    simp
    rw [parser_parse_terminal_expr_succ]
    simp [h1, parser_advance_lparen]
    rw [parser_parse_expr_succ]
    simp [hty.1, hty.2, ht, argument_node_ne_null, set_top_level_argument_node,
      parser_advance_comma, parser_advance_space, h2]
    rw [key]
    simp [argument_chain]

/-- The tree of the juxtaposition `f a`. -/
theorem parse_source_juxtaposition (f a : List Char) (hf : is_identifier f = true)
    (ha : is_simple_argument a = true) (fuel : Nat) :
    parse_source (fuel + 5) (f ++ ' ' :: a)
      = .ok (.binary .NT_CALL (.ident f false)
          (.binary .NT_ARGS (argument_node a true) .null false) false) := by
  have hty : argument_token_type a ≠ .TT_EOF ∧ argument_token_type a ≠ .TT_COMMA := by
    unfold argument_token_type; split <;> simp
  have h0 := fun st line len curr hf2 =>
    parser_advance_identifier f (' ' :: a) st line len curr hf2 hf rfl
  have h1 := fun st line len curr hf2 => by
    simpa using parser_advance_argument a [] st line len curr hf2 ha rfl rfl
  have ht := fun len hf2 => by
    simpa using parser_parse_terminal_argument a [] fuel len hf2 _
      (parser_advance_nil _ _ _ _ _) (by simp) (by simp) (by simp)
  simp only [parse_source, parser_create, lexer_create, h0]
  rw [parser_parse_expr_succ]
  simp
  rw [parser_parse_terminal_expr_succ]
  simp [h0, parser_parse_ident, parser_advance_space, h1, text_of_span]
  rcases argument_token_type_cases a with hk | hk
  · simp [hk]
    rw [parser_parse_args_succ, parser_parse_expr_succ]
    rw [hk] at ht
    simp [ht, argument_node_ne_null, set_top_level_argument_node, parser_advance_nil]
  · simp [hk]
    rw [parser_parse_args_succ, parser_parse_expr_succ]
    rw [hk] at ht
    simp [ht, argument_node_ne_null, set_top_level_argument_node, parser_advance_nil]

/-- C23. For an identifier `f` and arguments `a`, `a1`, ..., `an` that are
number literals or identifiers, the source `f(a, a1, ..., an)` parses to the
call node whose callee is the identifier `f` and whose argument chain holds
one link per argument, in source order, the continuation of the last link
being NULL; the first argument is the node that carries the top-level mark.
The juxtaposition `f a` parses to the same tree as `f(a)`. Any recursion
budget of at least 7 plus the number of further arguments gives the result. -/
theorem C23_call_arguments (f a : List Char) (as : List (List Char))
    (hf : is_identifier f = true) (ha : is_simple_argument a = true)
    (has : ∀ x ∈ as, is_simple_argument x = true) (fuel : Nat) :
    parse_source (fuel + as.length + 7) (call_source f a as)
        = .ok (.binary .NT_CALL (.ident f false)
            (.binary .NT_ARGS (argument_node a true) (argument_chain as) false) false)
    ∧ parse_source (fuel + 7) (f ++ ' ' :: a)
        = .ok (.binary .NT_CALL (.ident f false)
            (.binary .NT_ARGS (argument_node a true) .null false) false)
    ∧ parse_source (fuel + 7) (f ++ ' ' :: a) = parse_source (fuel + 7) (call_source f a []) := by
  have h1 := parse_source_call_simple f a as hf ha has fuel
  have h2 := parse_source_juxtaposition f a hf ha (fuel + 2)
  have h3 := parse_source_call_simple f a [] hf ha (by simp) fuel
  simp only [List.length_nil, Nat.add_zero, argument_chain] at h3
  exact ⟨h1, h2, by rw [h2, h3]⟩

/-- C23 at the call `f(x, 2)` and the juxtaposition `f x`. -/
theorem C23_call_arguments_witness :
    parse_source (0 + [['2']].length + 7) (call_source ['f'] ['x'] [['2']])
        = .ok (.binary .NT_CALL (.ident ['f'] false)
            (.binary .NT_ARGS (argument_node ['x'] true) (argument_chain [['2']]) false) false)
    ∧ parse_source (0 + 7) (['f'] ++ ' ' :: ['x'])
        = .ok (.binary .NT_CALL (.ident ['f'] false)
            (.binary .NT_ARGS (argument_node ['x'] true) .null false) false)
    ∧ parse_source (0 + 7) (['f'] ++ ' ' :: ['x'])
        = parse_source (0 + 7) (call_source ['f'] ['x'] []) :=
  C23_call_arguments ['f'] ['x'] [['2']] (by decide) (by decide) (by decide) 0

/-! ## Lowering from an offset -/

theorem shift_index_nat (k c : Nat) : shift_index k (c : Int) = ((c + k : Nat) : Int) := by
  unfold shift_index
  have : ¬ ((c : Int) = -1) := by omega
  simp [this]

theorem map_registers_list_eq_map (f : Int → Int) (ds : List Data) :
    Data.map_registers_list f ds = ds.map (Data.map_registers f) := by
  induction ds with
  | nil => rfl
  | cons d ds ih => simp [Data.map_registers_list, ih]

theorem emit_fresh_shift (k : Nat) (aw : AsmWriter) (data : InstructionData) :
    emit_fresh (aw.shift k) (data.map_registers (shift_index k))
      = (shift_index k (emit_fresh aw data).1, (emit_fresh aw data).2.shift k) := by
  simp [emit_fresh, pushInstructionArr, AsmWriter.shift, Instruction.shift, shift_index_nat]
  omega

theorem push_sentinel_shift (k : Nat) (aw : AsmWriter) (data : InstructionData) :
    pushInstructionArr (aw.shift k) ⟨-1, data.map_registers (shift_index k)⟩
      = (pushInstructionArr aw ⟨-1, data⟩).shift k := by
  simp [pushInstructionArr, AsmWriter.shift, Instruction.shift, shift_index]

/-- Lowering from a writer moved by the offset `k` gives the results of
lowering from the writer itself, moved by `k`. -/
theorem lowering_shift (k : Nat) (e : ExprNode) : ∀ aw : AsmWriter,
    (parse_expr_tree e (aw.shift k)
      = match parse_expr_tree e aw with
        | .error err => .error err
        | .ok (v, aw1) => .ok (if has_operator e = true then shift_index k v else v,
            aw1.shift k))
    ∧ (get_data e (aw.shift k)
      = match get_data e aw with
        | .error err => .error err
        | .ok (d, aw1) => .ok (d.map_registers (shift_index k), aw1.shift k))
    ∧ (get_args e (aw.shift k)
      = match get_args e aw with
        | .error err => .error err
        | .ok (ds, aw1) => .ok (Data.map_registers_list (shift_index k) ds, aw1.shift k)) := by
  induction e with
  | null =>
    intro aw
    refine ⟨?_, ?_, ?_⟩
    · simp [parse_expr_tree_null]
    · simp [get_data_null]
    · simp [get_args_null, Data.map_registers_list]
  | number v t =>
    intro aw
    refine ⟨?_, ?_, ?_⟩
    · simp [parse_expr_tree_number, has_operator]
    · simp [get_data_number, Data.map_registers]
    · simp [get_args_number, Data.map_registers_list]
  | ident s t =>
    intro aw
    refine ⟨?_, ?_, ?_⟩
    · simp [parse_expr_tree_ident, has_operator]
    · simp [get_data_ident, Data.map_registers]
    · simp [get_args_ident, Data.map_registers_list]
  | unary t o tl ih =>
    intro aw
    have hp : parse_expr_tree (.unary t o tl) (aw.shift k)
        = match parse_expr_tree (.unary t o tl) aw with
          | .error err => .error err
          | .ok (v, aw1) => .ok (shift_index k v, aw1.shift k) := by
      rw [parse_expr_tree_unary, parse_expr_tree_unary]
      cases hc : get_node_class_of_type t <;> simp only
      rw [(ih aw).2.1]
      cases hg : get_data o aw with
      | error err => rfl
      | ok x =>
        obtain ⟨d, aw2⟩ := x
        simp only
        have := emit_fresh_shift k aw2 (.UNARY d .NEG)
        simp only [InstructionData.map_registers] at this
        rw [this]
    refine ⟨?_, ?_, ?_⟩
    · simpa [has_operator] using hp
    · rw [get_data_unary, get_data_unary, hp]
      cases parse_expr_tree (.unary t o tl) aw with
      | error err => rfl
      | ok x => obtain ⟨v, aw2⟩ := x; simp [Data.map_registers]
    · simp [get_args_unary, Data.map_registers_list]
  | binary t l r tl ihl ihr =>
    intro aw
    have hp : parse_expr_tree (.binary t l r tl) (aw.shift k)
        = match parse_expr_tree (.binary t l r tl) aw with
          | .error err => .error err
          | .ok (v, aw1) => .ok (shift_index k v, aw1.shift k) := by
      rw [parse_expr_tree_binary, parse_expr_tree_binary]
      cases hc : get_node_class_of_type t <;> simp only
      · -- NC_UNARY
        rw [(ihl aw).2.1]
        cases hg : get_data l aw with
        | error err => rfl
        | ok x =>
          obtain ⟨d, aw2⟩ := x
          simp only
          have := emit_fresh_shift k aw2 (.UNARY d .NEG)
          simp only [InstructionData.map_registers] at this
          rw [this]
      · -- NC_BINARY
        rw [(ihl aw).2.1]
        cases hg : get_data l aw with
        | error err => rfl
        | ok x =>
          obtain ⟨dl, aw2⟩ := x
          simp only
          rw [(ihr aw2).2.1]
          cases hg2 : get_data r aw2 with
          | error err => rfl
          | ok y =>
            obtain ⟨dr, aw3⟩ := y
            simp only
            cases hop : get_expr_bin_op t with
            | none => rfl
            | some op =>
              simp only
              have hf := emit_fresh_shift k aw3 (.BINARY dl dr op)
              have hs := push_sentinel_shift k aw3 (.BINARY dl dr op)
              simp only [InstructionData.map_registers] at hf hs
              by_cases ht : t = .NT_ASSIGN
              · subst ht
                cases dr with
                | VARIABLE i =>
                  simp only [Data.map_registers] at hs ⊢
                  rw [hs]
                  simp [shift_index]
                | CONSTANT c => simp only [Data.map_registers] at hf ⊢; rw [hf]
                | IDENTIFIER s => simp only [Data.map_registers] at hf ⊢; rw [hf]
                | ARGLIST a => simp only [Data.map_registers] at hf ⊢; rw [hf]
              · cases t <;>
                  first
                    | exact absurd rfl ht
                    | (simp [get_node_class_of_type] at hc; done)
                    | (simp only; rw [hf])
      · -- NC_CALL
        rw [(ihl aw).2.1]
        cases hg : get_data l aw with
        | error err => rfl
        | ok x =>
          obtain ⟨dl, aw2⟩ := x
          simp only
          rw [(ihr aw2).2.1]
          cases hg2 : get_data r aw2 with
          | error err => rfl
          | ok y =>
            obtain ⟨dr, aw3⟩ := y
            simp only
            have hf := emit_fresh_shift k aw3 (.BINARY dl dr .CALL)
            simp only [InstructionData.map_registers] at hf
            rw [hf]
      · -- NC_ARGS
        simp [shift_index]
    have ha : get_args (.binary t l r tl) (aw.shift k)
        = match get_args (.binary t l r tl) aw with
          | .error err => .error err
          | .ok (ds, aw1) => .ok (Data.map_registers_list (shift_index k) ds, aw1.shift k) := by
      by_cases ht : t = .NT_ARGS
      · subst ht
        rw [get_args_link, get_args_link, (ihl aw).2.1]
        cases hg : get_data l aw with
        | error err => rfl
        | ok x =>
          obtain ⟨d, aw2⟩ := x
          simp only
          rw [(ihr aw2).2.2]
          cases hg2 : get_args r aw2 with
          | error err => rfl
          | ok y =>
            obtain ⟨ds2, aw3⟩ := y
            simp [Data.map_registers_list]
      · rw [get_args_other _ _ _ _ _ ht, get_args_other _ _ _ _ _ ht]
        simp [Data.map_registers_list]
    refine ⟨?_, ?_, ha⟩
    · simpa [has_operator] using hp
    · by_cases ht : t = .NT_ARGS
      · subst ht
        rw [get_data_args, get_data_args, ha]
        cases get_args (.binary .NT_ARGS l r tl) aw with
        | error err => rfl
        | ok x => obtain ⟨ds, aw2⟩ := x; simp [Data.map_registers]
      · rw [get_data_binary _ _ _ _ _ ht, get_data_binary _ _ _ _ _ ht, hp]
        cases parse_expr_tree (.binary t l r tl) aw with
        | error err => rfl
        | ok x => obtain ⟨v, aw2⟩ := x; simp [Data.map_registers]

theorem asm_writer_create_shift (fuel : Nat) (tok : List Char) (k : Nat) :
    asm_writer_create fuel tok k
      = match asm_writer_create fuel tok 0 with
        | .error err => .error err
        | .ok aw => .ok (aw.shift k) := by
  rw [asm_writer_create_eq, asm_writer_create_eq]
  cases parse_source fuel tok with
  | error err => rfl
  | ok tree =>
    simp only
    have h := (lowering_shift k tree ⟨[], 0, 0⟩).1
    simp only [AsmWriter.shift, List.map_nil, Nat.zero_add] at h
    rw [h]
    cases parse_expr_tree tree ⟨[], 0, 0⟩ with
    | error err => rfl
    | ok x => rfl

/-- The tree of `x = (y = 1 + 2)`. -/
theorem parse_source_nested_assign (fuel : Nat) :
    parse_source (fuel + 14) nested_assign_source
      = .ok (.binary .NT_ASSIGN (.ident ['x'] true)
          (.binary .NT_ASSIGN (.ident ['y'] false)
            (.binary .NT_ADD (.number 1 false) (.number 2 false) false) false) false) := by
  have a0 := fun st line len curr hf =>
    parser_advance_identifier ['x']
      [' ', '=', ' ', '(', 'y', ' ', '=', ' ', '1', ' ', '+', ' ', '2', ')']
      st line len curr hf (by decide) rfl
  have a1 := fun st line len curr hf =>
    parser_advance_identifier ['y'] [' ', '=', ' ', '1', ' ', '+', ' ', '2', ')']
      st line len curr hf (by decide) rfl
  have a2 := fun st line len curr hf =>
    parser_advance_number ['1'] [' ', '+', ' ', '2', ')'] st line len curr hf (by decide) rfl
  have a3 := fun st line len curr hf =>
    parser_advance_number ['2'] [')'] st line len curr hf (by decide) rfl
  simp only [List.singleton_append, List.cons_append, List.nil_append] at a0 a1 a2 a3
  simp only [parse_source, parser_create, lexer_create, nested_assign_source, a0]
  repeat
    (first
      | rw [parser_parse_expr_succ]
      | rw [parser_parse_terminal_expr_succ]
      | rw [parser_parse_expr_loop_succ]
      | rw [parser_parse_infix_expr_succ])
    try simp [a0, a1, a2, a3, parser_parse_number, parser_parse_ident, parser_advance_nil,
      parser_advance_space, parser_advance_lparen, parser_advance_rparen,
      parser_advance_assign, parser_advance_plus, set_top_level, precedence, Precedence.val,
      token_to_double, Token.text, strtod_digit_1, strtod_digit_2]

/-- C28 at a failing statement. Lowering `x = (y = 1 + 2)` from offset 0
writes `%0 = 1 + 2`, `y = %0` and `x = %-1`: the right operand of the outer
assignment is the register operand -1. Lowering from offset 1 writes
`%1 = 1 + 2`, `y = %1` and again `x = %-1`; the final counters are 1 and 2.
Adding 1 to every non-sentinel output and to every register operand of the
offset-0 list gives `x = %0` as the last instruction, so the two lists
differ. For every statement and offset the lowering from the offset is the
offset-0 lowering with the offset added to the outputs and register operands
other than -1 and to the final counter, and `gen_code` lowers each statement
at the final counter of the statement before it. -/
theorem C28_offset_skips_sentinel_operand (fuel : Nat) :
    asm_writer_create (fuel + 14) nested_assign_source 0 = .ok ⟨nested_assign_at_0, 0, 1⟩
    ∧ asm_writer_create (fuel + 14) nested_assign_source 1 = .ok ⟨nested_assign_at_1, 0, 2⟩
    ∧ nested_assign_at_1 ≠ nested_assign_at_0.map (Instruction.add_offset 1)
    ∧ nested_assign_at_1 = nested_assign_at_0.map (Instruction.shift 1)
    ∧ (∀ (fuel2 : Nat) (tok : List Char) (k : Nat),
        asm_writer_create fuel2 tok k
          = match asm_writer_create fuel2 tok 0 with
            | .error err => .error err
            | .ok aw => .ok ⟨aw.instructions.map (Instruction.shift k), aw.depth,
                aw.cur_var + k⟩)
    ∧ (∀ (fuel2 : Nat) (tok : List Char) (rest : List (List Char)) (acc : List Instruction)
        (off : Nat),
        gen_code_loop fuel2 (tok :: rest) acc off
          = match asm_writer_create fuel2 tok off with
            | .error err => .error err
            | .ok aw => gen_code_loop fuel2 rest (acc ++ aw.instructions) aw.cur_var) := by
  have h0 : asm_writer_create (fuel + 14) nested_assign_source 0
      = .ok ⟨nested_assign_at_0, 0, 1⟩ := by
    simp [asm_writer_create_eq, parse_source_nested_assign, parse_expr_tree_binary,
      get_node_class_of_type, get_data_number, get_data_ident, get_data_binary,
      get_expr_bin_op, emit_fresh, pushInstructionArr, nested_assign_at_0]
  refine ⟨h0, ?_, ?_, ?_, ?_, ?_⟩
  · rw [asm_writer_create_shift, h0]
    simp [AsmWriter.shift, nested_assign_at_0, nested_assign_at_1, Instruction.shift,
      InstructionData.map_registers, Data.map_registers, shift_index]
  · simp [nested_assign_at_0, nested_assign_at_1, Instruction.add_offset,
      InstructionData.map_registers, Data.map_registers, shift_index]
  · simp [nested_assign_at_0, nested_assign_at_1, Instruction.shift,
      InstructionData.map_registers, Data.map_registers, shift_index]
  · intro fuel2 tok k
    exact asm_writer_create_shift fuel2 tok k
  · intro fuel2 tok rest acc off
    rw [gen_code_loop]

/-! ## Register operands and the outputs before them -/

theorem operands_defined_nil : operands_defined [] := by
  intro pre instr post h
  cases pre <;> cases h

theorem operands_defined_append (is1 is2 : List Instruction) (h1 : operands_defined is1)
    (h2 : operands_defined is2) : operands_defined (is1 ++ is2) := by
  intro pre instr post h r hr
  rcases List.append_eq_append_iff.1 h with ⟨a, ha1, ha2⟩ | ⟨c, hc1, hc2⟩
  · -- `pre = is1 ++ a`, `is2 = a ++ instr :: post`
    rcases h2 a instr post ha2 r hr with h3 | h3
    · exact Or.inl h3
    · right
      rw [ha1, fresh_outputs_append]
      exact List.mem_append_right _ h3
  · -- `is1 = pre ++ c`, `instr :: post = c ++ is2`
    cases c with
    | nil =>
      simp only [List.nil_append] at hc2
      simp only [List.append_nil] at hc1
      rcases h2 [] instr post hc2.symm r hr with h3 | h3
      · exact Or.inl h3
      · simp [fresh_outputs] at h3
    | cons x c =>
      simp only [List.cons_append, List.cons.injEq] at hc2
      obtain ⟨rfl, _⟩ := hc2
      exact h1 pre instr c hc1 r hr

theorem operands_defined_snoc (is : List Instruction) (instr : Instruction)
    (h : operands_defined is) (hi : ∀ r ∈ instr.registers, r = -1 ∨ r ∈ fresh_outputs is) :
    operands_defined (is ++ [instr]) := by
  intro pre i2 post hsplit r hr
  rcases List.append_eq_append_iff.1 hsplit with ⟨a, ha1, ha2⟩ | ⟨c, hc1, hc2⟩
  · -- `pre = is ++ a`, `[instr] = a ++ i2 :: post`
    cases a with
    | nil =>
      simp only [List.nil_append, List.cons.injEq] at ha2
      simp only [List.append_nil] at ha1
      rw [ha1]
      rw [← ha2.1] at hr
      exact hi r hr
    | cons x a =>
      simp only [List.cons_append, List.cons.injEq] at ha2
      have := ha2.2
      cases a <;> cases this
  · cases c with
    | nil =>
      simp only [List.nil_append, List.cons.injEq] at hc2
      simp only [List.append_nil] at hc1
      rw [← hc1]
      rw [hc2.1] at hr
      exact hi r hr
    | cons x c =>
      simp only [List.cons_append, List.cons.injEq] at hc2
      obtain ⟨rfl, _⟩ := hc2
      exact h pre i2 c hc1 r hr

theorem defines_refl (aw : AsmWriter) : Defines aw aw [] :=
  ⟨[], by simp, operands_defined_nil, by simp⟩

theorem defines_step (a b c : AsmWriter) (rs1 rs2 : List Int) (h1 : Defines a b rs1)
    (h2 : Defines b c rs2) : Defines a c (rs1 ++ rs2) := by
  obtain ⟨is1, e1, d1, r1⟩ := h1
  obtain ⟨is2, e2, d2, r2⟩ := h2
  refine ⟨is1 ++ is2, by rw [e2, e1, List.append_assoc], operands_defined_append _ _ d1 d2, ?_⟩
  intro r hr
  rw [fresh_outputs_append]
  rcases List.mem_append.1 hr with hr | hr
  · rcases r1 r hr with h | h
    · exact Or.inl h
    · exact Or.inr (List.mem_append_left _ h)
  · rcases r2 r hr with h | h
    · exact Or.inl h
    · exact Or.inr (List.mem_append_right _ h)

theorem defines_weaken (a b : AsmWriter) (rs rs2 : List Int) (h : Defines a b rs)
    (hsub : ∀ r ∈ rs2, r ∈ rs) : Defines a b rs2 := by
  obtain ⟨is, e, d, r1⟩ := h
  exact ⟨is, e, d, fun r hr => r1 r (hsub r hr)⟩

theorem defines_emit (a b : AsmWriter) (rs : List Int) (data : InstructionData)
    (h : Defines a b rs)
    (hsub : ∀ r ∈ Instruction.registers ⟨(b.cur_var : Int), data⟩, r ∈ rs) :
    Defines a (emit_fresh b data).2 [(emit_fresh b data).1] := by
  obtain ⟨is, e, d, r1⟩ := h
  refine ⟨is ++ [⟨(b.cur_var : Int), data⟩], ?_, ?_, ?_⟩
  · simp [emit_fresh, pushInstructionArr, e]
  · exact operands_defined_snoc _ _ d (fun r hr => r1 r (hsub r hr))
  · intro r hr
    right
    have hne : ((b.cur_var : Int) ≠ -1) := by omega
    simp only [emit_fresh, List.mem_singleton] at hr
    simp [fresh_outputs, hr, hne]

theorem defines_sentinel (a b : AsmWriter) (rs : List Int) (data : InstructionData)
    (h : Defines a b rs) (hsub : ∀ r ∈ Instruction.registers ⟨-1, data⟩, r ∈ rs) :
    Defines a (pushInstructionArr b ⟨-1, data⟩) [-1] := by
  obtain ⟨is, e, d, r1⟩ := h
  refine ⟨is ++ [⟨-1, data⟩], ?_, ?_, ?_⟩
  · simp [pushInstructionArr, e]
  · exact operands_defined_snoc _ _ d (fun r hr => r1 r (hsub r hr))
  · intro r hr
    left
    simpa using hr

theorem direct_registers_subset (d : Data) : ∀ r ∈ d.direct_registers, r ∈ d.registers := by
  intro r hr
  cases d <;> simp_all [Data.direct_registers, Data.registers]

/-- Every register operand the lowering pass writes, and every register it
hands back as an operand, is -1 or the output of an instruction it wrote
before. -/
theorem lowering_defines (e : ExprNode) : ∀ aw : AsmWriter,
    (∀ v aw1, parse_expr_tree e aw = .ok (v, aw1) →
      Defines aw aw1 (if has_operator e = true then [v] else [])) ∧
    (∀ d aw1, get_data e aw = .ok (d, aw1) → Defines aw aw1 d.registers) ∧
    (∀ ds aw1, get_args e aw = .ok (ds, aw1) →
      Defines aw aw1 (ds.flatMap Data.direct_registers)) := by
  induction e with
  | null =>
    intro aw
    refine ⟨?_, ?_, ?_⟩
    · intro v aw1 h; rw [parse_expr_tree_null] at h; cases h
    · intro d aw1 h; rw [get_data_null] at h; cases h
    · intro ds aw1 h; rw [get_args_null] at h; cases h; exact defines_refl _
  | number v t =>
    intro aw
    refine ⟨?_, ?_, ?_⟩
    · intro v aw1 h; rw [parse_expr_tree_number] at h; cases h; exact defines_refl _
    · intro d aw1 h; rw [get_data_number] at h; cases h; exact defines_refl _
    · intro ds aw1 h; rw [get_args_number] at h; cases h; exact defines_refl _
  | ident s t =>
    intro aw
    refine ⟨?_, ?_, ?_⟩
    · intro v aw1 h; rw [parse_expr_tree_ident] at h; cases h; exact defines_refl _
    · intro d aw1 h; rw [get_data_ident] at h; cases h; exact defines_refl _
    · intro ds aw1 h; rw [get_args_ident] at h; cases h; exact defines_refl _
  | unary t o tl ih =>
    intro aw
    have hp : ∀ v aw1, parse_expr_tree (.unary t o tl) aw = .ok (v, aw1) →
        Defines aw aw1 [v] := by
      intro v aw1 h
      rw [parse_expr_tree_unary] at h
      cases hc : get_node_class_of_type t <;> rw [hc] at h <;> simp only at h <;>
        try cases h
      cases hg : get_data o aw with
      | error err => rw [hg] at h; cases h
      | ok x =>
        obtain ⟨d, aw2⟩ := x
        rw [hg] at h
        simp only [Except.ok.injEq] at h
        obtain rfl : v = _ := (congrArg Prod.fst h).symm
        obtain rfl : aw1 = _ := (congrArg Prod.snd h).symm
        exact defines_emit _ _ _ _ ((ih aw).2.1 d aw2 hg)
          (by intro r hr; simpa [Instruction.registers] using hr)
    refine ⟨hp, ?_, ?_⟩
    · intro d aw1 h
      rw [get_data_unary] at h
      cases hq : parse_expr_tree (.unary t o tl) aw with
      | error err => rw [hq] at h; cases h
      | ok x =>
        obtain ⟨v, aw2⟩ := x
        rw [hq] at h
        simp only [Except.ok.injEq, Prod.mk.injEq] at h
        rw [← h.2, ← h.1]
        exact hp v aw2 hq
    · intro ds aw1 h; rw [get_args_unary] at h; cases h; exact defines_refl _
  | binary t l r tl ihl ihr =>
    intro aw
    have hp : ∀ v aw1, parse_expr_tree (.binary t l r tl) aw = .ok (v, aw1) →
        Defines aw aw1 [v] := by
      intro v aw1 h
      rw [parse_expr_tree_binary] at h
      cases hc : get_node_class_of_type t <;> rw [hc] at h <;> simp only at h
      · -- NC_UNARY
        cases hg : get_data l aw with
        | error err => rw [hg] at h; cases h
        | ok x =>
          obtain ⟨d, aw2⟩ := x
          rw [hg] at h
          simp only [Except.ok.injEq] at h
          obtain rfl : v = _ := (congrArg Prod.fst h).symm
          obtain rfl : aw1 = _ := (congrArg Prod.snd h).symm
          exact defines_emit _ _ _ _ ((ihl aw).2.1 d aw2 hg)
            (by intro r hr; simpa [Instruction.registers] using hr)
      · -- NC_BINARY
        cases hg : get_data l aw with
        | error err => rw [hg] at h; cases h
        | ok x =>
          obtain ⟨dl, aw2⟩ := x
          rw [hg] at h
          simp only at h
          cases hg2 : get_data r aw2 with
          | error err => rw [hg2] at h; cases h
          | ok y =>
            obtain ⟨dr, aw3⟩ := y
            rw [hg2] at h
            simp only at h
            have e12 := defines_step _ _ _ _ _ ((ihl aw).2.1 dl aw2 hg)
              ((ihr aw2).2.1 dr aw3 hg2)
            cases hop : get_expr_bin_op t with
            | none => rw [hop] at h; cases h
            | some op =>
              rw [hop] at h
              simp only at h
              split at h
              · simp only [Except.ok.injEq, Prod.mk.injEq] at h
                rw [← h.2, ← h.1]
                exact defines_sentinel _ _ _ _ e12
                  (by intro r hr; simpa [Instruction.registers] using hr)
              · simp only [Except.ok.injEq] at h
                obtain rfl : v = _ := (congrArg Prod.fst h).symm
                obtain rfl : aw1 = _ := (congrArg Prod.snd h).symm
                exact defines_emit _ _ _ _ e12
                  (by intro r hr; simpa [Instruction.registers] using hr)
      · -- NC_VALUE
        cases h
      · -- NC_CALL
        cases hg : get_data l aw with
        | error err => rw [hg] at h; cases h
        | ok x =>
          obtain ⟨dl, aw2⟩ := x
          rw [hg] at h
          simp only at h
          cases hg2 : get_data r aw2 with
          | error err => rw [hg2] at h; cases h
          | ok y =>
            obtain ⟨dr, aw3⟩ := y
            rw [hg2] at h
            simp only [Except.ok.injEq] at h
            obtain rfl : v = _ := (congrArg Prod.fst h).symm
            obtain rfl : aw1 = _ := (congrArg Prod.snd h).symm
            exact defines_emit _ _ _ _
              (defines_step _ _ _ _ _ ((ihl aw).2.1 dl aw2 hg) ((ihr aw2).2.1 dr aw3 hg2))
              (by intro r hr; simpa [Instruction.registers] using hr)
      · -- NC_ARGS
        simp only [Except.ok.injEq, Prod.mk.injEq] at h
        rw [← h.2, ← h.1]
        exact ⟨[], by simp, operands_defined_nil, by simp⟩
    have ha : ∀ ds aw1, get_args (.binary t l r tl) aw = .ok (ds, aw1) →
        Defines aw aw1 (ds.flatMap Data.direct_registers) := by
      intro ds aw1 h
      by_cases ht : t = .NT_ARGS
      · subst ht
        rw [get_args_link] at h
        cases hg : get_data l aw with
        | error err => rw [hg] at h; cases h
        | ok x =>
          obtain ⟨d, aw2⟩ := x
          rw [hg] at h
          simp only at h
          cases hg2 : get_args r aw2 with
          | error err => rw [hg2] at h; cases h
          | ok y =>
            obtain ⟨ds2, aw3⟩ := y
            rw [hg2] at h
            simp only [Except.ok.injEq, Prod.mk.injEq] at h
            rw [← h.2, ← h.1]
            refine defines_weaken _ _ _ _
              (defines_step _ _ _ _ _ ((ihl aw).2.1 d aw2 hg) ((ihr aw2).2.2 ds2 aw3 hg2)) ?_
            intro r hr
            simp only [List.flatMap_cons, List.mem_append] at hr ⊢
            rcases hr with hr | hr
            · exact Or.inl (direct_registers_subset d r hr)
            · exact Or.inr hr
      · rw [get_args_other _ _ _ _ _ ht] at h
        cases h
        exact defines_refl _
    refine ⟨fun v aw1 h => by simpa [has_operator] using hp v aw1 h, ?_, ha⟩
    intro d aw1 h
    by_cases ht : t = .NT_ARGS
    · subst ht
      rw [get_data_args] at h
      cases hq : get_args (.binary .NT_ARGS l r tl) aw with
      | error err => rw [hq] at h; cases h
      | ok x =>
        obtain ⟨ds, aw2⟩ := x
        rw [hq] at h
        simp only [Except.ok.injEq, Prod.mk.injEq] at h
        rw [← h.2, ← h.1]
        exact ha ds aw2 hq
    · rw [get_data_binary _ _ _ _ _ ht] at h
      cases hq : parse_expr_tree (.binary t l r tl) aw with
      | error err => rw [hq] at h; cases h
      | ok x =>
        obtain ⟨v, aw2⟩ := x
        rw [hq] at h
        simp only [Except.ok.injEq, Prod.mk.injEq] at h
        rw [← h.2, ← h.1]
        exact hp v aw2 hq

theorem asm_writer_create_defined (fuel : Nat) (tok : List Char) (off : Nat) (aw : AsmWriter)
    (h : asm_writer_create fuel tok off = .ok aw) : operands_defined aw.instructions := by
  rw [asm_writer_create] at h
  cases hp : parser_parse_expr fuel (parser_create tok) .PREC_MIN with
  | error err => rw [hp] at h; cases h
  | ok x =>
    obtain ⟨tree, p⟩ := x
    rw [hp] at h
    simp only at h
    cases hl : parse_expr_tree tree { instructions := [], depth := 0, cur_var := off } with
    | error err => rw [hl] at h; cases h
    | ok y =>
      obtain ⟨v, aw1⟩ := y
      rw [hl] at h
      simp only [Except.ok.injEq] at h
      subst h
      obtain ⟨is, e, d, _⟩ := (lowering_defines tree _).1 v aw1 hl
      simp only [List.nil_append] at e
      rw [e]
      exact d

theorem gen_code_loop_defined (fuel : Nat) : ∀ (toks : List (List Char))
    (acc : List Instruction) (off : Nat) (prog : List Instruction), operands_defined acc →
    gen_code_loop fuel toks acc off = .ok prog → operands_defined prog := by
  intro toks
  induction toks with
  | nil =>
    intro acc off prog hacc h
    rw [gen_code_loop] at h
    cases h
    exact hacc
  | cons tok rest ih =>
    intro acc off prog hacc h
    rw [gen_code_loop] at h
    cases hc : asm_writer_create fuel tok off with
    | error err => rw [hc] at h; cases h
    | ok aw =>
      rw [hc] at h
      simp only at h
      exact ih _ _ _
        (operands_defined_append _ _ hacc (asm_writer_create_defined fuel tok off aw hc)) h

/-- C31 at a failing statement. The program of `x = (y = 1 + 2)` is
`%0 = 1 + 2`, `y = %0`, `x = %-1`: the register operand of the last
instruction is -1, which is negative and is the output of no instruction
before it (the outputs before it are 0 and the sentinel). Running the program
reaches an access at index -1 of the register names, outside the array. What
does hold, for every source and every program `gen_code` produces from it:
each register operand, direct or an element of an argument list, is -1 or
the non-sentinel output of an instruction earlier in the program. -/
theorem C31_nested_assign_operand_negative (fuel : Nat) (mem : InstrVM) :
    gen_code (fuel + 14) nested_assign_source = .ok nested_assign_at_0
    ∧ (∃ pre instr post r, nested_assign_at_0 = pre ++ instr :: post
        ∧ instr = ⟨-1, .BINARY (.IDENTIFIER ['x']) (.VARIABLE (-1)) .ASSIGN⟩
        ∧ r ∈ instr.registers ∧ r < 0 ∧ r ∉ fresh_outputs pre)
    ∧ run_instructions mem nested_assign_at_0 = .ub
    ∧ (∀ (fuel2 : Nat) (src : List Char) (prog : List Instruction),
        gen_code fuel2 src = .ok prog →
        ∀ pre instr post, prog = pre ++ instr :: post →
          ∀ r ∈ instr.registers, r = -1 ∨ r ∈ fresh_outputs pre) := by
  refine ⟨?_, ?_, ?_, ?_⟩
  · have hs : strtok_all nested_assign_source = [nested_assign_source] := by decide
    rw [gen_code, hs]
    simp [gen_code_loop, asm_writer_create_eq, parse_source_nested_assign,
      parse_expr_tree_binary, get_node_class_of_type, get_data_number, get_data_ident,
      get_data_binary, get_expr_bin_op, emit_fresh, pushInstructionArr, nested_assign_at_0]
  · exact ⟨[⟨0, .BINARY (.CONSTANT 1) (.CONSTANT 2) .ADD⟩,
        ⟨-1, .BINARY (.IDENTIFIER ['y']) (.VARIABLE 0) .ASSIGN⟩],
      ⟨-1, .BINARY (.IDENTIFIER ['x']) (.VARIABLE (-1)) .ASSIGN⟩, [], -1, rfl, rfl,
      by simp [Instruction.registers, Data.registers], by decide, by decide⟩
  · simp [run_instructions, run_loop, nested_assign_at_0, exec_instruction, exec_arith,
      exec_assign, vm_get_var, store_result, update_vars, find_var, delete_old]
  · intro fuel2 src prog h
    rw [gen_code] at h
    exact gen_code_loop_defined fuel2 _ _ _ _ operands_defined_nil h

/-! ## Unary plus -/

/-- The tree and the program of a number literal under a unary sign
character: `+` gives a positive node, `-` a negative node. -/
theorem gen_code_signed_literal (sign : Char) (t : ExprNodeType) (c : List Char)
    (hc : is_number_literal c = true) (fuel : Nat)
    (hsign : sign = '+' ∧ t = .NT_POSITIVE ∨ sign = '-' ∧ t = .NT_NEGATIVE) :
    parse_source (fuel + 4) (sign :: c) = .ok (.unary t (.number (strtod c) false) true)
    ∧ gen_code (fuel + 4) (sign :: c) = .ok [⟨0, .UNARY (.CONSTANT (strtod c)) .NEG⟩] := by
  have h2 := fun st line len curr hf => parser_advance_number_end c st line len curr hf hc
  have hsep := number_literal_no_separator c hc
  have hp : parse_source (fuel + 4) (sign :: c)
      = .ok (.unary t (.number (strtod c) false) true) := by
    rcases hsign with ⟨rfl, rfl⟩ | ⟨rfl, rfl⟩
    · simp only [parse_source, parser_create, lexer_create, parser_advance_plus]
      repeat
        (first
          | rw [parser_parse_expr_succ]
          | rw [parser_parse_terminal_expr_succ])
        try simp [h2, parser_parse_number, parser_advance_nil, parser_advance_plus,
          set_top_level, token_to_double, text_of_span_end]
    · simp only [parse_source, parser_create, lexer_create, parser_advance_minus]
      repeat
        (first
          | rw [parser_parse_expr_succ]
          | rw [parser_parse_terminal_expr_succ])
        try simp [h2, parser_parse_number, parser_advance_nil, parser_advance_minus,
          set_top_level, token_to_double, text_of_span_end]
  refine ⟨hp, ?_⟩
  have hs : ';' ∉ sign :: c := by
    rcases hsign with ⟨rfl, _⟩ | ⟨rfl, _⟩ <;> simp [hsep]
  rw [gen_code, strtok_all_single _ (by simp) hs]
  have hcls : get_node_class_of_type t = .NC_UNARY := by
    rcases hsign with ⟨_, rfl⟩ | ⟨_, rfl⟩ <;> rfl
  simp [gen_code_loop, asm_writer_create_eq, hp, parse_expr_tree_unary, hcls,
    get_data_number, emit_fresh, pushInstructionArr]

/-- C32. Lowering does not tell a positive node from a negative node: for
every operand tree and every writer, whatever its register counter, lowering
the positive node over the operand and lowering the negative node over it
give the same result, as a statement and as an operand; when it succeeds the
instruction written last is the negate instruction over the lowered operand.
For a number literal `c` the sources `+c` and `-c` parse to the positive and
the negative node over `c`, `gen_code` produces for both the single
instruction that negates `c` into register 0, and running it stores `-c` in
register 0. -/
theorem C32_plus_lowers_as_negate (o : ExprNode) (tl1 tl2 : Bool) (aw : AsmWriter)
    (c : List Char) (hc : is_number_literal c = true) (fuel : Nat) (mem : InstrVM) :
    parse_expr_tree (.unary .NT_POSITIVE o tl1) aw
        = parse_expr_tree (.unary .NT_NEGATIVE o tl2) aw
    ∧ get_data (.unary .NT_POSITIVE o tl1) aw = get_data (.unary .NT_NEGATIVE o tl2) aw
    ∧ (∀ v aw1, parse_expr_tree (.unary .NT_POSITIVE o tl1) aw = .ok (v, aw1) →
        ∃ d aw0, get_data o aw = .ok (d, aw0)
          ∧ aw1.instructions
              = aw0.instructions ++ [⟨(aw0.cur_var : Int), .UNARY d .NEG⟩]
          ∧ v = (aw0.cur_var : Int) ∧ aw1.cur_var = aw0.cur_var + 1)
    ∧ parse_source (fuel + 4) ('+' :: c)
        = .ok (.unary .NT_POSITIVE (.number (strtod c) false) true)
    ∧ parse_source (fuel + 4) ('-' :: c)
        = .ok (.unary .NT_NEGATIVE (.number (strtod c) false) true)
    ∧ gen_code (fuel + 4) ('+' :: c) = .ok [⟨0, .UNARY (.CONSTANT (strtod c)) .NEG⟩]
    ∧ gen_code (fuel + 4) ('-' :: c) = .ok [⟨0, .UNARY (.CONSTANT (strtod c)) .NEG⟩]
    ∧ ∃ vm, run_instructions mem [⟨0, .UNARY (.CONSTANT (strtod c)) .NEG⟩] = .finished vm []
        ∧ vm.vars 0 = - strtod c := by
  have hpos := gen_code_signed_literal '+' .NT_POSITIVE c hc fuel (Or.inl ⟨rfl, rfl⟩)
  have hneg := gen_code_signed_literal '-' .NT_NEGATIVE c hc fuel (Or.inr ⟨rfl, rfl⟩)
  have hpe : parse_expr_tree (.unary .NT_POSITIVE o tl1) aw
      = parse_expr_tree (.unary .NT_NEGATIVE o tl2) aw := by
    rw [parse_expr_tree_unary, parse_expr_tree_unary]
    rfl
  refine ⟨hpe, ?_, ?_, hpos.1, hneg.1, hpos.2, hneg.2, ?_⟩
  · rw [get_data_unary, get_data_unary, hpe]
  · intro v aw1 h
    rw [parse_expr_tree_unary] at h
    simp only [get_node_class_of_type] at h
    cases hg : get_data o aw with
    | error err => rw [hg] at h; cases h
    | ok x =>
      obtain ⟨d, aw0⟩ := x
      rw [hg] at h
      simp only [Except.ok.injEq, emit_fresh, pushInstructionArr, Prod.mk.injEq] at h
      obtain ⟨rfl, rfl⟩ := h
      exact ⟨d, aw0, rfl, rfl, rfl, rfl⟩
  · refine ⟨⟨Function.update mem.vars 0 (- strtod c), mem.var_names, 0⟩, ?_, by simp⟩
    simp [run_instructions, run_loop, exec_instruction, vm_get_var]

/-- C32 at the literal 5. -/
theorem C32_plus_lowers_as_negate_witness :
    gen_code (0 + 4) ('+' :: ['5']) = .ok [⟨0, .UNARY (.CONSTANT (strtod ['5'])) .NEG⟩]
    ∧ gen_code (0 + 4) ('-' :: ['5']) = .ok [⟨0, .UNARY (.CONSTANT (strtod ['5'])) .NEG⟩]
    ∧ ∃ vm, run_instructions zero_memory [⟨0, .UNARY (.CONSTANT (strtod ['5'])) .NEG⟩]
          = .finished vm []
        ∧ vm.vars 0 = - strtod ['5'] :=
  (C32_plus_lowers_as_negate .null false false ⟨[], 0, 0⟩ ['5'] (by decide) 0
    zero_memory).2.2.2.2.2

/-! ## The tokenizer: progress and the end token -/

theorem skip_whitespace_length_le (cur : List Char) :
    ∀ line : Nat, (skip_whitespace cur line).1.length ≤ cur.length := by
  induction cur with
  | nil => intro line; simp [skip_whitespace]
  | cons c cs ih =>
    intro line
    simp only [skip_whitespace]
    split
    · exact Nat.le_succ_of_le (ih _)
    · exact Nat.le_refl _

theorem skip_whitespace_stop (x : List Char) (line : Nat) (h : peek x = '\x00') :
    skip_whitespace x line = (x, line) := by
  cases x with
  | nil => rfl
  | cons c cs =>
    have hc : c = '\x00' := h
    subst hc
    simp [skip_whitespace, is_whitespace]

theorem skip_digits_length_le (p : List Char) : (skip_digits p).length ≤ p.length :=
  (List.dropWhile_suffix is_digit).length_le

theorem skip_alpha_length_le (p : List Char) : (skip_alpha p).length ≤ p.length :=
  (List.dropWhile_suffix isalpha).length_le

/-- The shape of the result of one call: the token starts at the cursor
reached after the whitespace and spans what the call consumed; either it is
the end token and nothing was consumed, or something was. -/
theorem lexer_next_token_shape (lexer : Lexer) :
    ∃ cur2 ty,
      lexer_next_token lexer
        = (⟨ty, (skip_whitespace lexer.current lexer.line).1,
            (skip_whitespace lexer.current lexer.line).1.length - cur2.length,
            (skip_whitespace lexer.current lexer.line).2⟩,
           ⟨(skip_whitespace lexer.current lexer.line).1, cur2,
            (skip_whitespace lexer.current lexer.line).2, lexer.length⟩)
      ∧ ((ty = .TT_EOF ∧ cur2 = (skip_whitespace lexer.current lexer.line).1
            ∧ peek cur2 = '\x00')
          ∨ (ty ≠ .TT_EOF
            ∧ cur2.length < (skip_whitespace lexer.current lexer.line).1.length)) := by
  obtain ⟨st, cur, line, len⟩ := lexer
  simp only [lexer_next_token, lexer_number, lexer_identifier, lexer_make_token]
  generalize skip_whitespace cur line = r
  obtain ⟨x, l⟩ := r
  dsimp only
  by_cases h0 : peek x = '\x00'
  · simp only [if_pos h0]
    exact ⟨x, .TT_EOF, rfl, Or.inl ⟨rfl, rfl, h0⟩⟩
  simp only [if_neg h0]
  have hx : ∃ c cs, x = c :: cs := by
    cases x with
    | nil => exact absurd rfl h0
    | cons c cs => exact ⟨c, cs, rfl⟩
  obtain ⟨c, cs, rfl⟩ := hx
  simp only [List.tail_cons]
  by_cases h1 : peek (c :: cs) = '+'
  · simp only [if_pos h1]
    exact ⟨cs, .TT_PLUS, rfl, Or.inr ⟨by simp, by simp⟩⟩
  simp only [if_neg h1]
  by_cases h2 : peek (c :: cs) = '-'
  · simp only [if_pos h2]
    exact ⟨cs, .TT_MINUS, rfl, Or.inr ⟨by simp, by simp⟩⟩
  simp only [if_neg h2]
  by_cases h3 : peek (c :: cs) = '*'
  · simp only [if_pos h3]
    exact ⟨cs, .TT_STAR, rfl, Or.inr ⟨by simp, by simp⟩⟩
  simp only [if_neg h3]
  by_cases h4 : peek (c :: cs) = '/'
  · simp only [if_pos h4]
    exact ⟨cs, .TT_SLASH, rfl, Or.inr ⟨by simp, by simp⟩⟩
  simp only [if_neg h4]
  by_cases h5 : peek (c :: cs) = '('
  · simp only [if_pos h5]
    exact ⟨cs, .TT_LPAREN, rfl, Or.inr ⟨by simp, by simp⟩⟩
  simp only [if_neg h5]
  by_cases h6 : peek (c :: cs) = ')'
  · simp only [if_pos h6]
    exact ⟨cs, .TT_RPAREN, rfl, Or.inr ⟨by simp, by simp⟩⟩
  simp only [if_neg h6]
  by_cases h7 : peek (c :: cs) = ','
  · simp only [if_pos h7]
    exact ⟨cs, .TT_COMMA, rfl, Or.inr ⟨by simp, by simp⟩⟩
  simp only [if_neg h7]
  by_cases h8 : peek (c :: cs) = '='
  · simp only [if_pos h8]
    exact ⟨cs, .TT_ASSIGN, rfl, Or.inr ⟨by simp, by simp⟩⟩
  simp only [if_neg h8]
  by_cases h9 : is_digit (peek (c :: cs)) = true
  · simp only [if_pos h9]
    refine ⟨_, .TT_NUM, rfl, Or.inr ⟨by simp, ?_⟩⟩
    have a1 := skip_digits_length_le cs
    have a2 := skip_digits_length_le (skip_digits cs).tail
    have a3 : (skip_digits cs).tail.length ≤ (skip_digits cs).length := by
      rw [List.length_tail]; omega
    split
    · simp only [List.length_cons]; omega
    · simp only [List.length_cons]; omega
  simp only [if_neg h9]
  by_cases h10 : isalpha (peek (c :: cs)) = true
  · simp only [if_pos h10]
    refine ⟨_, .TT_IDENT, rfl, Or.inr ⟨by simp, ?_⟩⟩
    have a1 := skip_alpha_length_le cs
    simp only [List.length_cons]; omega
  simp only [if_neg h10]
  exact ⟨cs, .TT_ERROR, rfl, Or.inr ⟨by simp, by simp⟩⟩

/-- A call that returns a token other than the end token consumes at least
one character. -/
theorem lexer_next_token_progress (lexer : Lexer)
    (h : (lexer_next_token lexer).1.type ≠ .TT_EOF) :
    1 ≤ (lexer_next_token lexer).1.length
    ∧ (lexer_next_token lexer).2.current.length < lexer.current.length := by
  obtain ⟨cur2, ty, e, hcase⟩ := lexer_next_token_shape lexer
  have hle := skip_whitespace_length_le lexer.current lexer.line
  rw [e] at h ⊢
  rcases hcase with ⟨hty, _, _⟩ | ⟨_, hlt⟩
  · exact absurd hty h
  · simp only
    omega

/-- After the end token every call returns the end token again and leaves the
tokenizer as it is. -/
theorem lexer_next_token_eof (lexer : Lexer)
    (h : (lexer_next_token lexer).1.type = .TT_EOF) :
    lexer_next_token (lexer_next_token lexer).2 = lexer_next_token lexer := by
  obtain ⟨cur2, ty, e, hcase⟩ := lexer_next_token_shape lexer
  rw [e] at h ⊢
  rcases hcase with ⟨hty, hcur, hpeek⟩ | ⟨hne, _⟩
  · subst hty
    rw [← hcur]
    simp [lexer_next_token, skip_whitespace_stop cur2 _ hpeek, hpeek, lexer_make_token]
  · exact absurd h hne

theorem token_stream_eof (lexer : Lexer) (h : (lexer_next_token lexer).1.type = .TT_EOF) :
    ∀ m, token_stream m (lexer_next_token lexer).2
      = List.replicate m (lexer_next_token lexer).1 := by
  intro m
  induction m with
  | zero => rfl
  | succ m ih =>
    simp only [token_stream, List.replicate_succ]
    rw [lexer_next_token_eof lexer h, ih]

/-- From any state, the tokens other than the end token are at most as many
as the characters left, and then the end token repeats. -/
theorem token_stream_ends (n : Nat) : ∀ lexer : Lexer, lexer.current.length = n →
    ∃ i pre t, i ≤ n ∧ pre.length = i ∧ (∀ p ∈ pre, p.type ≠ .TT_EOF) ∧ t.type = .TT_EOF
      ∧ ∀ m, token_stream (i + 1 + m) lexer = pre ++ t :: List.replicate m t := by
  induction n using Nat.strong_induction_on with
  | _ n ih =>
    intro lexer hn
    by_cases h : (lexer_next_token lexer).1.type = .TT_EOF
    · refine ⟨0, [], (lexer_next_token lexer).1, Nat.zero_le _, rfl, by simp, h, ?_⟩
      intro m
      have e : 0 + 1 + m = m + 1 := by omega
      rw [e]
      simp only [token_stream, List.nil_append]
      rw [token_stream_eof lexer h]
    · obtain ⟨_, hlt⟩ := lexer_next_token_progress lexer h
      rw [hn] at hlt
      obtain ⟨i, pre, t, hi, hlen, hpre, ht, hstream⟩ :=
        ih _ hlt (lexer_next_token lexer).2 rfl
      refine ⟨i + 1, (lexer_next_token lexer).1 :: pre, t, by omega, by simp [hlen], ?_, ht,
        ?_⟩
      · intro p hp
        rcases List.mem_cons.1 hp with rfl | hp
        · exact h
        · exact hpre p hp
      · intro m
        have e : i + 1 + 1 + m = (i + 1 + m) + 1 := by omega
        rw [e]
        simp only [token_stream, List.cons_append]
        rw [hstream m]

/-- C33. One call of the tokenizer that returns a token other than the end
token returns a token of length at least 1 and leaves strictly fewer
characters after the cursor. One call that returns the end token leaves a
state from which every further call returns that same end token and the same
state. Hence from any state with `n` characters after the cursor, and so for
every source of length `n`, the token stream is at most `n` tokens other than
the end token, followed by the end token for ever. -/
theorem C33_token_stream_finite (lexer : Lexer) (src : List Char) :
    ((lexer_next_token lexer).1.type ≠ .TT_EOF →
        1 ≤ (lexer_next_token lexer).1.length
        ∧ (lexer_next_token lexer).2.current.length < lexer.current.length)
    ∧ ((lexer_next_token lexer).1.type = .TT_EOF →
        lexer_next_token (lexer_next_token lexer).2 = lexer_next_token lexer
        ∧ (lexer_next_token lexer).2.current
            = (skip_whitespace lexer.current lexer.line).1
        ∧ ∀ m, token_stream m (lexer_next_token lexer).2
            = List.replicate m (lexer_next_token lexer).1)
    ∧ (∃ i pre t, i ≤ lexer.current.length ∧ pre.length = i
        ∧ (∀ p ∈ pre, p.type ≠ .TT_EOF) ∧ t.type = .TT_EOF
        ∧ ∀ m, token_stream (i + 1 + m) lexer = pre ++ t :: List.replicate m t)
    ∧ (∃ i pre t, i ≤ src.length ∧ pre.length = i
        ∧ (∀ p ∈ pre, p.type ≠ .TT_EOF) ∧ t.type = .TT_EOF
        ∧ ∀ m, token_stream (i + 1 + m) (lexer_create src) = pre ++ t :: List.replicate m t) := by
  refine ⟨lexer_next_token_progress lexer, ?_, token_stream_ends _ lexer rfl,
    token_stream_ends _ (lexer_create src) rfl⟩
  intro h
  refine ⟨lexer_next_token_eof lexer h, ?_, token_stream_eof lexer h⟩
  obtain ⟨cur2, ty, e, hcase⟩ := lexer_next_token_shape lexer
  rw [e] at h ⊢
  rcases hcase with ⟨_, hcur, _⟩ | ⟨hne, _⟩
  · exact hcur
  · exact absurd h hne

end ExprAsm
